import Mathlib

/-!
# cstem: bouquet assembly from a stream of stems

A shallow embedding of `src/cstem.c` and a verification of its recipe
tightening (`new_design`) and of its matching engine (`division_add_stem`).

Conventions of the embedding:

* `int8_t` and `int16_t` values are integers; every store into such a variable
  goes through `wrap8` / `wrap16` (two's complement conversion).
* A `__m256i` vector, and the arrays `stock` and `max_per_species`, are functions
  from the lane index to the lane value.
* A C string is a `List Char`; reading at the end of the list reads the
  terminating NUL.
* `panic` (which exits the process) is the result `none`.
* `naive_scan`, `naive_add_stem` and `naive_add_stems` are not part of the source:
  they are the reference engine of the refinement claim, over unbounded counts.
-/

namespace Cstem

/-! ## Machine integers and constants -/

/-- Conversion of an integer to `int8_t`. -/
def wrap8 (x : Int) : Int := (x + 128) % 256 - 128

/-- Conversion of an integer to `int16_t`. -/
def wrap16 (x : Int) : Int := (x + 32768) % 65536 - 32768

def MAX_DESIGNS : Nat := 26

def NUMBER_OF_SPECIES : Nat := 26

def INT8_MAX : Int := 127

/-- Largest `unsigned long` (64 bit). -/
def ULONG_MAX : Nat := 2 ^ 64 - 1

/-! ## Data model -/

/-- The enum `Size`: `Small = 'S'`, `Large = 'L'`. -/
inductive Size where
  | Small
  | Large
  deriving DecidableEq, Repr

/-- The character value of a `Size`. -/
def Size.toChar : Size → Char
  | Size.Small => 'S'
  | Size.Large => 'L'

structure Stem where
  species : Char
  size : Size
  deriving DecidableEq, Repr

structure Design where
  min_stems : Nat → Int
  max_stems : Nat → Int
  name : Char
  size : Size
  total : Int

/-- The struct `Division`. The array `designs` is held as the list of its non-NULL
leading entries, whose length is `_designs_insert_index`. -/
structure Division where
  minimal_stock : Nat → Int
  stock : Nat → Int
  max_per_species : Nat → Int
  designs : List Design

structure Warehouse where
  small : Division
  large : Division

/-- One bouquet as handed to the `printf` calls of `division_add_stem`: the design
that matched, its position in `designs`, the final hand `h`, and the value of
`excess_amount` when the trimming is over. -/
structure Bouquet where
  design_index : Nat
  design : Design
  amounts : Nat → Int
  excess_amount : Int

/-! ## Parsing -/

def parse_design_name (input : Char) : Option Char :=
  if 65 ≤ input.toNat ∧ input.toNat ≤ 90 then some input else none

def parse_species (input : Char) : Option Char :=
  if 97 ≤ input.toNat ∧ input.toNat ≤ 122 then some input else none

def parse_size (input : Char) : Option Size :=
  if input = 'S' then some Size.Small
  else if input = 'L' then some Size.Large
  else none

/-- The character at the head of a C string (NUL at its end). -/
def peek (input : List Char) : Char := input.headD (Char.ofNat 0)

def parse_stem (input : List Char) : Option Stem :=
  match parse_species (peek input) with
  | none => none
  | some species =>
    match parse_size (peek input.tail) with
    | none => none
    | some size =>
      let c := peek input.tail.tail
      if c = '\n' ∨ c = Char.ofNat 0 then some ⟨species, size⟩ else none

/-- C library `isspace` in the "C" locale. -/
def isspace (c : Char) : Bool := c.toNat = 32 || (9 ≤ c.toNat && c.toNat ≤ 13)

/-- C library `isdigit`. -/
def isdigit (c : Char) : Bool := 48 ≤ c.toNat && c.toNat ≤ 57

/-- The digit loop of `strtoul`: the value read so far and the unread rest. -/
def strtoul_digits : Nat → List Char → Nat × List Char
  | acc, [] => (acc, [])
  | acc, c :: cs =>
    if isdigit c then strtoul_digits (acc * 10 + (c.toNat - 48)) cs else (acc, c :: cs)

/-- C library `strtoul(input, &input, 10)`: skips white space, takes an optional
sign and then decimal digits; returns the value and the unread rest. Without any
digit the value is 0 and nothing is consumed; a value beyond `ULONG_MAX` gives
`ULONG_MAX`; a minus sign negates modulo `2 ^ 64`. -/
def strtoul (input : List Char) : Nat × List Char :=
  let s := input.dropWhile isspace
  let negative : Bool := peek s = '-'
  let s1 := if peek s = '-' ∨ peek s = '+' then s.tail else s
  if isdigit (peek s1) then
    let r := strtoul_digits 0 s1
    let v := if r.1 > ULONG_MAX then ULONG_MAX
             else if negative then (2 ^ 64 - r.1) % 2 ^ 64 else r.1
    (v, r.2)
  else (0, input)

/-- What the parsing loop of `new_design` leaves behind. -/
structure Parsed where
  min_stems : Nat → Int
  max_stems : Nat → Int
  species_count : Int
  total : Int

/-- The `while (true)` loop of `new_design`. Every round consumes at least one
character, so `input.length + 1` rounds of fuel always suffice. -/
def parse_loop : Nat → List Char → (Nat → Int) → (Nat → Int) → Int → Option Parsed
  | 0, _, _, _, _ => none
  | fuel + 1, input, min_stems, max_stems, species_count =>
    let r := strtoul input
    let max := wrap8 r.1
    let species := peek r.2
    if species = Char.ofNat 0 ∨ species = '\n' then
      some ⟨min_stems, max_stems, species_count, max⟩
    else
      match parse_species species with
      | none => none
      | some _ =>
        let species_index := species.toNat - 97
        parse_loop fuel r.2.tail
          (Function.update min_stems species_index 1)
          (Function.update max_stems species_index max)
          (wrap8 (species_count + 1))

/-- First optimisation loop of `new_design`: lowers every lane of `max_stems` to
`max_per_species` and sums the lowered lanes in an `int8_t`. -/
def tighten_max (max_per_species : Int) (max_stems : Nat → Int) : (Nat → Int) × Int :=
  (List.range NUMBER_OF_SPECIES).foldl
    (fun (acc : (Nat → Int) × Int) species_index =>
      let species_max := acc.1 species_index
      let new_max := min species_max max_per_species
      (Function.update acc.1 species_index new_max, wrap8 (acc.2 + new_max)))
    (max_stems, 0)

/-- Second optimisation loop of `new_design`: raises the minimum of every lane
whose maximum is not zero. -/
def tighten_min (total sum_of_max_species : Int) (max_stems min_stems : Nat → Int) :
    Nat → Int :=
  (List.range NUMBER_OF_SPECIES).foldl
    (fun (acc : Nat → Int) species_index =>
      let species_max := max_stems species_index
      if species_max ≠ 0 then
        let sum_of_other_species_max := wrap8 (sum_of_max_species - species_max)
        let species_min :=
          if sum_of_other_species_max < total then wrap8 (total - sum_of_other_species_max)
          else 1
        Function.update acc species_index species_min
      else acc)
    min_stems

/-- The part of `new_design` after the parsing loop. -/
def tighten (name : Char) (size : Size) (p : Parsed) : Design :=
  let max_per_species := wrap8 (1 + p.total - p.species_count)
  let m := tighten_max max_per_species p.max_stems
  { min_stems := tighten_min p.total m.2 m.1 p.min_stems
    max_stems := m.1
    name := name
    size := size
    total := p.total }

def new_design (input : List Char) : Option Design :=
  match parse_design_name (peek input) with
  | none => none
  | some name =>
    match parse_size (peek input.tail) with
    | none => none
    | some size =>
      match parse_loop (input.tail.tail.length + 1) input.tail.tail
          (fun _ => 0) (fun _ => 0) 0 with
      | none => none
      | some p => some (tighten name size p)

/-! ## Divisions and the warehouse -/

/-- The function `new_division`. `posix_memalign` does not clear the block: the
previous contents of `minimal_stock` and `stock` are parameters. `memset` clears
`NUMBER_OF_SPECIES` bytes of `stock`, that is its first 13 `int16_t` entries. -/
def new_division (uninit_minimal_stock uninit_stock : Nat → Int) : Division :=
  { minimal_stock := uninit_minimal_stock
    stock := fun i => if i < 13 then 0 else uninit_stock i
    max_per_species := fun _ => 0
    designs := [] }

/-- The function `division_add_design`. A store at index 26 or beyond falls outside
the array `designs` and has no defined result. -/
def division_add_design (division : Division) (design : Design) : Option Division :=
  if division.designs.length < NUMBER_OF_SPECIES then
    some { division with designs := division.designs ++ [design] }
  else none

/-- Inner loop of `make_division_production_ready` for one design. -/
def raise_max_per_species (max_per_species : Nat → Int) (design : Design) : Nat → Int :=
  (List.range NUMBER_OF_SPECIES).foldl
    (fun (acc : Nat → Int) species_index =>
      let current_species_max := design.max_stems species_index
      let all_species_max := acc species_index
      if current_species_max > all_species_max then
        Function.update acc species_index current_species_max
      else acc)
    max_per_species

def make_division_production_ready (division : Division) : Division :=
  { division with
    max_per_species :=
      (division.designs.take MAX_DESIGNS).foldl raise_max_per_species
        division.max_per_species }

def warehouse_division (warehouse : Warehouse) (size : Size) : Division :=
  match size with
  | Size.Small => warehouse.small
  | Size.Large => warehouse.large

def make_warehouse_production_ready (warehouse : Warehouse) : Warehouse :=
  { small := make_division_production_ready warehouse.small
    large := make_division_production_ready warehouse.large }

/-! ## The matching engine -/

/-- The lanewise `_mm256_min_epi8 (minimal_stock, max_stems)`. -/
def hand_of (minimal_stock max_stems : Nat → Int) : Nat → Int :=
  fun i => min (minimal_stock i) (max_stems i)

/-- Sum of the lanes `0 .. n-1`. -/
def lane_sum (h : Nat → Int) (n : Nat) : Int := ((List.range n).map h).sum

/-- The `int8_t amount_in_hand = h[0] + ... + h[25]`. -/
def amount_in_hand (h : Nat → Int) : Int := wrap8 (lane_sum h 26)

/-- The test `is_ge`: every one of the 32 lanes of `hand` is equal to or greater
than the lane of `min_stems`. -/
def is_ge (hand min_stems : Nat → Int) : Bool :=
  (List.range 32).all fun i => decide (hand i = min_stems i) || decide (hand i > min_stems i)

/-- The trimming loop of `division_add_stem` over the given lanes, with its `break`. -/
def trim_loop (excess_stems : Nat → Int) : List Nat → (Nat → Int) → Int → (Nat → Int) × Int
  | [], h, excess_amount => (h, excess_amount)
  | species_index :: rest, h, excess_amount =>
    let stem_amount := excess_stems species_index
    if stem_amount = 0 then trim_loop excess_stems rest h excess_amount
    else
      let return_amount := min excess_amount stem_amount
      let h1 := Function.update h species_index (wrap8 (h species_index - return_amount))
      let excess1 := wrap8 (excess_amount - return_amount)
      if excess1 = 0 then (h1, excess1) else trim_loop excess_stems rest h1 excess1

/-- The block of `division_add_stem` that returns the excess stems: the final hand
and the final `excess_amount`. -/
def trim (design : Design) (hand : Nat → Int) : (Nat → Int) × Int :=
  let excess_amount := wrap8 (amount_in_hand hand - design.total)
  if excess_amount ≠ 0 then
    let excess_stems : Nat → Int := fun i => wrap8 (hand i - design.min_stems i)
    trim_loop excess_stems (List.range 26) hand excess_amount
  else (hand, excess_amount)

/-- The output loop of `division_add_stem`: takes the amounts `h` out of the stock
and resets `minimal_stock` for the species taken. -/
def withdraw (h : Nat → Int) (division : Division) : Division :=
  (List.range 26).foldl
    (fun (acc : Division) species_index =>
      let amount := h species_index
      if amount = 0 then acc
      else
        let stock1 := wrap16 (acc.stock species_index - amount)
        { acc with
          stock := Function.update acc.stock species_index stock1
          minimal_stock :=
            Function.update acc.minimal_stock species_index (wrap8 (min stock1 INT8_MAX)) })
    division

/-- Both tests a design has to pass in the scan of `division_add_stem`. -/
def passes (minimal_stock : Nat → Int) (design : Design) : Bool :=
  let hand := hand_of minimal_stock design.max_stems
  !decide (amount_in_hand hand < design.total) && is_ge hand design.min_stems

/-- The scan over the designs in `division_add_stem`, from position `design_index`
on: the first design that passes both tests is trimmed and emitted. -/
def scan (division : Division) : List Design → Nat → Division × Option Bouquet
  | [], _ => (division, none)
  | design :: rest, design_index =>
    if passes division.minimal_stock design then
      let t := trim design (hand_of division.minimal_stock design.max_stems)
      (withdraw t.1 division, some ⟨design_index, design, t.1, t.2⟩)
    else scan division rest (design_index + 1)

/-- The statement `division->stock[species_index] += 1`. -/
def count_in_stock (division : Division) (species_index : Nat) : Division :=
  { division with
    stock := Function.update division.stock species_index
      (wrap16 (division.stock species_index + 1)) }

/-- The statement `((int8_t *)&division->minimal_stock)[species_index] += 1`. -/
def count_in_minimal_stock (division : Division) (species_index : Nat) : Division :=
  { division with
    minimal_stock := Function.update division.minimal_stock species_index
      (wrap8 (division.minimal_stock species_index + 1)) }

/-- The function `division_add_stem`, for a species character in `'a' .. 'z'`; the
bouquet is what it prints, if anything. -/
def division_add_stem (division : Division) (species : Char) : Division × Option Bouquet :=
  let species_index := species.toNat - 97
  let division1 := count_in_stock division species_index
  if division1.stock species_index > division1.max_per_species species_index then
    (division1, none)
  else
    let division2 := count_in_minimal_stock division1 species_index
    scan division2 (division2.designs.take NUMBER_OF_SPECIES) 0

/-- The text of one bouquet: name, size, then amount (as `%hhu`) and species for
every lane with a nonzero amount, then the newline of `puts`. -/
def bouquet_text (b : Bouquet) : List Char :=
  [b.design.name, b.design.size.toChar]
    ++ (List.range 26).flatMap (fun species_index =>
          let amount := b.amounts species_index
          if amount = 0 then []
          else Nat.toDigits 10 (amount % 256).toNat ++ [Char.ofNat (species_index + 97)])
    ++ ['\n']

/-- Stems of one division processed one after the other, with the bouquets emitted. -/
def add_stems (division : Division) : List Char → Division × List Bouquet
  | [] => (division, [])
  | species :: rest =>
    let r := division_add_stem division species
    let rs := add_stems r.1 rest
    (rs.1, r.2.toList ++ rs.2)

/-- The first loop of `main`: every design record is parsed and registered. -/
def read_designs (warehouse : Warehouse) : List (List Char) → Option Warehouse
  | [] => some warehouse
  | input :: rest =>
    match new_design input with
    | none => none
    | some design =>
      match division_add_design (warehouse_division warehouse design.size) design with
      | none => none
      | some division =>
        match design.size with
        | Size.Small => read_designs { warehouse with small := division } rest
        | Size.Large => read_designs { warehouse with large := division } rest

/-- The second loop of `main`: every stem record is parsed and added to its
division; the lines printed so far, and whether the loop ended without `panic`. -/
def read_stems (warehouse : Warehouse) : List (List Char) → List (List Char) × Bool
  | [] => ([], true)
  | input :: rest =>
    match parse_stem input with
    | none => ([], false)
    | some stem =>
      let r := division_add_stem (warehouse_division warehouse stem.size) stem.species
      let warehouse1 : Warehouse :=
        match stem.size with
        | Size.Small => { warehouse with small := r.1 }
        | Size.Large => { warehouse with large := r.1 }
      let rs := read_stems warehouse1 rest
      ((r.2.toList.map bouquet_text) ++ rs.1, rs.2)

/-- The function `new_warehouse`, from the previous contents of the two blocks. -/
def new_warehouse (uninit_small_minimal uninit_small_stock uninit_large_minimal
    uninit_large_stock : Nat → Int) : Warehouse :=
  { small := new_division uninit_small_minimal uninit_small_stock
    large := new_division uninit_large_minimal uninit_large_stock }

/-- The function `main` on the design lines and the stem lines that `readline` hands
over, from the previous contents of the blocks of both divisions: the lines printed,
and whether the run ended without `panic`. -/
def main (uninit_small_minimal uninit_small_stock uninit_large_minimal
    uninit_large_stock : Nat → Int) (design_lines stem_lines : List (List Char)) :
    List (List Char) × Bool :=
  match read_designs (new_warehouse uninit_small_minimal uninit_small_stock
      uninit_large_minimal uninit_large_stock) design_lines with
  | none => ([], false)
  | some warehouse => read_stems (make_warehouse_production_ready warehouse) stem_lines

/-! ## Design records and pools, as the claims speak of them -/

/-- A design record `<NAME><SIZE>(<count><species>)*<total>`, every count and the
total written as a string of characters. -/
structure Record where
  name : Char
  size : Char
  pairs : List (List Char × Char)
  total : List Char

/-- The line of text of a record. -/
def Record.text (r : Record) : List Char :=
  r.name :: r.size :: (r.pairs.flatMap (fun p => p.1 ++ [p.2]) ++ r.total)

/-- The value of a string of decimal digits. -/
def number (ds : List Char) : Nat := ds.foldl (fun acc c => acc * 10 + (c.toNat - 48)) 0

/-- A decimal count in `0 .. 127`: a nonempty string of digits of value at most 127. -/
def IsCount (ds : List Char) : Prop :=
  ds ≠ [] ∧ (∀ c ∈ ds, isdigit c = true) ∧ number ds ≤ 127

instance (ds : List Char) : Decidable (IsCount ds) := by
  unfold IsCount; infer_instance

/-- The lane of a species character. -/
def lane (species : Char) : Nat := species.toNat - 97

/-- A lowercase species character. -/
def IsSpecies (species : Char) : Prop := 97 ≤ species.toNat ∧ species.toNat ≤ 122

instance (species : Char) : Decidable (IsSpecies species) := by
  unfold IsSpecies; infer_instance

/-- A syntactically valid record: valid name and size, distinct lowercase species,
decimal counts and total in `0 .. 127`. -/
structure Record.Valid (r : Record) : Prop where
  name_ok : 65 ≤ r.name.toNat ∧ r.name.toNat ≤ 90
  size_ok : r.size = 'S' ∨ r.size = 'L'
  counts_ok : ∀ p ∈ r.pairs, IsCount p.1
  species_ok : ∀ p ∈ r.pairs, IsSpecies p.2
  distinct : (r.pairs.map (fun p => p.2)).Nodup
  total_ok : IsCount r.total

/-- The given count `g[s]` of the species in lane `i` (0 when it is not listed). -/
def given_of : List (List Char × Char) → Nat → Int
  | [], _ => 0
  | p :: ps, i => if lane p.2 = i then (number p.1 : Int) else given_of ps i

/-- The given count of lane `i` in a record. -/
def Record.given (r : Record) (i : Nat) : Int := given_of r.pairs i

/-- Lane `i` belongs to a species listed in the record. -/
def Record.listed (r : Record) (i : Nat) : Prop := i ∈ r.pairs.map (fun p => lane p.2)

instance (r : Record) (i : Nat) : Decidable (r.listed i) := by
  unfold Record.listed; infer_instance

/-- The number `k` of listed species. -/
def Record.k (r : Record) : Int := (r.pairs.length : Int)

/-- The total `T` of a record. -/
def Record.T (r : Record) : Int := (number r.total : Int)

/-- The sum of the given counts. -/
def Record.sum_given (r : Record) : Int := (r.pairs.map (fun p => (number p.1 : Int))).sum

/-- A well-formed record: syntactically valid, every count at least 1, no more listed
species than the total, and the counts sum to at most 127. -/
structure Record.WellFormed (r : Record) : Prop where
  valid : r.Valid
  counts_pos : ∀ p ∈ r.pairs, 1 ≤ number p.1
  k_le_total : r.k ≤ r.T
  sum_le : r.sum_given ≤ 127

/-- A valid allocation of a record: every listed species gets between 1 and its given
count, every other lane gets 0, and the 26 lanes sum to the total. -/
def Record.ValidAllocation (r : Record) (x : Nat → Int) : Prop :=
  (∀ i, r.listed i → 1 ≤ x i ∧ x i ≤ r.given i) ∧ (∀ i, ¬ r.listed i → x i = 0) ∧
    lane_sum x 26 = r.T

/-- A division with empty stock: `new_division` on a block that happened to be clear. -/
def empty_division : Division := new_division (fun _ => 0) (fun _ => 0)

/-- The pool of the given designs: registered in order into an empty division, which
is then made production ready. -/
def pool_of (designs : List Design) : Option Division :=
  (designs.foldlM division_add_design empty_division).map make_division_production_ready

/-- A design is completable from a stock: taking `min (stock s) (max s)` of every
species reaches the total and every minimum. -/
def completable (stock : Nat → Int) (d : Design) : Prop :=
  lane_sum (fun s => min (stock s) (d.max_stems s)) 26 ≥ d.total ∧
    ∀ s < 26, min (stock s) (d.max_stems s) ≥ d.min_stems s

instance (stock : Nat → Int) (d : Design) : Decidable (completable stock d) := by
  unfold completable; infer_instance

/-- What the parsing loop of `new_design` leaves behind on a valid record. -/
def Record.parsed (r : Record) : Parsed :=
  { min_stems := fun i => if i ∈ r.pairs.map (fun p => lane p.2) then 1 else 0
    max_stems := r.given
    species_count := r.k
    total := r.T }

/-- The size a valid record names. -/
def Record.size_of (r : Record) : Size := if r.size = 'S' then Size.Small else Size.Large

/-- A design in tightened form, as the matching engine needs it: lanes between 0 and
127 whose maxima sum to at most 127, a positive minimum wherever the maximum is not
zero, minima that fit into the total, and nothing in the lanes 26 to 31. -/
structure Tight (d : Design) : Prop where
  max_nonneg : ∀ i, 0 ≤ d.max_stems i
  min_nonneg : ∀ i, 0 ≤ d.min_stems i
  min_pos : ∀ i, d.max_stems i ≠ 0 → 1 ≤ d.min_stems i
  sum_max_le : lane_sum d.max_stems 26 ≤ 127
  total_nonneg : 0 ≤ d.total
  sum_min_le : d.total ≤ lane_sum d.max_stems 26 → lane_sum d.min_stems 26 ≤ d.total
  hi : ∀ i, 26 ≤ i → d.max_stems i = 0 ∧ d.min_stems i = 0

/-- A design no stock can ever complete: some lane has its maximum below its minimum,
and no lane has a positive maximum. -/
structure Dead (d : Design) : Prop where
  blocked : ∃ i, i < 26 ∧ d.max_stems i < d.min_stems i
  max_nonpos : ∀ i, d.max_stems i ≤ 0
  hi : ∀ i, 26 ≤ i → d.max_stems i = 0 ∧ d.min_stems i = 0

/-- All stock counts stay below 32767 along the run: in the state reached after any
number of the given stems, every species has a stock below 32767. -/
def stock_below (p : Division) (stems : List Char) : Prop :=
  ∀ n, n ≤ stems.length → ∀ s, s < 26 → (add_stems p (stems.take n)).1.stock s < 32767

instance (p : Division) (stems : List Char) : Decidable (stock_below p stems) := by
  unfold stock_below; infer_instance

/-- The state of a division in which `minimal_stock` and `stock` go together: every
stock is between 0 and 32767, `minimal_stock` lies between the stock clipped to the ceiling and the
stock clipped to 127, every ceiling is between 0 and 127 and at least the maximum of
every design, and every design is tight or dead. -/
structure Synced (dv : Division) : Prop where
  stock_nonneg : ∀ i, 0 ≤ dv.stock i
  stock_le : ∀ i, dv.stock i ≤ 32767
  active_ge : ∀ i, min (dv.stock i) (dv.max_per_species i) ≤ dv.minimal_stock i
  active_le : ∀ i, dv.minimal_stock i ≤ min (dv.stock i) 127
  ceiling_range : ∀ i, 0 ≤ dv.max_per_species i ∧ dv.max_per_species i ≤ 127
  ceiling_ge : ∀ d ∈ dv.designs, ∀ i, d.max_stems i ≤ dv.max_per_species i
  sound : ∀ d ∈ dv.designs, Tight d ∨ Dead d
  len : dv.designs.length ≤ 26

/-- The sum of the stored maxima of the listed species other than the one in lane `i`. -/
def Record.others_max (r : Record) (d : Design) (i : Nat) : Int :=
  ((r.pairs.filter (fun p => lane p.2 ≠ i)).map (fun p => d.max_stems (lane p.2))).sum

/-! ## Records and pools used as examples -/

/-- The record `AS1a5`: its total is beyond its only count. -/
def record_AS1a5 : Record := ⟨'A', 'S', [(['1'], 'a')], ['5']⟩

/-- The record `AS100a100b100c127`: its counts sum to more than an `int8_t` holds. -/
def record_AS100a100b100c127 : Record :=
  ⟨'A', 'S', [(['1', '0', '0'], 'a'), (['1', '0', '0'], 'b'), (['1', '0', '0'], 'c')],
    ['1', '2', '7']⟩

/-- The record `BS9a2b9` of the second scenario. -/
def record_BS9a2b9 : Record := ⟨'B', 'S', [(['9'], 'a'), (['2'], 'b')], ['9']⟩

/-- The record `XS3a3` of the third scenario. -/
def record_XS3a3 : Record := ⟨'X', 'S', [(['3'], 'a')], ['3']⟩

/-- The record `YS2a2` of the third scenario. -/
def record_YS2a2 : Record := ⟨'Y', 'S', [(['2'], 'a')], ['2']⟩

/-- The design of the record `BS9a2b9`. -/
def design_BS9a2b9 : Design := tighten 'B' Size.Small record_BS9a2b9.parsed

/-- The design of the record `XS3a3`. -/
def design_XS3a3 : Design := tighten 'X' Size.Small record_XS3a3.parsed

/-- The design of the record `YS2a2`. -/
def design_YS2a2 : Design := tighten 'Y' Size.Small record_YS2a2.parsed

/-- The pool that holds the design `BS9a2b9` only. -/
def pool_B : Division :=
  make_division_production_ready { empty_division with designs := [design_BS9a2b9] }

/-- The pool that holds the designs `XS3a3` and `YS2a2`, in this order. -/
def pool_XY : Division :=
  make_division_production_ready
    { empty_division with designs := [design_XS3a3, design_YS2a2] }

/-- The record `AS1a1b1c1d1e1f1g1h1i3`: nine species for a total of three. -/
def record_A9 : Record :=
  ⟨'A', 'S', [(['1'], 'a'), (['1'], 'b'), (['1'], 'c'), (['1'], 'd'), (['1'], 'e'),
    (['1'], 'f'), (['1'], 'g'), (['1'], 'h'), (['1'], 'i')], ['3']⟩

/-- The record `BS5z5`. -/
def record_BS5z5 : Record := ⟨'B', 'S', [(['5'], 'z')], ['5']⟩

/-- The design of the record `AS1a1b1c1d1e1f1g1h1i3`. -/
def design_A9 : Design := tighten 'A' Size.Small record_A9.parsed

/-- The design of the record `BS5z5`. -/
def design_BS5z5 : Design := tighten 'B' Size.Small record_BS5z5.parsed

/-- The pool that holds the designs `AS1a1b1c1d1e1f1g1h1i3` and `BS5z5`, in this order. -/
def pool_A9B : Division :=
  make_division_production_ready
    { empty_division with designs := [design_A9, design_BS5z5] }

/-- The design of the record `AS1a5`. -/
def design_AS1a5 : Design := tighten 'A' Size.Small record_AS1a5.parsed

/-- The pool that holds the designs `AS1a5` and `YS2a2`, in this order. -/
def pool_A5Y : Division :=
  make_division_production_ready
    { empty_division with designs := [design_AS1a5, design_YS2a2] }

/-- The record `AS1a1b2`. -/
def record_AS1a1b2 : Record := ⟨'A', 'S', [(['1'], 'a'), (['1'], 'b')], ['2']⟩

/-- The design of the record `AS1a1b2`. -/
def design_AS1a1b2 : Design := tighten 'A' Size.Small record_AS1a1b2.parsed

/-- The pool that holds the design `AS1a1b2` only. -/
def pool_A2 : Division :=
  make_division_production_ready { empty_division with designs := [design_AS1a1b2] }

/-- The record `AS126a1b127`. -/
def record_AS126a1b127 : Record :=
  ⟨'A', 'S', [(['1', '2', '6'], 'a'), (['1'], 'b')], ['1', '2', '7']⟩

/-- The design of the record `AS126a1b127`. -/
def design_AS126a1b127 : Design := tighten 'A' Size.Small record_AS126a1b127.parsed

/-- The pool that holds the design `AS126a1b127` only. -/
def pool_A126 : Division :=
  make_division_production_ready { empty_division with designs := [design_AS126a1b127] }

/-- A division that holds the design `AS126a1b127` only, with the ceilings of
`pool_A126` for `a` and `b`, and nothing but stems of `a` in stock. -/
def OnlyA (dv : Division) : Prop :=
  dv.designs = [design_AS126a1b127] ∧ dv.max_per_species 0 = 126 ∧
    dv.max_per_species 1 = 1 ∧
    ∀ i, 1 ≤ i → i < 26 → dv.stock i = 0 ∧ dv.minimal_stock i = 0

/-- The value of `minimal_stock` for `a` after `n` stems of `a` in `pool_A126`. -/
def active_after (n : Nat) : Int :=
  if n ≤ 126 then n else if n ≤ 32767 then 126 else wrap8 ((n : Int) - 32641)

/-- The maximum of `max_stems` in lane `s` over the given designs (0 for no design). -/
def max_over (ds : List Design) (s : Nat) : Int :=
  match ds with
  | [] => 0
  | d :: rest => rest.foldl (fun m e => max m (e.max_stems s)) (d.max_stems s)

/-- The record `AS127`: no species and a total of 127. -/
def record_AS127 : Record := ⟨'A', 'S', [], ['1', '2', '7']⟩

/-- The design of the record `AS127`. -/
def design_AS127 : Design := tighten 'A' Size.Small record_AS127.parsed

/-- The stem lines of the second scenario: seven `aS`, then two `bS`. -/
def scenario2_stems : List (List Char) :=
  [['a', 'S'], ['a', 'S'], ['a', 'S'], ['a', 'S'], ['a', 'S'], ['a', 'S'], ['a', 'S'],
    ['b', 'S'], ['b', 'S']]
/-- The state of `division_add_stem` right after the arriving stem was counted in
`stock` and in `minimal_stock`, before the scan of the designs. -/
def counted (division : Division) (species : Char) : Division :=
  count_in_minimal_stock (count_in_stock division (lane species)) (lane species)

/-- The pool of `XS3a3` and `YS2a2` after one stem of `a`. -/
def pool_XY_a : Division := (division_add_stem pool_XY 'a').1

/-- Lexicographic order on the first `n` lanes: `x` equals `y` there, or is smaller in
the first lane in which they differ. -/
def lex_le (x y : Nat → Int) (n : Nat) : Prop :=
  (∀ i, i < n → x i = y i) ∨ ∃ j, j < n ∧ (∀ i, i < j → x i = y i) ∧ x j < y j

/-- A design with total 10 and no minimum in any lane. -/
def design_T10 : Design := ⟨fun _ => 0, fun _ => 127, 'A', Size.Small, 10⟩

/-- A hand of 100, 100 and 66 stems in the first three lanes. -/
def hand_266 : Nat → Int := fun i => if i = 0 then 100 else if i = 1 then 100 else
  if i = 2 then 66 else 0

/-- The amounts 0, 0, 10 in the first three lanes. -/
def amounts_0_0_10 : Nat → Int := fun i => if i = 2 then 10 else 0

instance (x y : Nat → Int) (n : Nat) : Decidable (lex_le x y n) := by
  unfold lex_le; infer_instance

/-- A design of one species: `total` stems of the species in lane `l`, which is both
the minimum and the maximum of that lane, and nothing in any other lane. -/
structure Solo (d : Design) (l : Nat) (total : Int) : Prop where
  tight : Tight d
  lane_lt : l < 26
  total_eq : d.total = total
  total_pos : 1 ≤ total
  max_eq : d.max_stems l = total
  min_eq : d.min_stems l = total
  others : ∀ i, i ≠ l → d.max_stems i = 0 ∧ d.min_stems i = 0

/-- A division that holds the one-species design `d` only, with `n` stems of the
species in lane `l` in stock and no other stem. -/
structure SoloState (d : Design) (l : Nat) (total : Int) (n : Int) (dv : Division) : Prop where
  synced : Synced dv
  designs_eq : dv.designs = [d]
  ceiling_eq : dv.max_per_species l = total
  stock_eq : dv.stock l = n
  others : ∀ i, i ≠ l → dv.stock i = 0

/-- The record `AS6a4` of the first scenario. -/
def record_AS6a4 : Record := ⟨'A', 'S', [(['6'], 'a')], ['4']⟩

/-- A nonempty string of decimal digits, of any value. -/
def IsDigits (ds : List Char) : Prop := ds ≠ [] ∧ ∀ c ∈ ds, isdigit c = true

instance (ds : List Char) : Decidable (IsDigits ds) := by
  unfold IsDigits; infer_instance

/-- A record of the form `<NAME><SIZE>(<count><species>)*<total>`: a name in `A .. Z`,
a size `S` or `L`, every count and the total a nonempty string of digits, every species
in `a .. z`. -/
structure Record.Shaped (r : Record) : Prop where
  name_ok : 65 ≤ r.name.toNat ∧ r.name.toNat ≤ 90
  size_ok : r.size = 'S' ∨ r.size = 'L'
  counts_ok : ∀ p ∈ r.pairs, IsDigits p.1
  species_ok : ∀ p ∈ r.pairs, IsSpecies p.2
  total_ok : IsDigits r.total

/-- The record `AS300a300a4`: counts beyond 127 and a species listed twice. -/
def record_AS300a300a4 : Record :=
  ⟨'A', 'S', [(['3', '0', '0'], 'a'), (['3', '0', '0'], 'a')], ['4']⟩

/-! ## The naive engine of the refinement claim

Modelled from the claim: an engine that keeps only the raw stock, as unbounded counts,
never skips the scan, and for each design in registration order computes
`hand[s] = min (stock[s], design.max[s])`, applies the amount test, the minimum test and
the trimming of `division_add_stem`, and emits the first design that passes. -/

/-- The scan of the naive engine over the designs, from position `design_index` on. -/
def naive_scan (stock : Nat → Int) : List Design → Nat → Option Bouquet
  | [], _ => none
  | design :: rest, design_index =>
    let hand : Nat → Int := fun s => min (stock s) (design.max_stems s)
    if !decide (amount_in_hand hand < design.total) && is_ge hand design.min_stems then
      let t := trim design hand
      some ⟨design_index, design, t.1, t.2⟩
    else naive_scan stock rest (design_index + 1)

/-- One stem in the naive engine: the stem is counted, the designs are scanned, and the
amounts of an emitted bouquet are taken out of the stock. -/
def naive_add_stem (designs : List Design) (stock : Nat → Int) (species : Char) :
    (Nat → Int) × Option Bouquet :=
  let stock1 := Function.update stock (lane species) (stock (lane species) + 1)
  match naive_scan stock1 designs 0 with
  | none => (stock1, none)
  | some b => (fun s => if s < 26 then stock1 s - b.amounts s else stock1 s, some b)

/-- Stems processed one after the other by the naive engine, with the bouquets
emitted. -/
def naive_add_stems (designs : List Design) (stock : Nat → Int) :
    List Char → (Nat → Int) × List Bouquet
  | [] => (stock, [])
  | species :: rest =>
    let r := naive_add_stem designs stock species
    let rs := naive_add_stems designs r.1 rest
    (rs.1, r.2.toList ++ rs.2)

/-! ## Machine integers -/

theorem wrap8_id {x : Int} (h1 : -128 ≤ x) (h2 : x ≤ 127) : wrap8 x = x := by
  unfold wrap8; omega

theorem wrap16_id {x : Int} (h1 : -32768 ≤ x) (h2 : x ≤ 32767) : wrap16 x = x := by
  unfold wrap16; omega

theorem wrap8_add_wrap8 (x y : Int) : wrap8 (wrap8 x + y) = wrap8 (x + y) := by
  unfold wrap8; omega

theorem wrap8_sub_wrap8 (x y : Int) : wrap8 (wrap8 x - y) = wrap8 (x - y) := by
  unfold wrap8; omega

/-! ## Lane sums -/

theorem lane_sum_zero (h : Nat → Int) : lane_sum h 0 = 0 := by
  simp [lane_sum]

theorem lane_sum_succ (h : Nat → Int) (n : Nat) : lane_sum h (n + 1) = lane_sum h n + h n := by
  simp [lane_sum, List.range_succ]

theorem lane_sum_congr {f g : Nat → Int} {n : Nat} (h : ∀ i < n, f i = g i) :
    lane_sum f n = lane_sum g n := by
  induction n with
  | zero => simp [lane_sum_zero]
  | succ n ih =>
    rw [lane_sum_succ, lane_sum_succ, ih (fun i hi => h i (by omega)), h n (by omega)]

theorem lane_sum_le {f g : Nat → Int} {n : Nat} (h : ∀ i < n, f i ≤ g i) :
    lane_sum f n ≤ lane_sum g n := by
  induction n with
  | zero => simp [lane_sum_zero]
  | succ n ih =>
    rw [lane_sum_succ, lane_sum_succ]
    have := ih (fun i hi => h i (by omega))
    have := h n (by omega)
    omega

theorem lane_sum_nonneg {f : Nat → Int} {n : Nat} (h : ∀ i < n, 0 ≤ f i) :
    0 ≤ lane_sum f n := by
  induction n with
  | zero => simp [lane_sum_zero]
  | succ n ih =>
    rw [lane_sum_succ]
    have := ih (fun i hi => h i (by omega))
    have := h n (by omega)
    omega

theorem lane_sum_update (f : Nat → Int) (n s : Nat) (v : Int) :
    lane_sum (Function.update f s v) n = lane_sum f n + (if s < n then v - f s else 0) := by
  induction n with
  | zero => simp [lane_sum_zero]
  | succ n ih =>
    rw [lane_sum_succ, lane_sum_succ, ih]
    by_cases h1 : s = n
    · subst h1; simp
    · have h2 : n ≠ s := fun h => h1 h.symm
      rw [Function.update_noteq h2]
      by_cases h3 : s < n
      · have h4 : s < n + 1 := by omega
        simp [h3, h4]; ring
      · have h4 : ¬ s < n + 1 := by omega
        simp [h3, h4]

/-! ## Parsing a valid record -/

theorem isdigit_iff (c : Char) : isdigit c = true ↔ 48 ≤ c.toNat ∧ c.toNat ≤ 57 := by
  simp [isdigit]

theorem peek_cons (c : Char) (cs : List Char) : peek (c :: cs) = c := rfl

theorem strtoul_digits_append (ds rest : List Char) (acc : Nat)
    (hd : ∀ c ∈ ds, isdigit c = true) (hr : isdigit (peek rest) = false) :
    strtoul_digits acc (ds ++ rest)
      = (ds.foldl (fun acc c => acc * 10 + (c.toNat - 48)) acc, rest) := by
  induction ds generalizing acc with
  | nil =>
    cases rest with
    | nil => rfl
    | cons c cs =>
      rw [peek_cons] at hr
      simp [strtoul_digits, hr]
  | cons d ds ih =>
    have h1 : isdigit d = true := hd d (List.mem_cons_self _ _)
    simp only [List.cons_append, strtoul_digits, h1, if_true, List.foldl_cons]
    exact ih _ (fun c hc => hd c (List.mem_cons_of_mem _ hc))

theorem strtoul_count (ds rest : List Char) (hc : IsCount ds)
    (hr : isdigit (peek rest) = false) : strtoul (ds ++ rest) = (number ds, rest) := by
  obtain ⟨hne, hd, hle⟩ := hc
  cases ds with
  | nil => exact absurd rfl hne
  | cons d ds =>
    have h1 : isdigit d = true := hd d (List.mem_cons_self _ _)
    have h2 := (isdigit_iff d).1 h1
    have hsp : isspace d = false := by
      simp [isspace]; omega
    have hm : ¬ (d = '-' ∨ d = '+') := by
      rintro (h | h) <;> · subst h; revert h2; decide
    have hdig := strtoul_digits_append (d :: ds) rest 0 hd hr
    have hv : ¬ number (d :: ds) > ULONG_MAX := by
      unfold ULONG_MAX; omega
    have hneg : (decide (d = '-')) = false := by
      simp; intro h; exact hm (Or.inl h)
    unfold strtoul
    simp only [List.cons_append, List.dropWhile_cons, hsp, peek_cons, hm, if_false, h1,
      if_true, Bool.false_eq_true]
    rw [← List.cons_append, hdig]
    simp only [hneg]
    change (if number (d :: ds) > ULONG_MAX then _ else _, rest) = _
    rw [if_neg hv]
    rfl

theorem parse_loop_pairs (ps : List (List Char × Char)) (tot : List Char)
    (hc : ∀ p ∈ ps, IsCount p.1) (hs : ∀ p ∈ ps, IsSpecies p.2) (ht : IsCount tot)
    (fuel : Nat) (mn mx : Nat → Int) (cnt : Int) (hf : ps.length < fuel) :
    parse_loop fuel (ps.flatMap (fun p => p.1 ++ [p.2]) ++ tot) mn mx cnt
      = some ⟨ps.foldl (fun f p => Function.update f (lane p.2) 1) mn,
              ps.foldl (fun f p => Function.update f (lane p.2) (wrap8 (number p.1))) mx,
              ps.foldl (fun c _ => wrap8 (c + 1)) cnt,
              wrap8 (number tot)⟩ := by
  induction ps generalizing fuel mn mx cnt with
  | nil =>
    cases fuel with
    | zero => simp at hf
    | succ fuel =>
      have h := strtoul_count tot [] ht (by decide)
      simp only [List.append_nil] at h
      simp [parse_loop, h, peek]
  | cons p ps ih =>
    cases fuel with
    | zero => simp at hf
    | succ fuel =>
      have hsp : IsSpecies p.2 := hs p (List.mem_cons_self _ _)
      have hnd : isdigit (peek (p.2 :: (ps.flatMap (fun p => p.1 ++ [p.2]) ++ tot))) = false := by
        rw [peek_cons]
        unfold IsSpecies at hsp
        simp [isdigit]; omega
      have h := strtoul_count p.1 _ (hc p (List.mem_cons_self _ _)) hnd
      have hin : (p :: ps).flatMap (fun p => p.1 ++ [p.2]) ++ tot
          = p.1 ++ (p.2 :: (ps.flatMap (fun p => p.1 ++ [p.2]) ++ tot)) := by
        simp [List.flatMap_cons]
      have h0 : ¬ (p.2 = Char.ofNat 0 ∨ p.2 = '\n') := by
        unfold IsSpecies at hsp
        rintro (h | h) <;> · rw [h] at hsp; revert hsp; decide
      have hps : parse_species p.2 = some p.2 := by
        unfold IsSpecies at hsp
        simp [parse_species, hsp]
      rw [hin, parse_loop]
      simp only [h, peek_cons, h0, if_false, hps, List.tail_cons, List.foldl_cons]
      exact ih (fun q hq => hc q (List.mem_cons_of_mem _ hq))
        (fun q hq => hs q (List.mem_cons_of_mem _ hq)) fuel _ _ _
        (by simp at hf; omega)

theorem lane_lt_of_isSpecies {c : Char} (h : IsSpecies c) : lane c < 26 := by
  unfold IsSpecies at h; unfold lane; omega

theorem lane_injOn {c d : Char} (hc : IsSpecies c) (hd : IsSpecies d) (h : lane c = lane d) :
    c = d := by
  unfold IsSpecies at hc hd
  unfold lane at h
  apply Char.ext
  apply UInt32.ext
  have : c.toNat = d.toNat := by omega
  exact this

theorem lanes_nodup (ps : List (List Char × Char)) (hs : ∀ p ∈ ps, IsSpecies p.2)
    (hn : (ps.map (fun p => p.2)).Nodup) : (ps.map (fun p => lane p.2)).Nodup := by
  induction ps with
  | nil => simp
  | cons p ps ih =>
    simp only [List.map_cons, List.nodup_cons] at hn ⊢
    refine ⟨?_, ih (fun q hq => hs q (List.mem_cons_of_mem _ hq)) hn.2⟩
    intro hmem
    obtain ⟨q, hq, hql⟩ := List.mem_map.1 hmem
    have : q.2 = p.2 :=
      lane_injOn (hs q (List.mem_cons_of_mem _ hq)) (hs p (List.mem_cons_self _ _)) hql
    exact hn.1 (List.mem_map.2 ⟨q, hq, this⟩)

theorem given_of_not_listed (ps : List (List Char × Char)) (i : Nat)
    (h : i ∉ ps.map (fun p => lane p.2)) : given_of ps i = 0 := by
  induction ps with
  | nil => rfl
  | cons p ps ih =>
    simp only [List.map_cons, List.mem_cons, not_or] at h
    simp only [given_of]
    rw [if_neg (fun h1 => h.1 h1.symm)]
    exact ih h.2

theorem foldl_max_eq (ps : List (List Char × Char)) (mx : Nat → Int)
    (hc : ∀ p ∈ ps, IsCount p.1) (hn : (ps.map (fun p => lane p.2)).Nodup) (i : Nat) :
    ps.foldl (fun f p => Function.update f (lane p.2) (wrap8 (number p.1))) mx i
      = if i ∈ ps.map (fun p => lane p.2) then given_of ps i else mx i := by
  induction ps generalizing mx with
  | nil => simp
  | cons p ps ih =>
    simp only [List.map_cons, List.nodup_cons] at hn
    have hw : wrap8 (number p.1) = number p.1 := by
      have := (hc p (List.mem_cons_self _ _)).2.2
      apply wrap8_id <;> omega
    rw [List.foldl_cons, ih _ (fun q hq => hc q (List.mem_cons_of_mem _ hq)) hn.2]
    simp only [List.map_cons, List.mem_cons, given_of]
    by_cases h1 : lane p.2 = i
    · subst h1
      simp [hn.1, hw]
    · have h2 : i ≠ lane p.2 := fun h => h1 h.symm
      rw [if_neg h1, Function.update_noteq h2]
      by_cases hm : i ∈ List.map (fun p => lane p.2) ps
      · rw [if_pos hm, if_pos (Or.inr hm)]
      · rw [if_neg hm, if_neg (by rintro (h | h); exact h2 h; exact hm h)]

theorem foldl_min_eq (ps : List (List Char × Char)) (mn : Nat → Int) (i : Nat) :
    ps.foldl (fun f p => Function.update f (lane p.2) 1) mn i
      = if i ∈ ps.map (fun p => lane p.2) then 1 else mn i := by
  induction ps generalizing mn with
  | nil => simp
  | cons p ps ih =>
    rw [List.foldl_cons, ih]
    simp only [List.map_cons, List.mem_cons]
    by_cases h1 : i = lane p.2
    · subst h1; simp
    · rw [Function.update_noteq h1]
      by_cases hm : i ∈ List.map (fun p => lane p.2) ps
      · rw [if_pos hm, if_pos (Or.inr hm)]
      · rw [if_neg hm, if_neg (by rintro (h | h); exact h1 h; exact hm h)]

theorem foldl_count_eq (ps : List (List Char × Char)) (cnt : Int) :
    ps.foldl (fun c (_ : List Char × Char) => wrap8 (c + 1)) (wrap8 cnt)
      = wrap8 (cnt + ps.length) := by
  induction ps generalizing cnt with
  | nil => simp
  | cons p ps ih =>
    rw [List.foldl_cons, ih]
    simp only [List.length_cons, Nat.cast_add, Nat.cast_one]
    unfold wrap8; omega

theorem nodup_lanes_length (l : List Nat) (hn : l.Nodup) (hl : ∀ i ∈ l, i < 26) :
    l.length ≤ 26 := by
  have h : l ⊆ List.range 26 := fun i hi => List.mem_range.2 (hl i hi)
  have := (List.subperm_of_subset hn h).length_le
  simpa using this

theorem Record.Valid.k_le {r : Record} (hv : r.Valid) : r.k ≤ 26 := by
  have h := nodup_lanes_length _ (lanes_nodup r.pairs hv.species_ok hv.distinct)
    (by
      intro i hi
      obtain ⟨q, hq, rfl⟩ := List.mem_map.1 hi
      exact lane_lt_of_isSpecies (hv.species_ok q hq))
  simp only [List.length_map] at h
  unfold Record.k
  exact_mod_cast h

theorem Record.Valid.k_nonneg (r : Record) : 0 ≤ r.k := by
  unfold Record.k; positivity

theorem parse_size_valid (r : Record) (hv : r.Valid) : parse_size r.size = some r.size_of := by
  rcases hv.size_ok with h | h <;> simp [parse_size, Record.size_of, h]

theorem new_design_valid (r : Record) (hv : r.Valid) :
    new_design r.text = some (tighten r.name r.size_of r.parsed) := by
  have hname : parse_design_name r.name = some r.name := by
    simp [parse_design_name, hv.name_ok]
  have hlen : r.pairs.length
      < (r.pairs.flatMap (fun p => p.1 ++ [p.2]) ++ r.total).length + 1 := by
    have : ∀ ps : List (List Char × Char),
        ps.length ≤ (ps.flatMap (fun p => p.1 ++ [p.2])).length := by
      intro ps
      induction ps with
      | nil => simp
      | cons p ps ih =>
        simp only [List.flatMap_cons, List.length_append, List.length_cons, List.length_nil]
        omega
    have := this r.pairs
    simp only [List.length_append]
    omega
  have hloop := parse_loop_pairs r.pairs r.total hv.counts_ok hv.species_ok hv.total_ok _
    (fun _ => 0) (fun _ => 0) 0 hlen
  have hk : r.pairs.foldl (fun c (_ : List Char × Char) => wrap8 (c + 1)) 0 = r.k := by
    have h1 := Record.Valid.k_le hv
    have h2 := Record.Valid.k_nonneg r
    have h3 := foldl_count_eq r.pairs 0
    have h4 : wrap8 0 = 0 := by decide
    rw [h4, zero_add] at h3
    rw [h3]
    unfold Record.k at *
    apply wrap8_id <;> omega
  have hT : wrap8 (number r.total) = r.T := by
    have := hv.total_ok.2.2
    unfold Record.T
    apply wrap8_id <;> omega
  have hmin : r.pairs.foldl (fun f p => Function.update f (lane p.2) 1) (fun _ => 0)
      = r.parsed.min_stems := by
    funext i
    rw [foldl_min_eq]
    rfl
  have hmax : r.pairs.foldl (fun f p => Function.update f (lane p.2) (wrap8 (number p.1)))
      (fun _ => 0) = r.parsed.max_stems := by
    funext i
    rw [foldl_max_eq _ _ hv.counts_ok (lanes_nodup r.pairs hv.species_ok hv.distinct)]
    show _ = given_of r.pairs i
    split
    · rfl
    · rename_i h
      exact (given_of_not_listed _ _ h).symm
  unfold new_design Record.text
  simp only [peek_cons, hname, List.tail_cons, parse_size_valid r hv, hloop, hk, hT, hmin, hmax]
  rfl

/-! ## Closed forms of the tightening loops -/

theorem tighten_max_range (mps : Int) (f : Nat → Int) (n : Nat) :
    (List.range n).foldl
      (fun (acc : (Nat → Int) × Int) species_index =>
        (Function.update acc.1 species_index (min (acc.1 species_index) mps),
          wrap8 (acc.2 + min (acc.1 species_index) mps)))
      (f, 0)
    = (fun i => if i < n then min (f i) mps else f i,
        wrap8 (lane_sum (fun i => min (f i) mps) n)) := by
  induction n with
  | zero =>
    simp only [List.range_zero, List.foldl_nil, lane_sum_zero]
    refine Prod.ext ?_ (by show (0 : Int) = wrap8 0; decide)
    funext i
    simp
  | succ n ih =>
    rw [List.range_succ, List.foldl_append, ih]
    simp only [List.foldl_cons, List.foldl_nil, lt_irrefl, if_false]
    refine Prod.ext ?_ ?_
    · funext i
      by_cases h : i = n
      · subst h; simp
      · simp only [Function.update_noteq h]
        by_cases h1 : i < n
        · have h2 : i < n + 1 := by omega
          simp [h1, h2]
        · have h2 : ¬ i < n + 1 := by omega
          simp [h1, h2]
    · simp only [wrap8_add_wrap8, lane_sum_succ]

theorem tighten_max_eq (mps : Int) (f : Nat → Int) :
    tighten_max mps f
      = (fun i => if i < 26 then min (f i) mps else f i,
          wrap8 (lane_sum (fun i => min (f i) mps) 26)) :=
  tighten_max_range mps f 26

theorem tighten_min_range (total sum : Int) (mx mn : Nat → Int) (n : Nat) (i : Nat) :
    (List.range n).foldl
      (fun (acc : Nat → Int) species_index =>
        if mx species_index ≠ 0 then
          Function.update acc species_index
            (if wrap8 (sum - mx species_index) < total
              then wrap8 (total - wrap8 (sum - mx species_index)) else 1)
        else acc)
      mn i
    = if i < n ∧ mx i ≠ 0 then
        (if wrap8 (sum - mx i) < total then wrap8 (total - wrap8 (sum - mx i)) else 1)
      else mn i := by
  induction n with
  | zero => simp
  | succ n ih =>
    rw [List.range_succ, List.foldl_append]
    simp only [List.foldl_cons, List.foldl_nil]
    by_cases hm : mx n ≠ 0
    · rw [if_pos hm]
      by_cases h : i = n
      · subst h
        simp [hm]
      · rw [Function.update_noteq h, ih]
        have : (i < n + 1 ∧ mx i ≠ 0) ↔ (i < n ∧ mx i ≠ 0) := by
          constructor
          · rintro ⟨h1, h2⟩; exact ⟨by omega, h2⟩
          · rintro ⟨h1, h2⟩; exact ⟨by omega, h2⟩
        simp only [this]
    · rw [if_neg hm, ih]
      have : (i < n + 1 ∧ mx i ≠ 0) ↔ (i < n ∧ mx i ≠ 0) := by
        constructor
        · rintro ⟨h1, h2⟩
          refine ⟨?_, h2⟩
          by_contra h3
          have : i = n := by omega
          subst this
          exact hm h2
        · rintro ⟨h1, h2⟩; exact ⟨by omega, h2⟩
      simp only [this]

theorem tighten_min_eq (total sum : Int) (mx mn : Nat → Int) (i : Nat) :
    tighten_min total sum mx mn i
      = if i < 26 ∧ mx i ≠ 0 then
          (if wrap8 (sum - mx i) < total then wrap8 (total - wrap8 (sum - mx i)) else 1)
        else mn i :=
  tighten_min_range total sum mx mn 26 i

/-! ## Lanes of a record -/

theorem lane_sum_const_zero (n : Nat) : lane_sum (fun _ => 0) n = 0 := by
  induction n with
  | zero => rfl
  | succ n ih => rw [lane_sum_succ, ih]; rfl

theorem lane_sum_indicator (L : List Nat) (n : Nat) (w : Nat → Int) (hn : L.Nodup)
    (hl : ∀ i ∈ L, i < n) :
    lane_sum (fun i => if i ∈ L then w i else 0) n = (L.map w).sum := by
  induction L with
  | nil =>
    simp only [List.not_mem_nil, if_false, List.map_nil, List.sum_nil]
    exact lane_sum_const_zero n
  | cons l L ih =>
    simp only [List.nodup_cons] at hn
    have h1 : (fun i => if i ∈ l :: L then w i else 0)
        = Function.update (fun i => if i ∈ L then w i else 0) l (w l) := by
      funext i
      by_cases h : i = l
      · subst h; simp
      · rw [Function.update_noteq h]
        simp [h]
    rw [h1, lane_sum_update, ih hn.2 (fun i hi => hl i (List.mem_cons_of_mem _ hi))]
    have h2 : l < n := hl l (List.mem_cons_self _ _)
    simp [h2, hn.1]
    ring

theorem given_of_mem (ps : List (List Char × Char)) (hn : (ps.map (fun p => lane p.2)).Nodup)
    (p : List Char × Char) (hp : p ∈ ps) : given_of ps (lane p.2) = number p.1 := by
  induction ps with
  | nil => simp at hp
  | cons q ps ih =>
    simp only [List.map_cons, List.nodup_cons] at hn
    simp only [given_of]
    rcases List.mem_cons.1 hp with h | h
    · subst h; simp
    · have : lane q.2 ≠ lane p.2 := by
        intro h1
        exact hn.1 (List.mem_map.2 ⟨p, h, h1.symm⟩)
      rw [if_neg this]
      exact ih hn.2 h

theorem Record.Valid.distinct_lanes {r : Record} (hv : r.Valid) :
    (r.pairs.map (fun p => lane p.2)).Nodup :=
  Cstem.lanes_nodup r.pairs hv.species_ok hv.distinct

theorem Record.Valid.listed_lt {r : Record} (hv : r.Valid) (i : Nat) (h : r.listed i) :
    i < 26 := by
  obtain ⟨q, hq, rfl⟩ := List.mem_map.1 h
  exact lane_lt_of_isSpecies (hv.species_ok q hq)

theorem Record.given_not_listed (r : Record) (i : Nat) (h : ¬ r.listed i) : r.given i = 0 :=
  given_of_not_listed r.pairs i h

theorem Record.Valid.given_listed {r : Record} (hv : r.Valid) (i : Nat) (h : r.listed i) :
    ∃ p ∈ r.pairs, lane p.2 = i ∧ r.given i = number p.1 := by
  obtain ⟨q, hq, rfl⟩ := List.mem_map.1 h
  exact ⟨q, hq, rfl, given_of_mem r.pairs hv.distinct_lanes q hq⟩

theorem Record.Valid.given_bounds {r : Record} (hv : r.Valid) (i : Nat) :
    0 ≤ r.given i ∧ r.given i ≤ 127 := by
  by_cases h : r.listed i
  · obtain ⟨p, hp, _, hg⟩ := hv.given_listed i h
    have := (hv.counts_ok p hp).2.2
    rw [hg]
    omega
  · rw [r.given_not_listed i h]
    omega

theorem Record.WellFormed.given_pos {r : Record} (hw : r.WellFormed) (i : Nat)
    (h : r.listed i) : 1 ≤ r.given i := by
  obtain ⟨p, hp, _, hg⟩ := hw.valid.given_listed i h
  have := hw.counts_pos p hp
  rw [hg]
  omega

theorem Record.Valid.lane_sum_given {r : Record} (hv : r.Valid) :
    lane_sum r.given 26 = r.sum_given := by
  have h1 : r.given = fun i => if i ∈ r.pairs.map (fun p => lane p.2) then r.given i else 0 := by
    funext i
    by_cases h : i ∈ r.pairs.map (fun p => lane p.2)
    · rw [if_pos h]
    · rw [if_neg h]; exact r.given_not_listed i h
  rw [h1, lane_sum_indicator _ 26 r.given hv.distinct_lanes (fun i hi => hv.listed_lt i hi)]
  unfold Record.sum_given
  rw [List.map_map]
  congr 1
  apply List.map_congr_left
  intro p hp
  exact given_of_mem r.pairs hv.distinct_lanes p hp

theorem Record.Valid.lane_sum_listed {r : Record} (hv : r.Valid) :
    lane_sum r.parsed.min_stems 26 = r.k := by
  show lane_sum (fun i => if i ∈ r.pairs.map (fun p => lane p.2) then (1 : Int) else 0) 26 = r.k
  rw [lane_sum_indicator _ 26 (fun _ => 1) hv.distinct_lanes (fun i hi => hv.listed_lt i hi)]
  unfold Record.k
  rw [List.map_map]
  generalize r.pairs = ps
  induction ps with
  | nil => rfl
  | cons p ps ih =>
    simp only [List.map_cons, List.sum_cons, List.length_cons, Nat.cast_add, Nat.cast_one, ih]
    simp only [Function.comp]
    ring

/-! ## The design of a valid record -/

theorem design_total (r : Record) : (tighten r.name r.size_of r.parsed).total = r.T := rfl

theorem design_max (r : Record) (i : Nat) :
    (tighten r.name r.size_of r.parsed).max_stems i
      = if i < 26 then min (r.given i) (wrap8 (1 + r.T - r.k)) else r.given i := by
  simp only [tighten, tighten_max_eq]
  rfl

theorem design_min (r : Record) (i : Nat) :
    (tighten r.name r.size_of r.parsed).min_stems i
      = if i < 26 ∧ (tighten r.name r.size_of r.parsed).max_stems i ≠ 0 then
          (if wrap8 (wrap8 (lane_sum (tighten r.name r.size_of r.parsed).max_stems 26)
                - (tighten r.name r.size_of r.parsed).max_stems i) < r.T
            then wrap8 (r.T - wrap8 (wrap8 (lane_sum (tighten r.name r.size_of r.parsed).max_stems 26)
                - (tighten r.name r.size_of r.parsed).max_stems i))
            else 1)
        else r.parsed.min_stems i := by
  have hs : lane_sum (tighten r.name r.size_of r.parsed).max_stems 26
      = lane_sum (fun i => min (r.parsed.max_stems i) (wrap8 (1 + r.T - r.k))) 26 := by
    apply lane_sum_congr
    intro j hj
    rw [design_max, if_pos hj]
    rfl
  rw [hs]
  simp only [tighten, tighten_max_eq, tighten_min_eq]
  rfl

theorem lane_le_lane_sum {f : Nat → Int} {n : Nat} (h : ∀ j < n, 0 ≤ f j) {i : Nat}
    (hi : i < n) : f i ≤ lane_sum f n := by
  induction n with
  | zero => omega
  | succ n ih =>
    rw [lane_sum_succ]
    have h0 := lane_sum_nonneg (f := f) (n := n) (fun j hj => h j (by omega))
    have hn := h n (by omega)
    by_cases h1 : i = n
    · subst h1; omega
    · have := ih (fun j hj => h j (by omega)) (by omega)
      omega

theorem sum_min_bound (M : Nat → Int) (d : Int) (n : Nat) (hM : ∀ i < n, 0 ≤ M i)
    (hd : 0 ≤ d) :
    lane_sum (fun i => if M i ≠ 0 then max 1 (M i - d) else 0) n
        ≤ max (lane_sum (fun i => if M i ≠ 0 then 1 else 0) n) (lane_sum M n - d)
      ∧ lane_sum (fun i => if M i ≠ 0 then 1 else 0) n ≤ lane_sum M n := by
  induction n with
  | zero => simp only [lane_sum_zero]; omega
  | succ n ih =>
    have ih := ih (fun i hi => hM i (by omega))
    have hn := hM n (by omega)
    rw [lane_sum_succ, lane_sum_succ, lane_sum_succ]
    by_cases h0 : M n = 0
    · have e1 : (if M n ≠ 0 then max 1 (M n - d) else 0) = 0 := if_neg (by simpa using h0)
      have e2 : (if M n ≠ 0 then (1 : Int) else 0) = 0 := if_neg (by simpa using h0)
      rw [e1, e2]
      omega
    · have e1 : (if M n ≠ 0 then max 1 (M n - d) else 0) = max 1 (M n - d) := if_pos h0
      have e2 : (if M n ≠ 0 then (1 : Int) else 0) = 1 := if_pos h0
      rw [e1, e2]
      omega

theorem Record.Valid.T_bounds {r : Record} (hv : r.Valid) : 0 ≤ r.T ∧ r.T ≤ 127 := by
  have := hv.total_ok.2.2
  unfold Record.T
  omega

theorem Record.Valid.sum_given_nonneg {r : Record} (hv : r.Valid) : 0 ≤ r.sum_given := by
  rw [← hv.lane_sum_given]
  exact lane_sum_nonneg (fun i _ => (hv.given_bounds i).1)

/-! ## The design of a well-formed record -/

theorem Record.listed_k_pos {r : Record} {i : Nat} (h : r.listed i) : 1 ≤ r.k := by
  unfold Record.listed at h
  unfold Record.k
  cases hp : r.pairs with
  | nil => rw [hp] at h; simp at h
  | cons p ps => simp only [List.length_cons, Nat.cast_add, Nat.cast_one]; omega

theorem wf_design_max {r : Record} (hw : r.WellFormed) (hk : 1 + r.T - r.k ≤ 127) (i : Nat) :
    (tighten r.name r.size_of r.parsed).max_stems i = min (r.given i) (1 + r.T - r.k) := by
  have h1 := hw.k_le_total
  have h2 := hw.valid.T_bounds
  have h3 := Record.Valid.k_nonneg r
  have hm : wrap8 (1 + r.T - r.k) = 1 + r.T - r.k := by apply wrap8_id <;> omega
  rw [design_max, hm]
  by_cases hi : i < 26
  · rw [if_pos hi]
  · rw [if_neg hi]
    have : ¬ r.listed i := fun h => hi (hw.valid.listed_lt i h)
    rw [r.given_not_listed i this]
    omega

theorem wf_max_listed {r : Record} (hw : r.WellFormed) (hk : 1 + r.T - r.k ≤ 127) (i : Nat)
    (h : r.listed i) : 1 ≤ (tighten r.name r.size_of r.parsed).max_stems i := by
  rw [wf_design_max hw hk]
  have := hw.given_pos i h
  have := hw.k_le_total
  omega

theorem wf_max_not_listed {r : Record} (hw : r.WellFormed) (hk : 1 + r.T - r.k ≤ 127) (i : Nat)
    (h : ¬ r.listed i) : (tighten r.name r.size_of r.parsed).max_stems i = 0 := by
  rw [wf_design_max hw hk, r.given_not_listed i h]
  have := hw.k_le_total
  omega

theorem wf_max_le_given {r : Record} (hw : r.WellFormed) (hk : 1 + r.T - r.k ≤ 127) (i : Nat) :
    (tighten r.name r.size_of r.parsed).max_stems i ≤ r.given i := by
  rw [wf_design_max hw hk]
  omega

theorem wf_max_nonneg {r : Record} (hw : r.WellFormed) (hk : 1 + r.T - r.k ≤ 127) (i : Nat) :
    0 ≤ (tighten r.name r.size_of r.parsed).max_stems i := by
  by_cases h : r.listed i
  · have := wf_max_listed hw hk i h; omega
  · rw [wf_max_not_listed hw hk i h]

theorem wf_sum_max_le {r : Record} (hw : r.WellFormed) (hk : 1 + r.T - r.k ≤ 127) :
    lane_sum (tighten r.name r.size_of r.parsed).max_stems 26 ≤ r.sum_given := by
  rw [← hw.valid.lane_sum_given]
  exact lane_sum_le (fun i _ => wf_max_le_given hw hk i)

theorem wf_design_min {r : Record} (hw : r.WellFormed) (hk : 1 + r.T - r.k ≤ 127) (i : Nat) :
    (tighten r.name r.size_of r.parsed).min_stems i
      = if (tighten r.name r.size_of r.parsed).max_stems i ≠ 0 then
          max 1 (r.T - (lane_sum (tighten r.name r.size_of r.parsed).max_stems 26
            - (tighten r.name r.size_of r.parsed).max_stems i))
        else 0 := by
  have hT := hw.valid.T_bounds
  have hS := wf_sum_max_le hw hk
  have hS0 := lane_sum_nonneg (f := (tighten r.name r.size_of r.parsed).max_stems) (n := 26)
    (fun j _ => wf_max_nonneg hw hk j)
  have hsum := hw.sum_le
  rw [design_min]
  by_cases hl : r.listed i
  · have hi := hw.valid.listed_lt i hl
    have hm := wf_max_listed hw hk i hl
    have hle := lane_le_lane_sum (f := (tighten r.name r.size_of r.parsed).max_stems)
      (n := 26) (fun j _ => wf_max_nonneg hw hk j) hi
    have hne : (tighten r.name r.size_of r.parsed).max_stems i ≠ 0 := by omega
    rw [if_pos ⟨hi, hne⟩, if_pos hne]
    have e1 : wrap8 (lane_sum (tighten r.name r.size_of r.parsed).max_stems 26)
        = lane_sum (tighten r.name r.size_of r.parsed).max_stems 26 := by
      apply wrap8_id <;> omega
    have e2 : wrap8 (lane_sum (tighten r.name r.size_of r.parsed).max_stems 26
        - (tighten r.name r.size_of r.parsed).max_stems i)
        = lane_sum (tighten r.name r.size_of r.parsed).max_stems 26
          - (tighten r.name r.size_of r.parsed).max_stems i := by
      apply wrap8_id <;> omega
    rw [e1, e2]
    split
    · rw [wrap8_id (by omega) (by omega)]; omega
    · omega
  · have hm := wf_max_not_listed hw hk i hl
    have hne : ¬ (tighten r.name r.size_of r.parsed).max_stems i ≠ 0 := by simp [hm]
    rw [if_neg (fun h => hne h.2), if_neg hne]
    show (if i ∈ r.pairs.map (fun p => lane p.2) then (1 : Int) else 0) = 0
    exact if_neg hl

theorem wf_tight {r : Record} (hw : r.WellFormed) (hk : 1 + r.T - r.k ≤ 127) :
    Tight (tighten r.name r.size_of r.parsed) := by
  have hT := hw.valid.T_bounds
  have hmin := wf_design_min hw hk
  have hmax0 := wf_max_nonneg hw hk
  refine ⟨hmax0, ?_, ?_, ?_, hT.1, ?_, ?_⟩
  · intro i
    rw [hmin]
    split <;> omega
  · intro i hi
    rw [hmin, if_pos hi]
    omega
  · have := wf_sum_max_le hw hk
    have := hw.sum_le
    omega
  · intro hle
    rw [design_total] at hle ⊢
    have hb := sum_min_bound (tighten r.name r.size_of r.parsed).max_stems
      (lane_sum (tighten r.name r.size_of r.parsed).max_stems 26 - r.T) 26
      (fun i _ => hmax0 i) (by omega)
    have e1 : lane_sum (tighten r.name r.size_of r.parsed).min_stems 26
        = lane_sum (fun i => if (tighten r.name r.size_of r.parsed).max_stems i ≠ 0 then
            max 1 ((tighten r.name r.size_of r.parsed).max_stems i
              - (lane_sum (tighten r.name r.size_of r.parsed).max_stems 26 - r.T))
            else 0) 26 := by
      apply lane_sum_congr
      intro i _
      rw [hmin]
      split
      · congr 1; ring
      · rfl
    have e2 : lane_sum (fun i => if (tighten r.name r.size_of r.parsed).max_stems i ≠ 0
        then (1 : Int) else 0) 26 = r.k := by
      rw [← hw.valid.lane_sum_listed]
      apply lane_sum_congr
      intro i _
      show _ = (if i ∈ r.pairs.map (fun p => lane p.2) then (1 : Int) else 0)
      by_cases hl : r.listed i
      · have := wf_max_listed hw hk i hl
        rw [if_pos (by omega)]
        exact (if_pos hl).symm
      · rw [wf_max_not_listed hw hk i hl]
        rw [if_neg (by simp)]
        exact (if_neg hl).symm
    rw [e1]
    rw [e2] at hb
    have := hw.k_le_total
    omega
  · intro i hi
    have hl : ¬ r.listed i := fun h => by
      have := hw.valid.listed_lt i h
      omega
    have hm := wf_max_not_listed hw hk i hl
    refine ⟨hm, ?_⟩
    rw [hmin, if_neg (by simp [hm])]

set_option maxRecDepth 100000 in
theorem wf_dead {r : Record} (hk : r.k = 0) (hT : r.T = 127) :
    Dead (tighten r.name r.size_of r.parsed) := by
  have hp : r.pairs = [] := by
    unfold Record.k at hk
    have : r.pairs.length = 0 := by exact_mod_cast hk
    exact List.length_eq_zero.1 this
  have hparsed : r.parsed = ⟨fun _ => 0, fun _ => 0, 0, 127⟩ := by
    unfold Record.parsed Record.given
    rw [hk, hT, hp]
    rfl
  rw [hparsed]
  have hb : (tighten 'A' Size.Small ⟨fun _ => 0, fun _ => 0, 0, 127⟩).max_stems 0
      < (tighten 'A' Size.Small ⟨fun _ => 0, fun _ => 0, 0, 127⟩).min_stems 0 := by decide
  refine ⟨⟨0, by omega, hb⟩, ?_, ?_⟩
  · intro i
    simp only [tighten, tighten_max_eq]
    split <;> decide
  · intro i hi
    have h26 : ¬ i < 26 := by omega
    constructor
    · simp only [tighten, tighten_max_eq, if_neg h26]
    · simp only [tighten, tighten_max_eq, tighten_min_eq, h26, false_and, if_false]

theorem wf_sound {r : Record} (hw : r.WellFormed) :
    Tight (tighten r.name r.size_of r.parsed) ∨ Dead (tighten r.name r.size_of r.parsed) := by
  by_cases hk : 1 + r.T - r.k ≤ 127
  · exact Or.inl (wf_tight hw hk)
  · right
    have h1 := hw.valid.T_bounds
    have h2 := Record.Valid.k_nonneg r
    exact wf_dead (by omega) (by omega)

theorem lane_sum_add_le {f g : Nat → Int} {n : Nat} (h : ∀ i < n, g i ≤ f i) {j : Nat}
    (hj : j < n) : lane_sum g n + (f j - g j) ≤ lane_sum f n := by
  have h1 : lane_sum (Function.update g j (f j)) n ≤ lane_sum f n := by
    apply lane_sum_le
    intro i hi
    by_cases hij : i = j
    · subst hij; simp
    · rw [Function.update_noteq hij]; exact h i hi
  rw [lane_sum_update, if_pos hj] at h1
  exact h1

theorem wf_hk_of_listed {r : Record} (hw : r.WellFormed) {i : Nat} (h : r.listed i) :
    1 + r.T - r.k ≤ 127 := by
  have := hw.valid.T_bounds
  have := Record.listed_k_pos h
  omega

theorem wf_hk_of_satisfiable {r : Record} (hw : r.WellFormed) (hs : r.T ≤ r.sum_given) :
    1 + r.T - r.k ≤ 127 := by
  have h1 := hw.valid.T_bounds
  have h2 := Record.Valid.k_nonneg r
  by_cases hk : r.k = 0
  · have hp : r.pairs = [] := by
      unfold Record.k at hk
      have : r.pairs.length = 0 := by exact_mod_cast hk
      exact List.length_eq_zero.1 this
    have : r.sum_given = 0 := by
      unfold Record.sum_given; rw [hp]; rfl
    omega
  · omega

theorem wf_total_le_sum_max {r : Record} (hw : r.WellFormed) (hs : r.T ≤ r.sum_given) :
    r.T ≤ lane_sum (tighten r.name r.size_of r.parsed).max_stems 26 := by
  have hk := wf_hk_of_satisfiable hw hs
  by_cases h : ∀ i < 26, r.given i ≤ 1 + r.T - r.k
  · have e : lane_sum (tighten r.name r.size_of r.parsed).max_stems 26 = lane_sum r.given 26 := by
      apply lane_sum_congr
      intro i hi
      rw [wf_design_max hw hk]
      have := h i hi
      omega
    rw [e, hw.valid.lane_sum_given]
    exact hs
  · push_neg at h
    obtain ⟨j, hj, hgt⟩ := h
    have hkT := hw.k_le_total
    have hmj : (tighten r.name r.size_of r.parsed).max_stems j = 1 + r.T - r.k := by
      rw [wf_design_max hw hk]; omega
    have hle : ∀ i < 26, r.parsed.min_stems i ≤ (tighten r.name r.size_of r.parsed).max_stems i := by
      intro i _
      show (if i ∈ r.pairs.map (fun p => lane p.2) then (1 : Int) else 0) ≤ _
      by_cases hl : r.listed i
      · have e : (if i ∈ r.pairs.map (fun p => lane p.2) then (1 : Int) else 0) = 1 := if_pos hl
        rw [e]; exact wf_max_listed hw hk i hl
      · have e : (if i ∈ r.pairs.map (fun p => lane p.2) then (1 : Int) else 0) = 0 := if_neg hl
        rw [e]; exact wf_max_nonneg hw hk i
    have hlj : r.listed j := by
      by_contra hl
      rw [r.given_not_listed j hl] at hgt
      omega
    have hpj : r.parsed.min_stems j = 1 := if_pos hlj
    have := lane_sum_add_le hle hj
    rw [hw.valid.lane_sum_listed, hmj, hpj] at this
    omega

theorem others_max_eq {r : Record} (hv : r.Valid) (d : Design)
    (hd : ∀ i, ¬ r.listed i → d.max_stems i = 0) (i : Nat) (hl : r.listed i) :
    r.others_max d i = lane_sum d.max_stems 26 - d.max_stems i := by
  have h1 : d.max_stems
      = fun j => if j ∈ r.pairs.map (fun p => lane p.2) then d.max_stems j else 0 := by
    funext j
    by_cases h : j ∈ r.pairs.map (fun p => lane p.2)
    · rw [if_pos h]
    · rw [if_neg h]; exact hd j h
  have h2 : lane_sum d.max_stems 26 = ((r.pairs.map (fun p => lane p.2)).map d.max_stems).sum := by
    conv_lhs => rw [h1]
    exact lane_sum_indicator _ 26 d.max_stems hv.distinct_lanes (fun j hj => hv.listed_lt j hj)
  rw [h2]
  unfold Record.others_max
  have hn := hv.distinct_lanes
  unfold Record.listed at hl
  generalize r.pairs = ps at hn hl
  induction ps with
  | nil => simp at hl
  | cons p ps ih =>
    simp only [List.map_cons, List.nodup_cons] at hn
    simp only [List.map_cons, List.sum_cons, List.filter_cons]
    by_cases hp : lane p.2 = i
    · have hni : i ∉ ps.map (fun p => lane p.2) := hp ▸ hn.1
      have hf : ps.filter (fun p => decide (lane p.2 ≠ i)) = ps := by
        apply List.filter_eq_self.2
        intro q hq
        have : lane q.2 ≠ i := fun h => hni (List.mem_map.2 ⟨q, hq, h⟩)
        simpa using this
      simp only [hp, ne_eq, not_true_eq_false, decide_False, Bool.false_eq_true, if_false]
      simp only [ne_eq] at hf
      rw [hf, List.map_map]
      simp only [add_sub_cancel_left]
      rfl
    · have hmem : i ∈ ps.map (fun p => lane p.2) := by
        rcases List.mem_cons.1 hl with h | h
        · exact absurd h.symm hp
        · exact h
      have := ih hn.2 hmem
      simp only [ne_eq, hp, not_false_eq_true, decide_True, if_true, List.map_cons, List.sum_cons]
      simp only [ne_eq] at this
      rw [this]
      ring

/-! ## The example records -/

theorem record_AS1a5_valid : record_AS1a5.Valid :=
  ⟨by decide, by decide, by decide, by decide, by decide, by decide⟩

theorem record_AS100a100b100c127_valid : record_AS100a100b100c127.Valid :=
  ⟨by decide, by decide, by decide, by decide, by decide, by decide⟩

theorem record_BS9a2b9_wf : record_BS9a2b9.WellFormed :=
  ⟨⟨by decide, by decide, by decide, by decide, by decide, by decide⟩,
    by decide, by decide, by decide⟩

/-! ## Claims on the tightening -/

/-- C5 (amended): for a well-formed record (distinct species, counts at least 1, no more
species than the total, counts summing to at most 127) whose total is at most the sum
of its counts, the design `new_design` returns has maxima summing to at least the total,
and every listed species has `1 ≤ min ≤ max`. -/
theorem tightening_postcondition (r : Record) (d : Design) (hw : r.WellFormed)
    (hs : r.T ≤ r.sum_given) (hd : new_design r.text = some d) :
    d.total ≤ lane_sum d.max_stems 26 ∧
      ∀ i, r.listed i → d.min_stems i ≤ d.max_stems i ∧ 1 ≤ d.min_stems i := by
  rw [new_design_valid r hw.valid] at hd
  cases hd
  have hk := wf_hk_of_satisfiable hw hs
  have hT := wf_total_le_sum_max hw hs
  refine ⟨hT, ?_⟩
  intro i hl
  have hm := wf_max_listed hw hk i hl
  rw [wf_design_min hw hk i, if_pos (by omega)]
  omega

/-- C5, witness: the record `BS9a2b9`. -/
theorem tightening_postcondition_witness :
    record_BS9a2b9.WellFormed ∧ record_BS9a2b9.T ≤ record_BS9a2b9.sum_given ∧
      new_design record_BS9a2b9.text
        = some (tighten 'B' Size.Small record_BS9a2b9.parsed) ∧
      ((tighten 'B' Size.Small record_BS9a2b9.parsed).total
          ≤ lane_sum (tighten 'B' Size.Small record_BS9a2b9.parsed).max_stems 26 ∧
        ∀ i, record_BS9a2b9.listed i →
          (tighten 'B' Size.Small record_BS9a2b9.parsed).min_stems i
              ≤ (tighten 'B' Size.Small record_BS9a2b9.parsed).max_stems i ∧
            1 ≤ (tighten 'B' Size.Small record_BS9a2b9.parsed).min_stems i) :=
  ⟨record_BS9a2b9_wf, by decide, new_design_valid _ record_BS9a2b9_wf.valid,
    tightening_postcondition record_BS9a2b9 _ record_BS9a2b9_wf (by decide)
      (new_design_valid _ record_BS9a2b9_wf.valid)⟩

set_option maxRecDepth 100000 in
/-- C5 as stated fails: the syntactically valid record `AS1a5` gives a design whose
maxima sum to 1, below its total 5 (and whose minimum 5 for `a` is above its maximum 1). -/
theorem tightening_postcondition_fails :
    record_AS1a5.Valid ∧ ∃ d, new_design record_AS1a5.text = some d ∧
      ¬ (d.total ≤ lane_sum d.max_stems 26 ∧
          ∀ i, record_AS1a5.listed i → d.min_stems i ≤ d.max_stems i ∧ 1 ≤ d.min_stems i) :=
  ⟨record_AS1a5_valid, _, new_design_valid _ record_AS1a5_valid,
    fun h => absurd h.1 (by decide)⟩

/-- C6 (amended): for a syntactically valid record and every listed species `s`, the
stored `max[s]` is `min (g[s], 1 + T - k)`; and when the record is moreover well-formed
(counts at least 1, no more species than the total, counts summing to at most 127), the
stored `min[s]` is `max (1, T - sum of max[t] over the other listed species)`, over the
integers. -/
theorem tightening_formula (r : Record) (d : Design) (hv : r.Valid)
    (hd : new_design r.text = some d) (i : Nat) (hl : r.listed i) :
    d.max_stems i = min (r.given i) (1 + r.T - r.k) ∧
      (r.WellFormed → d.min_stems i = max 1 (r.T - r.others_max d i)) := by
  rw [new_design_valid r hv] at hd
  cases hd
  refine ⟨?_, ?_⟩
  · have h1 := hv.T_bounds
    have h2 := Record.listed_k_pos hl
    have h3 := Record.Valid.k_le hv
    rw [design_max, if_pos (hv.listed_lt i hl), wrap8_id (by omega) (by omega)]
  · intro hw
    have hk := wf_hk_of_listed hw hl
    have hm := wf_max_listed hw hk i hl
    rw [others_max_eq hv _ (fun j hj => wf_max_not_listed hw hk j hj) i hl,
      wf_design_min hw hk i, if_pos (by omega)]

/-- C6, witness: species `a` of the record `BS9a2b9`. -/
theorem tightening_formula_witness :
    record_BS9a2b9.Valid ∧ record_BS9a2b9.listed 0 ∧ record_BS9a2b9.WellFormed ∧
      new_design record_BS9a2b9.text
        = some (tighten 'B' Size.Small record_BS9a2b9.parsed) ∧
      (tighten 'B' Size.Small record_BS9a2b9.parsed).max_stems 0
          = min (record_BS9a2b9.given 0) (1 + record_BS9a2b9.T - record_BS9a2b9.k) ∧
      (tighten 'B' Size.Small record_BS9a2b9.parsed).min_stems 0
          = max 1 (record_BS9a2b9.T
              - record_BS9a2b9.others_max (tighten 'B' Size.Small record_BS9a2b9.parsed) 0) :=
  ⟨record_BS9a2b9_wf.valid, by decide, record_BS9a2b9_wf,
    new_design_valid _ record_BS9a2b9_wf.valid,
    (tightening_formula record_BS9a2b9 _ record_BS9a2b9_wf.valid
      (new_design_valid _ record_BS9a2b9_wf.valid) 0 (by decide)).1,
    (tightening_formula record_BS9a2b9 _ record_BS9a2b9_wf.valid
      (new_design_valid _ record_BS9a2b9_wf.valid) 0 (by decide)).2 record_BS9a2b9_wf⟩

set_option maxRecDepth 100000 in
/-- C6 as stated fails: for the syntactically valid record `AS100a100b100c127` the
stored minimum of `a` is -73, while the formula over the integers gives
`max (1, 127 - 200) = 1`: the 8-bit sum of the maxima has wrapped. -/
theorem tightening_formula_fails :
    record_AS100a100b100c127.Valid ∧ record_AS100a100b100c127.listed 0 ∧
      ∃ d, new_design record_AS100a100b100c127.text = some d ∧ d.min_stems 0 = -73 ∧
        ¬ (d.max_stems 0 = min (record_AS100a100b100c127.given 0)
              (1 + record_AS100a100b100c127.T - record_AS100a100b100c127.k) ∧
            d.min_stems 0 = max 1 (record_AS100a100b100c127.T
              - record_AS100a100b100c127.others_max d 0)) :=
  ⟨record_AS100a100b100c127_valid, by decide, _,
    new_design_valid _ record_AS100a100b100c127_valid, by decide,
    fun h => absurd h.2 (by decide)⟩

/-! ## Allocations -/

theorem fill (lo hi : Nat → Int) (n : Nat) (h : ∀ i < n, lo i ≤ hi i) (V : Int)
    (h1 : lane_sum lo n ≤ V) (h2 : V ≤ lane_sum hi n) :
    ∃ x : Nat → Int, (∀ i < n, lo i ≤ x i ∧ x i ≤ hi i) ∧ (∀ i, n ≤ i → x i = 0) ∧
      lane_sum x n = V := by
  induction n generalizing V with
  | zero =>
    simp only [lane_sum_zero] at h1 h2
    exact ⟨fun _ => 0, fun i hi => by omega, fun _ _ => rfl, by rw [lane_sum_zero]; omega⟩
  | succ n ih =>
    rw [lane_sum_succ] at h1 h2
    have hn := h n (by omega)
    have hle : lane_sum lo n ≤ lane_sum hi n := lane_sum_le (fun i hi => h i (by omega))
    obtain ⟨x, hx1, hx2, hx3⟩ := ih (fun i hi => h i (by omega))
      (V - max (lo n) (V - lane_sum hi n)) (by omega) (by omega)
    refine ⟨Function.update x n (max (lo n) (V - lane_sum hi n)), ?_, ?_, ?_⟩
    · intro i hi
      by_cases hin : i = n
      · subst hin
        rw [Function.update_same]
        omega
      · rw [Function.update_noteq hin]
        exact hx1 i (by omega)
    · intro i hi
      rw [Function.update_noteq (by omega)]
      exact hx2 i (by omega)
    · rw [lane_sum_succ, Function.update_same, lane_sum_update, if_neg (by omega), hx3]
      omega

theorem indicator_le_of_valid {r : Record} {x : Nat → Int} (hx : r.ValidAllocation x) (i : Nat) :
    r.parsed.min_stems i ≤ x i := by
  show (if i ∈ r.pairs.map (fun p => lane p.2) then (1 : Int) else 0) ≤ x i
  by_cases hl : r.listed i
  · have e : (if i ∈ r.pairs.map (fun p => lane p.2) then (1 : Int) else 0) = 1 := if_pos hl
    rw [e]; exact (hx.1 i hl).1
  · have e : (if i ∈ r.pairs.map (fun p => lane p.2) then (1 : Int) else 0) = 0 := if_neg hl
    rw [e, hx.2.1 i hl]

theorem valid_le_max {r : Record} (hw : r.WellFormed) (hk : 1 + r.T - r.k ≤ 127)
    {x : Nat → Int} (hx : r.ValidAllocation x) (i : Nat) :
    x i ≤ (tighten r.name r.size_of r.parsed).max_stems i := by
  by_cases hl : r.listed i
  · have hi := hw.valid.listed_lt i hl
    rw [wf_design_max hw hk]
    have h1 := (hx.1 i hl).2
    have h2 := lane_sum_add_le (f := x) (g := r.parsed.min_stems) (n := 26)
      (fun j _ => indicator_le_of_valid hx j) hi
    have h3 : r.parsed.min_stems i = 1 := if_pos hl
    rw [hw.valid.lane_sum_listed, hx.2.2, h3] at h2
    omega
  · rw [hx.2.1 i hl, wf_max_not_listed hw hk i hl]

theorem indicator_le_max {r : Record} (hw : r.WellFormed) (hk : 1 + r.T - r.k ≤ 127) (i : Nat) :
    r.parsed.min_stems i ≤ (tighten r.name r.size_of r.parsed).max_stems i := by
  show (if i ∈ r.pairs.map (fun p => lane p.2) then (1 : Int) else 0) ≤ _
  by_cases hl : r.listed i
  · have e : (if i ∈ r.pairs.map (fun p => lane p.2) then (1 : Int) else 0) = 1 := if_pos hl
    rw [e]; exact wf_max_listed hw hk i hl
  · have e : (if i ∈ r.pairs.map (fun p => lane p.2) then (1 : Int) else 0) = 0 := if_neg hl
    rw [e]; exact wf_max_nonneg hw hk i

/-- An allocation with a prescribed amount `v` in lane `i`, between the indicator of the
listed lanes and the bounds `hi`. -/
theorem alloc_exists {r : Record} (hw : r.WellFormed) (hi : Nat → Int)
    (hhi : ∀ j, r.parsed.min_stems j ≤ hi j ∧ hi j ≤ r.given j) (i : Nat) (hl : r.listed i)
    (v : Int) (hv1 : 1 ≤ v) (hv2 : v ≤ hi i) (hlo : r.k + v - 1 ≤ r.T)
    (hup : r.T ≤ lane_sum hi 26 + v - hi i) :
    ∃ x, r.ValidAllocation x ∧ x i = v := by
  have hi26 := hw.valid.listed_lt i hl
  have hind : r.parsed.min_stems i = 1 := if_pos hl
  obtain ⟨x, hx1, hx2, hx3⟩ := fill (Function.update r.parsed.min_stems i v)
    (Function.update hi i v) 26
    (by
      intro j _
      by_cases hj : j = i
      · subst hj; simp
      · rw [Function.update_noteq hj, Function.update_noteq hj]; exact (hhi j).1)
    r.T
    (by rw [lane_sum_update, if_pos hi26, hw.valid.lane_sum_listed, hind]; omega)
    (by rw [lane_sum_update, if_pos hi26]; omega)
  have hxi : x i = v := by
    have := hx1 i hi26
    simp only [Function.update_same] at this
    omega
  refine ⟨x, ⟨?_, ?_, hx3⟩, hxi⟩
  · intro j hj
    have hj26 := hw.valid.listed_lt j hj
    by_cases hji : j = i
    · subst hji
      rw [hxi]
      have := (hhi j).2
      omega
    · have := hx1 j hj26
      rw [Function.update_noteq hji, Function.update_noteq hji] at this
      have e : r.parsed.min_stems j = 1 := if_pos hj
      have := (hhi j).2
      omega
  · intro j hj
    by_cases hj26 : j < 26
    · have hji : j ≠ i := fun h => hj (h ▸ hl)
      have := hx1 j hj26
      rw [Function.update_noteq hji, Function.update_noteq hji] at this
      have e : r.parsed.min_stems j = 0 := if_neg hj
      have := (hhi j).2
      rw [r.given_not_listed j hj] at this
      omega
    · exact hx2 j (by omega)

theorem indicator_le_given {r : Record} (hw : r.WellFormed) (j : Nat) :
    r.parsed.min_stems j ≤ r.given j := by
  show (if j ∈ r.pairs.map (fun p => lane p.2) then (1 : Int) else 0) ≤ _
  by_cases hl : r.listed j
  · have e : (if j ∈ r.pairs.map (fun p => lane p.2) then (1 : Int) else 0) = 1 := if_pos hl
    rw [e]; exact hw.given_pos j hl
  · have e : (if j ∈ r.pairs.map (fun p => lane p.2) then (1 : Int) else 0) = 0 := if_neg hl
    rw [e, r.given_not_listed j hl]

/-- C7: for a satisfiable well-formed record (distinct species, counts at least 1,
`k ≤ T ≤ sum of counts ≤ 127`) and every listed species `s`, every valid allocation
has `min[s] ≤ x[s] ≤ max[s]` for the stored bounds, some valid allocation gives `s`
exactly `max[s]`, and some valid allocation gives `s` exactly `min[s]`. -/
theorem tightest_bounds (r : Record) (d : Design) (hw : r.WellFormed)
    (hs : r.T ≤ r.sum_given) (hd : new_design r.text = some d) (i : Nat) (hl : r.listed i) :
    (∀ x, r.ValidAllocation x → d.min_stems i ≤ x i ∧ x i ≤ d.max_stems i) ∧
      (∃ x, r.ValidAllocation x ∧ x i = d.max_stems i) ∧
      (∃ x, r.ValidAllocation x ∧ x i = d.min_stems i) := by
  rw [new_design_valid r hw.valid] at hd
  cases hd
  have hk := wf_hk_of_listed hw hl
  have hi26 := hw.valid.listed_lt i hl
  have hm := wf_max_listed hw hk i hl
  have hmi := wf_design_max hw hk i
  have hmin := wf_design_min hw hk i
  rw [if_pos (by omega)] at hmin
  have hTS := wf_total_le_sum_max hw hs
  have hind : r.parsed.min_stems i = 1 := if_pos hl
  have hkS := lane_sum_add_le (f := (tighten r.name r.size_of r.parsed).max_stems)
    (g := r.parsed.min_stems) (n := 26) (fun j _ => indicator_le_max hw hk j) hi26
  rw [hw.valid.lane_sum_listed, hind] at hkS
  have hkG := lane_sum_add_le (f := r.given) (g := r.parsed.min_stems) (n := 26)
    (fun j _ => indicator_le_given hw j) hi26
  rw [hw.valid.lane_sum_listed, hind, hw.valid.lane_sum_given] at hkG
  have hkT := hw.k_le_total
  refine ⟨?_, ?_, ?_⟩
  · intro x hx
    have hup := valid_le_max hw hk hx i
    refine ⟨?_, hup⟩
    have h1 := (hx.1 i hl).1
    have h2 := lane_sum_add_le (f := (tighten r.name r.size_of r.parsed).max_stems) (g := x)
      (n := 26) (fun j _ => valid_le_max hw hk hx j) hi26
    rw [hx.2.2] at h2
    rw [hmin]
    omega
  · exact alloc_exists hw r.given (fun j => ⟨indicator_le_given hw j, le_refl _⟩) i hl _
      hm (by omega) (by omega) (by rw [hw.valid.lane_sum_given]; omega)
  · exact alloc_exists hw (tighten r.name r.size_of r.parsed).max_stems
      (fun j => ⟨indicator_le_max hw hk j, wf_max_le_given hw hk j⟩) i hl _
      (by omega) (by omega) (by omega) (by omega)

/-- C7, witness: species `a` of the record `BS9a2b9`. -/
theorem tightest_bounds_witness :
    record_BS9a2b9.WellFormed ∧ record_BS9a2b9.T ≤ record_BS9a2b9.sum_given ∧
      record_BS9a2b9.listed 0 ∧
      new_design record_BS9a2b9.text
        = some (tighten 'B' Size.Small record_BS9a2b9.parsed) ∧
      ((∀ x, record_BS9a2b9.ValidAllocation x →
          (tighten 'B' Size.Small record_BS9a2b9.parsed).min_stems 0 ≤ x 0 ∧
            x 0 ≤ (tighten 'B' Size.Small record_BS9a2b9.parsed).max_stems 0) ∧
        (∃ x, record_BS9a2b9.ValidAllocation x ∧
          x 0 = (tighten 'B' Size.Small record_BS9a2b9.parsed).max_stems 0) ∧
        (∃ x, record_BS9a2b9.ValidAllocation x ∧
          x 0 = (tighten 'B' Size.Small record_BS9a2b9.parsed).min_stems 0)) :=
  ⟨record_BS9a2b9_wf, by decide, by decide, new_design_valid _ record_BS9a2b9_wf.valid,
    tightest_bounds record_BS9a2b9 _ record_BS9a2b9_wf (by decide)
      (new_design_valid _ record_BS9a2b9_wf.valid) 0 (by decide)⟩

/-! ## The scan of `division_add_stem` -/

theorem is_ge_iff (hand min_stems : Nat → Int) :
    is_ge hand min_stems = true ↔ ∀ i < 32, min_stems i ≤ hand i := by
  unfold is_ge
  simp only [List.all_eq_true, List.mem_range, Bool.or_eq_true, decide_eq_true_eq]
  constructor
  · intro h i hi
    have := h i hi
    omega
  · intro h i hi
    have := h i hi
    omega

theorem passes_iff (minimal_stock : Nat → Int) (d : Design) :
    passes minimal_stock d = true ↔
      d.total ≤ amount_in_hand (hand_of minimal_stock d.max_stems) ∧
        ∀ i < 32, d.min_stems i ≤ hand_of minimal_stock d.max_stems i := by
  unfold passes
  simp only [Bool.and_eq_true, Bool.not_eq_true', decide_eq_false_iff_not, not_lt, is_ge_iff]

theorem scan_some (dv : Division) (ds : List Design) (idx : Nat) (dv1 : Division) (b : Bouquet)
    (h : scan dv ds idx = (dv1, some b)) :
    ∃ j, ds[j]? = some b.design ∧ b.design_index = idx + j ∧
      passes dv.minimal_stock b.design = true ∧
      (∀ j1 d1, j1 < j → ds[j1]? = some d1 → passes dv.minimal_stock d1 = false) ∧
      b.amounts = (trim b.design (hand_of dv.minimal_stock b.design.max_stems)).1 ∧
      b.excess_amount = (trim b.design (hand_of dv.minimal_stock b.design.max_stems)).2 ∧
      dv1 = withdraw b.amounts dv := by
  induction ds generalizing idx with
  | nil => simp [scan] at h
  | cons d ds ih =>
    unfold scan at h
    by_cases hp : passes dv.minimal_stock d = true
    · rw [if_pos hp] at h
      simp only [Prod.mk.injEq, Option.some.injEq] at h
      obtain ⟨h1, h2⟩ := h
      subst h2
      exact ⟨0, by simp, rfl, hp, fun j1 d1 hj => by omega, rfl, rfl, h1.symm⟩
    · rw [if_neg hp] at h
      obtain ⟨j, h1, h2, h3, h4, h5⟩ := ih (idx + 1) h
      refine ⟨j + 1, by simpa using h1, by omega, h3, ?_, h5⟩
      intro j1 d1 hj hd1
      cases j1 with
      | zero =>
        simp only [List.getElem?_cons_zero, Option.some.injEq] at hd1
        subst hd1
        simpa using hp
      | succ j1 =>
        simp only [List.getElem?_cons_succ] at hd1
        exact h4 j1 d1 (by omega) hd1

theorem scan_none (dv : Division) (ds : List Design) (idx : Nat) (dv1 : Division)
    (h : scan dv ds idx = (dv1, none)) :
    dv1 = dv ∧ ∀ d ∈ ds, passes dv.minimal_stock d = false := by
  induction ds generalizing idx with
  | nil =>
    simp only [scan, Prod.mk.injEq, and_true] at h
    exact ⟨h.symm, by simp⟩
  | cons d ds ih =>
    unfold scan at h
    by_cases hp : passes dv.minimal_stock d = true
    · rw [if_pos hp] at h
      simp at h
    · rw [if_neg hp] at h
      obtain ⟨h1, h2⟩ := ih (idx + 1) h
      refine ⟨h1, ?_⟩
      intro d1 hd1
      rcases List.mem_cons.1 hd1 with h3 | h3
      · subst h3; simpa using hp
      · exact h2 d1 h3

/-! ## The trimming loop -/

theorem trim_loop_spec (es lo : Nat → Int) (is : List Nat) (h : Nat → Int) (e : Int)
    (hnd : is.Nodup) (his : ∀ i ∈ is, i < 26) (hes : ∀ i ∈ is, es i = h i - lo i)
    (hlo : ∀ i < 26, lo i ≤ h i) (hr : ∀ i < 26, -128 ≤ lo i ∧ h i ≤ 127)
    (he : 0 ≤ e) (he2 : e ≤ 127) :
    (∀ i < 26, lo i ≤ (trim_loop es is h e).1 i ∧ (trim_loop es is h e).1 i ≤ h i) ∧
      (∀ i, i ∉ is → (trim_loop es is h e).1 i = h i) ∧
      lane_sum (trim_loop es is h e).1 26 - (trim_loop es is h e).2 = lane_sum h 26 - e ∧
      0 ≤ (trim_loop es is h e).2 ∧
      ((trim_loop es is h e).2 ≠ 0 → ∀ i ∈ is, (trim_loop es is h e).1 i = lo i) := by
  induction is generalizing h e with
  | nil =>
    show (∀ i < 26, lo i ≤ h i ∧ h i ≤ h i) ∧ (∀ i, i ∉ ([] : List Nat) → h i = h i) ∧
      lane_sum h 26 - e = lane_sum h 26 - e ∧ 0 ≤ e ∧
      (e ≠ 0 → ∀ i ∈ ([] : List Nat), h i = lo i)
    exact ⟨fun i hi => ⟨hlo i hi, le_refl _⟩, fun _ _ => rfl, rfl, he, fun _ i hi => by simp at hi⟩
  | cons a is ih =>
    simp only [List.nodup_cons] at hnd
    have ha := his a (List.mem_cons_self _ _)
    have hesa := hes a (List.mem_cons_self _ _)
    have hloa := hlo a ha
    have hra := hr a ha
    unfold trim_loop
    by_cases h0 : es a = 0
    · simp only [h0, if_true]
      obtain ⟨i1, i2, i3, i4, i5⟩ := ih h e hnd.2 (fun i hi => his i (List.mem_cons_of_mem _ hi))
        (fun i hi => hes i (List.mem_cons_of_mem _ hi)) hlo hr he he2
      refine ⟨i1, fun i hi => i2 i (fun h1 => hi (List.mem_cons_of_mem _ h1)), i3, i4, ?_⟩
      intro hne i hi
      rcases List.mem_cons.1 hi with h1 | h1
      · subst h1
        rw [i2 i hnd.1]
        omega
      · exact i5 hne i h1
    · simp only [h0, if_false]
      have hw1 : wrap8 (h a - min e (es a)) = h a - min e (es a) := by
        apply wrap8_id <;> omega
      have hw2 : wrap8 (e - min e (es a)) = e - min e (es a) := by
        apply wrap8_id <;> omega
      rw [hw1, hw2]
      have hsum : lane_sum (Function.update h a (h a - min e (es a))) 26
          = lane_sum h 26 - min e (es a) := by
        rw [lane_sum_update, if_pos ha]; ring
      have hup : ∀ i < 26, lo i ≤ Function.update h a (h a - min e (es a)) i
          ∧ Function.update h a (h a - min e (es a)) i ≤ h i := by
        intro i hi
        by_cases hia : i = a
        · subst hia
          rw [Function.update_same]
          omega
        · rw [Function.update_noteq hia]
          exact ⟨hlo i hi, le_refl _⟩
      by_cases h1 : e - min e (es a) = 0
      · simp only [h1, if_true]
        refine ⟨hup, ?_, ?_, le_refl _, fun hne => absurd rfl hne⟩
        · intro i hi
          rw [Function.update_noteq (fun hia => hi (by rw [hia]; exact List.mem_cons_self _ _))]
        · rw [hsum]; omega
      · simp only [h1, if_false]
        obtain ⟨i1, i2, i3, i4, i5⟩ := ih (Function.update h a (h a - min e (es a)))
          (e - min e (es a)) hnd.2 (fun i hi => his i (List.mem_cons_of_mem _ hi))
          (by
            intro i hi
            have hia : i ≠ a := fun hia => hnd.1 (hia ▸ hi)
            rw [Function.update_noteq hia]
            exact hes i (List.mem_cons_of_mem _ hi))
          (fun i hi => (hup i hi).1)
          (fun i hi => ⟨(hr i hi).1, le_trans (hup i hi).2 (hr i hi).2⟩)
          (by omega) (by omega)
        refine ⟨fun i hi => ⟨(i1 i hi).1, le_trans (i1 i hi).2 (hup i hi).2⟩, ?_, ?_, i4, ?_⟩
        · intro i hi
          rw [i2 i (fun h2 => hi (List.mem_cons_of_mem _ h2))]
          rw [Function.update_noteq (fun hia => hi (by rw [hia]; exact List.mem_cons_self _ _))]
        · rw [i3, hsum]; ring
        · intro hne i hi
          rcases List.mem_cons.1 hi with h2 | h2
          · subst h2
            rw [i2 i hnd.1, Function.update_same]
            omega
          · exact i5 hne i h2

theorem trim_spec (d : Design) (hand : Nat → Int)
    (hlo : ∀ i < 26, d.min_stems i ≤ hand i) (hmin : ∀ i < 26, 0 ≤ d.min_stems i)
    (hsum : lane_sum hand 26 ≤ 127) (hT : d.total ≤ lane_sum hand 26) (hT0 : 0 ≤ d.total)
    (hminsum : lane_sum d.min_stems 26 ≤ d.total) :
    (∀ i < 26, d.min_stems i ≤ (trim d hand).1 i ∧ (trim d hand).1 i ≤ hand i) ∧
      (∀ i, 26 ≤ i → (trim d hand).1 i = hand i) ∧
      lane_sum (trim d hand).1 26 = d.total ∧ (trim d hand).2 = 0 := by
  have hh0 : ∀ i < 26, 0 ≤ hand i := fun i hi => le_trans (hmin i hi) (hlo i hi)
  have hh127 : ∀ i < 26, hand i ≤ 127 := fun i hi =>
    le_trans (lane_le_lane_sum hh0 hi) hsum
  have ha : amount_in_hand hand = lane_sum hand 26 := by
    unfold amount_in_hand
    apply wrap8_id <;> omega
  have he : wrap8 (amount_in_hand hand - d.total) = lane_sum hand 26 - d.total := by
    rw [ha]; apply wrap8_id <;> omega
  have key : trim d hand
      = if lane_sum hand 26 - d.total ≠ 0 then
          trim_loop (fun i => wrap8 (hand i - d.min_stems i)) (List.range 26) hand
            (lane_sum hand 26 - d.total)
        else (hand, lane_sum hand 26 - d.total) := by
    unfold trim
    simp only [he]
  rw [key]
  by_cases h0 : lane_sum hand 26 - d.total = 0
  · rw [if_neg (by simpa using h0)]
    exact ⟨fun i hi => ⟨hlo i hi, le_refl _⟩, fun _ _ => rfl, by show lane_sum hand 26 = _; omega,
      h0⟩
  · rw [if_pos h0]
    obtain ⟨i1, i2, i3, i4, i5⟩ := trim_loop_spec
      (fun i => wrap8 (hand i - d.min_stems i)) d.min_stems (List.range 26) hand
      (lane_sum hand 26 - d.total) (List.nodup_range 26) (fun i hi => List.mem_range.1 hi)
      (by
        intro i hi
        have hi := List.mem_range.1 hi
        have := hlo i hi
        have := hmin i hi
        have := hh127 i hi
        apply wrap8_id <;> omega)
      hlo (fun i hi => ⟨by have := hmin i hi; omega, hh127 i hi⟩) (by omega) (by omega)
    have hz : (trim_loop (fun i => wrap8 (hand i - d.min_stems i)) (List.range 26) hand
        (lane_sum hand 26 - d.total)).2 = 0 := by
      by_contra hne
      have hall := i5 hne
      have : lane_sum (trim_loop (fun i => wrap8 (hand i - d.min_stems i)) (List.range 26) hand
          (lane_sum hand 26 - d.total)).1 26 = lane_sum d.min_stems 26 :=
        lane_sum_congr (fun i hi => hall i (List.mem_range.2 hi))
      omega
    refine ⟨i1, fun i hi => i2 i (by simp; omega), by omega, hz⟩

/-! ## The withdrawal loop -/

theorem withdraw_range (h : Nat → Int) (dv : Division) (n : Nat) :
    (List.range n).foldl
      (fun (acc : Division) species_index =>
        if h species_index = 0 then acc
        else
          { acc with
            stock := Function.update acc.stock species_index
              (wrap16 (acc.stock species_index - h species_index))
            minimal_stock := Function.update acc.minimal_stock species_index
              (wrap8 (min (wrap16 (acc.stock species_index - h species_index)) INT8_MAX)) })
      dv
    = { minimal_stock := fun i =>
          if i < n ∧ h i ≠ 0 then wrap8 (min (wrap16 (dv.stock i - h i)) INT8_MAX)
          else dv.minimal_stock i
        stock := fun i => if i < n ∧ h i ≠ 0 then wrap16 (dv.stock i - h i) else dv.stock i
        max_per_species := dv.max_per_species
        designs := dv.designs } := by
  induction n with
  | zero => simp
  | succ n ih =>
    rw [List.range_succ, List.foldl_append, ih]
    simp only [List.foldl_cons, List.foldl_nil]
    have hc : ∀ i, i ≠ n → ((i < n + 1 ∧ h i ≠ 0) ↔ (i < n ∧ h i ≠ 0)) := by
      intro i hi
      constructor
      · rintro ⟨h1, h2⟩; exact ⟨by omega, h2⟩
      · rintro ⟨h1, h2⟩; exact ⟨by omega, h2⟩
    by_cases h0 : h n = 0
    · rw [if_pos h0]
      simp only [Division.mk.injEq, and_true]
      constructor
      · funext i
        by_cases hi : i = n
        · subst hi; simp [h0]
        · simp only [hc i hi]
      · funext i
        by_cases hi : i = n
        · subst hi; simp [h0]
        · simp only [hc i hi]
    · rw [if_neg h0]
      simp only [Division.mk.injEq, and_true, lt_irrefl, false_and, if_false]
      constructor
      · funext i
        by_cases hi : i = n
        · subst hi; simp [h0]
        · rw [Function.update_noteq hi]
          simp only [hc i hi]
      · funext i
        by_cases hi : i = n
        · subst hi; simp [h0]
        · rw [Function.update_noteq hi]
          simp only [hc i hi]

theorem withdraw_eq (h : Nat → Int) (dv : Division) :
    withdraw h dv
      = { minimal_stock := fun i =>
            if i < 26 ∧ h i ≠ 0 then wrap8 (min (wrap16 (dv.stock i - h i)) INT8_MAX)
            else dv.minimal_stock i
          stock := fun i => if i < 26 ∧ h i ≠ 0 then wrap16 (dv.stock i - h i) else dv.stock i
          max_per_species := dv.max_per_species
          designs := dv.designs } :=
  withdraw_range h dv 26

/-! ## One call of `division_add_stem` -/

theorem lane_eq (c : Char) : c.toNat - 97 = lane c := rfl

theorem hand_le_max (ms mx : Nat → Int) (i : Nat) : hand_of ms mx i ≤ mx i := by
  unfold hand_of; omega

theorem hand_le_stock (ms mx : Nat → Int) (i : Nat) : hand_of ms mx i ≤ ms i := by
  unfold hand_of; omega

theorem dead_not_passes (ms : Nat → Int) (d : Design) (hd : Dead d) : passes ms d = false := by
  obtain ⟨i, hi, hlt⟩ := hd.blocked
  by_contra h
  have h1 : passes ms d = true := by simpa using h
  have h2 := ((passes_iff ms d).1 h1).2 i (by omega)
  have h3 := hand_le_max ms d.max_stems i
  omega

/-- What a tight design that passes both tests is trimmed to. -/
theorem tight_trim (ms : Nat → Int) (d : Design) (ht : Tight d) (hp : passes ms d = true) :
    (∀ i < 26, d.min_stems i ≤ (trim d (hand_of ms d.max_stems)).1 i
        ∧ (trim d (hand_of ms d.max_stems)).1 i ≤ hand_of ms d.max_stems i) ∧
      (∀ i, 26 ≤ i → (trim d (hand_of ms d.max_stems)).1 i = hand_of ms d.max_stems i) ∧
      lane_sum (trim d (hand_of ms d.max_stems)).1 26 = d.total ∧
      (trim d (hand_of ms d.max_stems)).2 = 0 := by
  obtain ⟨h1, h2⟩ := (passes_iff ms d).1 hp
  have hlo : ∀ i < 26, d.min_stems i ≤ hand_of ms d.max_stems i := fun i hi => h2 i (by omega)
  have hh0 : ∀ i < 26, 0 ≤ hand_of ms d.max_stems i := fun i hi =>
    le_trans (ht.min_nonneg i) (hlo i hi)
  have hsum : lane_sum (hand_of ms d.max_stems) 26 ≤ lane_sum d.max_stems 26 :=
    lane_sum_le (fun i _ => hand_le_max ms d.max_stems i)
  have hs0 := lane_sum_nonneg hh0
  have hmax := ht.sum_max_le
  have ha : amount_in_hand (hand_of ms d.max_stems) = lane_sum (hand_of ms d.max_stems) 26 := by
    unfold amount_in_hand
    apply wrap8_id <;> omega
  rw [ha] at h1
  exact trim_spec d _ hlo (fun i _ => ht.min_nonneg i) (by omega) h1 ht.total_nonneg
    (ht.sum_min_le (by omega))

theorem scan_fst_designs (dv : Division) (ds : List Design) (idx : Nat) :
    (scan dv ds idx).1.designs = dv.designs ∧
      (scan dv ds idx).1.max_per_species = dv.max_per_species := by
  cases h : (scan dv ds idx).2 with
  | none =>
    have := (scan_none dv ds idx (scan dv ds idx).1 (by rw [← h])).1
    rw [this]
    exact ⟨rfl, rfl⟩
  | some b =>
    obtain ⟨j, _, _, _, _, _, _, h7⟩ := scan_some dv ds idx (scan dv ds idx).1 b (by rw [← h])
    rw [h7, withdraw_eq]
    exact ⟨rfl, rfl⟩

theorem step_designs (dv : Division) (c : Char) :
    (division_add_stem dv c).1.designs = dv.designs ∧
      (division_add_stem dv c).1.max_per_species = dv.max_per_species := by
  unfold division_add_stem
  simp only
  split
  · exact ⟨rfl, rfl⟩
  · have := scan_fst_designs
      (count_in_minimal_stock (count_in_stock dv (c.toNat - 97)) (c.toNat - 97))
      ((count_in_minimal_stock (count_in_stock dv (c.toNat - 97)) (c.toNat - 97)).designs.take
        NUMBER_OF_SPECIES) 0
    exact this

/-- What an emission of `division_add_stem` tells about the scan. -/
theorem step_some (dv : Division) (c : Char) (b : Bouquet)
    (h : (division_add_stem dv c).2 = some b) :
    ¬ (wrap16 (dv.stock (lane c) + 1) > dv.max_per_species (lane c)) ∧
      ∃ j, (dv.designs.take 26)[j]? = some b.design ∧ b.design_index = j ∧
        passes (count_in_minimal_stock (count_in_stock dv (lane c)) (lane c)).minimal_stock
          b.design = true ∧
        (∀ j1 d1, j1 < j → (dv.designs.take 26)[j1]? = some d1 →
          passes (count_in_minimal_stock (count_in_stock dv (lane c)) (lane c)).minimal_stock
            d1 = false) ∧
        b.amounts = (trim b.design (hand_of
          (count_in_minimal_stock (count_in_stock dv (lane c)) (lane c)).minimal_stock
          b.design.max_stems)).1 ∧
        b.excess_amount = (trim b.design (hand_of
          (count_in_minimal_stock (count_in_stock dv (lane c)) (lane c)).minimal_stock
          b.design.max_stems)).2 ∧
        (division_add_stem dv c).1
          = withdraw b.amounts (count_in_minimal_stock (count_in_stock dv (lane c)) (lane c)) := by
  unfold division_add_stem at h ⊢
  simp only [lane_eq] at h ⊢
  by_cases hs : (count_in_stock dv (lane c)).stock (lane c)
      > (count_in_stock dv (lane c)).max_per_species (lane c)
  · rw [if_pos hs] at h
    simp at h
  · rw [if_neg hs] at h ⊢
    refine ⟨?_, ?_⟩
    · simpa [count_in_stock] using hs
    · obtain ⟨j, h1, h2, h3⟩ := scan_some _ _ 0 _ b (Prod.ext rfl h)
      exact ⟨j, h1, by omega, h3⟩

/-! ## Pools -/

theorem foldlM_add_design (ds : List Design) (dv : Division) (hdv : dv.designs.length ≤ 26) :
    ds.foldlM division_add_design dv
      = if dv.designs.length + ds.length ≤ 26 then
          some { dv with designs := dv.designs ++ ds }
        else none := by
  induction ds generalizing dv with
  | nil =>
    simp only [List.foldlM_nil, List.length_nil, add_zero, List.append_nil]
    rw [if_pos hdv]; rfl
  | cons d ds ih =>
    rw [List.foldlM_cons]
    by_cases h : dv.designs.length < NUMBER_OF_SPECIES
    · have hadd : division_add_design dv d
          = some { dv with designs := dv.designs ++ [d] } := by
        unfold division_add_design; rw [if_pos h]
      rw [hadd]
      have h26 : dv.designs.length < 26 := h
      simp only [Option.some_bind, Option.bind_eq_bind]
      rw [ih _ (by simp only [List.length_append, List.length_cons, List.length_nil]; omega)]
      simp only [List.length_append, List.length_cons, List.length_nil, List.append_assoc,
        List.singleton_append]
      by_cases h2 : dv.designs.length + (ds.length + 1) ≤ 26
      · rw [if_pos h2, if_pos (by omega)]
      · rw [if_neg h2, if_neg (by omega)]
    · have hadd : division_add_design dv d = none := by
        unfold division_add_design; rw [if_neg h]
      rw [hadd]
      have h26 : ¬ dv.designs.length < 26 := h
      simp only [Option.none_bind, Option.bind_eq_bind, List.length_cons]
      rw [if_neg (by omega)]

theorem pool_of_eq (ds : List Design) (p : Division) (h : pool_of ds = some p) :
    ds.length ≤ 26 ∧
      p = make_division_production_ready { empty_division with designs := ds } := by
  unfold pool_of at h
  rw [foldlM_add_design ds empty_division (by simp [empty_division, new_division])] at h
  have e : empty_division.designs = [] := rfl
  rw [e] at h
  simp only [List.length_nil, zero_add, List.nil_append] at h
  by_cases hl : ds.length ≤ 26
  · rw [if_pos hl] at h
    simp only [Option.map_some', Option.some.injEq] at h
    exact ⟨hl, h.symm⟩
  · rw [if_neg hl] at h
    simp at h

theorem pool_of_designs (ds : List Design) (p : Division) (h : pool_of ds = some p) :
    p.designs = ds := by
  rw [(pool_of_eq ds p h).2]
  rfl

theorem sound_of_wf (d : Design) (h : ∃ r : Record, r.WellFormed ∧ new_design r.text = some d) :
    Tight d ∨ Dead d := by
  obtain ⟨r, hw, hd⟩ := h
  rw [new_design_valid r hw.valid] at hd
  cases hd
  exact wf_sound hw

/-! ## Conservation -/

theorem step_conserves (dv : Division) (c : Char) (b : Bouquet)
    (hs : ∀ d ∈ dv.designs, Tight d ∨ Dead d) (h : (division_add_stem dv c).2 = some b) :
    b.design ∈ dv.designs ∧ lane_sum b.amounts 26 = b.design.total ∧
      (∀ s < 26, b.design.min_stems s ≤ b.amounts s ∧ b.amounts s ≤ b.design.max_stems s) ∧
      b.excess_amount = 0 := by
  obtain ⟨_, j, h1, _, h3, _, h5, h6, _⟩ := step_some dv c b h
  have hmem : b.design ∈ dv.designs :=
    List.mem_of_mem_take (List.getElem?_mem h1)
  refine ⟨hmem, ?_⟩
  rcases hs _ hmem with ht | hdead
  · obtain ⟨t1, _, t3, t4⟩ := tight_trim _ _ ht h3
    rw [h5, h6]
    refine ⟨t3, ?_, t4⟩
    intro s hs
    exact ⟨(t1 s hs).1, le_trans (t1 s hs).2 (hand_le_max _ _ s)⟩
  · rw [dead_not_passes _ _ hdead] at h3
    simp at h3

theorem add_stems_conserves (stems : List Char) (dv : Division)
    (hs : ∀ d ∈ dv.designs, Tight d ∨ Dead d) (b : Bouquet)
    (hb : b ∈ (add_stems dv stems).2) :
    b.design ∈ dv.designs ∧ lane_sum b.amounts 26 = b.design.total ∧
      (∀ s < 26, b.design.min_stems s ≤ b.amounts s ∧ b.amounts s ≤ b.design.max_stems s) ∧
      b.excess_amount = 0 := by
  induction stems generalizing dv with
  | nil => simp [add_stems] at hb
  | cons c rest ih =>
    simp only [add_stems, List.mem_append, Option.mem_toList, Option.mem_def] at hb
    rcases hb with h | h
    · exact step_conserves dv c b hs h
    · have hd := (step_designs dv c).1
      have := ih (division_add_stem dv c).1 (by rw [hd]; exact hs) h
      rw [hd] at this
      exact this

theorem record_XS3a3_wf : record_XS3a3.WellFormed :=
  ⟨⟨by decide, by decide, by decide, by decide, by decide, by decide⟩,
    by decide, by decide, by decide⟩

theorem record_YS2a2_wf : record_YS2a2.WellFormed :=
  ⟨⟨by decide, by decide, by decide, by decide, by decide, by decide⟩,
    by decide, by decide, by decide⟩

theorem pool_B_wf : ∀ d ∈ [design_BS9a2b9],
    ∃ r : Record, r.WellFormed ∧ new_design r.text = some d := by
  intro d hd
  simp only [List.mem_singleton] at hd
  subst hd
  exact ⟨record_BS9a2b9, record_BS9a2b9_wf, new_design_valid _ record_BS9a2b9_wf.valid⟩

theorem pool_XY_wf : ∀ d ∈ [design_XS3a3, design_YS2a2],
    ∃ r : Record, r.WellFormed ∧ new_design r.text = some d := by
  intro d hd
  simp only [List.mem_cons, List.mem_singleton, List.not_mem_nil, or_false] at hd
  rcases hd with hd | hd
  · subst hd
    exact ⟨record_XS3a3, record_XS3a3_wf, new_design_valid _ record_XS3a3_wf.valid⟩
  · subst hd
    exact ⟨record_YS2a2, record_YS2a2_wf, new_design_valid _ record_YS2a2_wf.valid⟩

/-- C1: in a pool of designs built by `new_design` from well-formed records, made
production ready, every bouquet emitted along any sequence of stems belongs to a
registered design, its amounts over the 26 species sum to exactly the total of that
design, every amount lies between the minimum and the maximum of its species, and the
trimming ended with `excess_amount = 0`. -/
theorem conservation (ds : List Design) (p : Division) (stems : List Char)
    (hds : ∀ d ∈ ds, ∃ r : Record, r.WellFormed ∧ new_design r.text = some d)
    (hp : pool_of ds = some p) (b : Bouquet) (hb : b ∈ (add_stems p stems).2) :
    b.design ∈ ds ∧ lane_sum b.amounts 26 = b.design.total ∧
      (∀ s < 26, b.design.min_stems s ≤ b.amounts s ∧ b.amounts s ≤ b.design.max_stems s) ∧
      b.excess_amount = 0 := by
  have hd := pool_of_designs ds p hp
  have := add_stems_conserves stems p (by rw [hd]; exact fun d h => sound_of_wf d (hds d h)) b hb
  rw [hd] at this
  exact this

set_option maxRecDepth 100000 in
/-- C1, witness: the pool of `BS9a2b9` fed seven stems of `a` and two of `b`. -/
theorem conservation_witness :
    (∀ d ∈ [design_BS9a2b9], ∃ r : Record, r.WellFormed ∧ new_design r.text = some d) ∧
      pool_of [design_BS9a2b9] = some pool_B ∧
      ∃ b, b ∈ (add_stems pool_B ['a', 'a', 'a', 'a', 'a', 'a', 'a', 'b', 'b']).2 ∧
        (b.design ∈ [design_BS9a2b9] ∧ lane_sum b.amounts 26 = b.design.total ∧
          (∀ s < 26, b.design.min_stems s ≤ b.amounts s
            ∧ b.amounts s ≤ b.design.max_stems s) ∧
          b.excess_amount = 0) := by
  have hl : (add_stems pool_B ['a', 'a', 'a', 'a', 'a', 'a', 'a', 'b', 'b']).2.length = 1 := by
    decide
  obtain ⟨b, hb⟩ := List.length_eq_one.1 hl
  have hmem : b ∈ (add_stems pool_B ['a', 'a', 'a', 'a', 'a', 'a', 'a', 'b', 'b']).2 := by
    rw [hb]; exact List.mem_singleton_self b
  exact ⟨pool_B_wf, rfl, b, hmem,
    conservation [design_BS9a2b9] pool_B _ pool_B_wf rfl b hmem⟩

/-- C3: when `division_add_stem` emits a bouquet, its design is among the first 26
registered designs, it passes the amount test and the minimum test in the state right
after the arriving stem was counted, and no design registered before it passes both:
every registered design that passes has an index at least that of the emitted one. -/
theorem priority (dv : Division) (c : Char) (b : Bouquet)
    (h : (division_add_stem dv c).2 = some b) :
    b.design_index < 26 ∧ dv.designs[b.design_index]? = some b.design ∧
      passes (count_in_minimal_stock (count_in_stock dv (lane c)) (lane c)).minimal_stock
        b.design = true ∧
      ∀ j d, j < 26 → dv.designs[j]? = some d →
        passes (count_in_minimal_stock (count_in_stock dv (lane c)) (lane c)).minimal_stock
          d = true → b.design_index ≤ j := by
  obtain ⟨_, j, h1, h2, h3, h4, _⟩ := step_some dv c b h
  rw [List.getElem?_take] at h1
  have hj : j < 26 := by
    by_contra hj
    rw [if_neg hj] at h1
    simp at h1
  rw [if_pos hj] at h1
  rw [h2]
  refine ⟨hj, h1, h3, ?_⟩
  intro j1 d1 hj1 hd1 hp1
  by_contra hlt
  have := h4 j1 d1 (by omega) (by rw [List.getElem?_take, if_pos hj1]; exact hd1)
  rw [this] at hp1
  simp at hp1

set_option maxRecDepth 100000 in
/-- C3, witness: the pool of `XS3a3` and `YS2a2` holding one stem of `a` receives a
second one. -/
theorem priority_witness :
    ∃ b, (division_add_stem (division_add_stem pool_XY 'a').1 'a').2 = some b ∧
      (b.design_index < 26 ∧
        (division_add_stem pool_XY 'a').1.designs[b.design_index]? = some b.design ∧
        passes (count_in_minimal_stock
            (count_in_stock (division_add_stem pool_XY 'a').1 (lane 'a'))
            (lane 'a')).minimal_stock b.design = true ∧
        ∀ j d, j < 26 → (division_add_stem pool_XY 'a').1.designs[j]? = some d →
          passes (count_in_minimal_stock
              (count_in_stock (division_add_stem pool_XY 'a').1 (lane 'a'))
              (lane 'a')).minimal_stock d = true → b.design_index ≤ j) := by
  have hs : ((division_add_stem (division_add_stem pool_XY 'a').1 'a').2).isSome = true := by
    decide
  obtain ⟨b, hb⟩ := Option.isSome_iff_exists.1 hs
  exact ⟨b, hb, priority _ 'a' b hb⟩

/-! ## The third scenario -/

set_option maxRecDepth 100000 in
/-- C4 as stated fails: with `XS3a3` registered before `YS2a2`, three stems `aS` do not
print `XS3a`; the run prints `YS2a`. -/
theorem scenario3_fails :
    (main (fun _ => 0) (fun _ => 0) (fun _ => 0) (fun _ => 0)
        [['X', 'S', '3', 'a', '3'], ['Y', 'S', '2', 'a', '2']]
        [['a', 'S'], ['a', 'S'], ['a', 'S']]).1 ≠ [['X', 'S', '3', 'a', '\n']] ∧
      ['Y', 'S', '2', 'a', '\n'] ∈
        (main (fun _ => 0) (fun _ => 0) (fun _ => 0) (fun _ => 0)
          [['X', 'S', '3', 'a', '3'], ['Y', 'S', '2', 'a', '2']]
          [['a', 'S'], ['a', 'S'], ['a', 'S']]).1 := by
  decide

set_option maxRecDepth 100000 in
/-- C4 (amended): with `XS3a3` registered before `YS2a2` and both divisions empty, the
first stem `aS` prints nothing, the second prints `YS2a` (the only design that can be
completed at that moment), the third prints nothing: the whole output of the three
stems is the one line `YS2a`, the run ends normally, and one stem of `a` stays in
stock. -/
theorem scenario3 :
    (main (fun _ => 0) (fun _ => 0) (fun _ => 0) (fun _ => 0)
        [['X', 'S', '3', 'a', '3'], ['Y', 'S', '2', 'a', '2']] [['a', 'S']]).1 = [] ∧
      (main (fun _ => 0) (fun _ => 0) (fun _ => 0) (fun _ => 0)
        [['X', 'S', '3', 'a', '3'], ['Y', 'S', '2', 'a', '2']]
        [['a', 'S'], ['a', 'S']]).1 = [['Y', 'S', '2', 'a', '\n']] ∧
      main (fun _ => 0) (fun _ => 0) (fun _ => 0) (fun _ => 0)
        [['X', 'S', '3', 'a', '3'], ['Y', 'S', '2', 'a', '2']]
        [['a', 'S'], ['a', 'S'], ['a', 'S']] = ([['Y', 'S', '2', 'a', '\n']], true) ∧
      (add_stems pool_XY ['a', 'a', 'a']).1.stock 0 = 1 := by
  decide

/-! ## Records without a valid allocation -/

theorem valid_k_le_T {r : Record} (hv : r.Valid) {x : Nat → Int} (hx : r.ValidAllocation x) :
    r.k ≤ r.T := by
  rw [← hv.lane_sum_listed, ← hx.2.2]
  exact lane_sum_le (fun i _ => indicator_le_of_valid hx i)

theorem valid_T_le_sum {r : Record} (hv : r.Valid) {x : Nat → Int} (hx : r.ValidAllocation x) :
    r.T ≤ r.sum_given := by
  rw [← hv.lane_sum_given, ← hx.2.2]
  apply lane_sum_le
  intro i _
  by_cases hl : r.listed i
  · exact (hx.1 i hl).2
  · rw [hx.2.1 i hl, r.given_not_listed i hl]

theorem alloc_of_satisfiable {r : Record} (hv : r.Valid) (hc : ∀ p ∈ r.pairs, 1 ≤ number p.1)
    (hk : r.k ≤ r.T) (hs : r.T ≤ r.sum_given) : ∃ x, r.ValidAllocation x := by
  have hpos : ∀ i, r.listed i → 1 ≤ r.given i := by
    intro i hl
    obtain ⟨p, hp, _, hg⟩ := hv.given_listed i hl
    have := hc p hp
    rw [hg]
    omega
  have hind1 : ∀ i, r.listed i → r.parsed.min_stems i = 1 := fun i hl => if_pos hl
  have hind0 : ∀ i, ¬ r.listed i → r.parsed.min_stems i = 0 := fun i hl => if_neg hl
  obtain ⟨x, hx1, hx2, hx3⟩ := fill r.parsed.min_stems r.given 26
    (by
      intro i _
      by_cases hl : r.listed i
      · rw [hind1 i hl]; exact hpos i hl
      · rw [hind0 i hl, r.given_not_listed i hl])
    r.T (by rw [hv.lane_sum_listed]; exact hk) (by rw [hv.lane_sum_given]; exact hs)
  refine ⟨x, ?_, ?_, hx3⟩
  · intro i hl
    have := hx1 i (hv.listed_lt i hl)
    rw [hind1 i hl] at this
    exact this
  · intro i hl
    by_cases hi : i < 26
    · have := hx1 i hi
      rw [hind0 i hl, r.given_not_listed i hl] at this
      omega
    · exact hx2 i (by omega)

theorem blocked_not_passes (ms : Nat → Int) (d : Design)
    (hd : ∃ i, i < 26 ∧ d.max_stems i < d.min_stems i) : passes ms d = false := by
  obtain ⟨i, hi, hlt⟩ := hd
  by_contra h
  have h1 : passes ms d = true := by simpa using h
  have h2 := ((passes_iff ms d).1 h1).2 i (by omega)
  have h3 := hand_le_max ms d.max_stems i
  omega

theorem tight_passes_total (ms : Nat → Int) (d : Design) (ht : Tight d)
    (hp : passes ms d = true) : d.total ≤ lane_sum d.max_stems 26 := by
  obtain ⟨h1, h2⟩ := (passes_iff ms d).1 hp
  have hh0 : ∀ i < 26, 0 ≤ hand_of ms d.max_stems i := fun i hi =>
    le_trans (ht.min_nonneg i) (h2 i (by omega))
  have hsum : lane_sum (hand_of ms d.max_stems) 26 ≤ lane_sum d.max_stems 26 :=
    lane_sum_le (fun i _ => hand_le_max ms d.max_stems i)
  have hs0 := lane_sum_nonneg hh0
  have hmax := ht.sum_max_le
  have ha : amount_in_hand (hand_of ms d.max_stems) = lane_sum (hand_of ms d.max_stems) 26 := by
    unfold amount_in_hand
    apply wrap8_id <;> omega
  rw [ha] at h1
  omega

theorem unsat_never_passes (r : Record) (hv : r.Valid) (hk : r.k ≤ r.T + 1)
    (hun : ¬ ∃ x, r.ValidAllocation x) (ms : Nat → Int) :
    passes ms (tighten r.name r.size_of r.parsed) = false := by
  have hT := hv.T_bounds
  have hk0 := Record.Valid.k_nonneg r
  have hmin_listed : ∀ i, r.listed i →
      (tighten r.name r.size_of r.parsed).max_stems i = 0 →
      (tighten r.name r.size_of r.parsed).min_stems i = 1 := by
    intro i hl h0
    rw [design_min, if_neg (fun h => h.2 h0)]
    exact if_pos hl
  by_cases hc : ∀ p ∈ r.pairs, 1 ≤ number p.1
  · by_cases hkT : r.k ≤ r.T
    · by_cases hTS : r.T ≤ r.sum_given
      · exact absurd (alloc_of_satisfiable hv hc hkT hTS) hun
      · have hw : r.WellFormed := ⟨hv, hc, hkT, by omega⟩
        by_cases hk1 : 1 + r.T - r.k ≤ 127
        · by_contra hp
          have hp1 : passes ms (tighten r.name r.size_of r.parsed) = true := by simpa using hp
          have h1 := tight_passes_total ms _ (wf_tight hw hk1) hp1
          have h2 := wf_sum_max_le hw hk1
          rw [design_total] at h1
          omega
        · exact dead_not_passes ms _ (wf_dead (by omega) (by omega))
    · have hk1 : r.k = r.T + 1 := by omega
      have hne : r.pairs ≠ [] := by
        intro h
        unfold Record.k at hk1
        rw [h] at hk1
        simp at hk1
        omega
      obtain ⟨p, hp⟩ := List.exists_mem_of_ne_nil _ hne
      have hl : r.listed (lane p.2) := List.mem_map.2 ⟨p, hp, rfl⟩
      have hi := hv.listed_lt _ hl
      have hg := (hv.given_bounds (lane p.2)).1
      have hmps : wrap8 (1 + r.T - r.k) = 0 := by rw [hk1]; unfold wrap8; omega
      have hmax : (tighten r.name r.size_of r.parsed).max_stems (lane p.2) = 0 := by
        rw [design_max, if_pos hi, hmps]; omega
      apply blocked_not_passes
      exact ⟨lane p.2, hi, by rw [hmax, hmin_listed _ hl hmax]; omega⟩
  · push_neg at hc
    obtain ⟨p, hp, hlt⟩ := hc
    have hl : r.listed (lane p.2) := List.mem_map.2 ⟨p, hp, rfl⟩
    have hi := hv.listed_lt _ hl
    have hg : r.given (lane p.2) = 0 := by
      show given_of r.pairs (lane p.2) = 0
      rw [given_of_mem r.pairs hv.distinct_lanes p hp]
      omega
    have hk1 := Record.listed_k_pos hl
    have hmps : wrap8 (1 + r.T - r.k) = 1 + r.T - r.k := by apply wrap8_id <;> omega
    have hmax : (tighten r.name r.size_of r.parsed).max_stems (lane p.2) = 0 := by
      rw [design_max, if_pos hi, hmps, hg]; omega
    apply blocked_not_passes
    exact ⟨lane p.2, hi, by rw [hmax, hmin_listed _ hl hmax]; omega⟩

theorem emitted_passes (stems : List Char) (dv : Division) (b : Bouquet)
    (hb : b ∈ (add_stems dv stems).2) : ∃ ms, passes ms b.design = true := by
  induction stems generalizing dv with
  | nil => simp [add_stems] at hb
  | cons c rest ih =>
    simp only [add_stems, List.mem_append, Option.mem_toList, Option.mem_def] at hb
    rcases hb with h | h
    · obtain ⟨_, j, _, _, h3, _⟩ := step_some dv c b h
      exact ⟨_, h3⟩
    · exact ih _ h

/-- C8 (amended): a design built by `new_design` from a syntactically valid record
that has no valid allocation and lists at most `total + 1` species is never emitted:
whatever the division (its other designs, its ceilings, its stock) and whatever the
stems, no bouquet of that design is printed. -/
theorem unsatisfiable_never_matches (r : Record) (d : Design) (hv : r.Valid)
    (hk : r.k ≤ r.T + 1) (hun : ¬ ∃ x, r.ValidAllocation x)
    (hd : new_design r.text = some d) (dv : Division) (stems : List Char) (b : Bouquet)
    (hb : b ∈ (add_stems dv stems).2) : b.design ≠ d := by
  rw [new_design_valid r hv] at hd
  cases hd
  intro heq
  obtain ⟨ms, hp⟩ := emitted_passes stems dv b hb
  rw [heq, unsat_never_passes r hv hk hun ms] at hp
  simp at hp

theorem record_A9_valid : record_A9.Valid :=
  ⟨by decide, by decide, by decide, by decide, by decide, by decide⟩

theorem record_BS5z5_wf : record_BS5z5.WellFormed :=
  ⟨⟨by decide, by decide, by decide, by decide, by decide, by decide⟩,
    by decide, by decide, by decide⟩

theorem record_A9_unsat : ¬ ∃ x, record_A9.ValidAllocation x := by
  rintro ⟨x, hx⟩
  exact absurd (valid_k_le_T record_A9_valid hx) (by decide)

theorem record_AS1a5_unsat : ¬ ∃ x, record_AS1a5.ValidAllocation x := by
  rintro ⟨x, hx⟩
  exact absurd (valid_T_le_sum record_AS1a5_valid hx) (by decide)

theorem add_stems_single (dv : Division) (c : Char) (b : Bouquet)
    (h : b ∈ (add_stems dv [c]).2) : (division_add_stem dv c).2 = some b := by
  simpa [add_stems] using h

set_option maxRecDepth 100000 in
/-- C8, witness: the pool of `AS1a5` (no valid allocation) and `YS2a2` fed two stems of
`a` emits a bouquet, and it is not one of `AS1a5`. -/
theorem unsatisfiable_never_matches_witness :
    record_AS1a5.Valid ∧ record_AS1a5.k ≤ record_AS1a5.T + 1 ∧
      (¬ ∃ x, record_AS1a5.ValidAllocation x) ∧
      new_design record_AS1a5.text = some design_AS1a5 ∧
      design_AS1a5 ∈ pool_A5Y.designs ∧
      ∃ b, b ∈ (add_stems pool_A5Y ['a', 'a']).2 ∧ b.design ≠ design_AS1a5 := by
  have hl : (add_stems pool_A5Y ['a', 'a']).2.length = 1 := by decide
  obtain ⟨b, hb⟩ := List.length_eq_one.1 hl
  have hmem : b ∈ (add_stems pool_A5Y ['a', 'a']).2 := by
    rw [hb]; exact List.mem_singleton_self b
  exact ⟨record_AS1a5_valid, by decide, record_AS1a5_unsat,
    new_design_valid _ record_AS1a5_valid, List.mem_cons_self _ _, b, hmem,
    unsatisfiable_never_matches record_AS1a5 design_AS1a5 record_AS1a5_valid (by decide)
      record_AS1a5_unsat (new_design_valid _ record_AS1a5_valid) pool_A5Y _ b hmem⟩

set_option maxRecDepth 1000000 in
/-- C8 as stated fails: the syntactically valid record `AS1a1b1c1d1e1f1g1h1i3` has no
valid allocation (nine species, total three), its design has maximum -5 and minimum
-128 in all 26 lanes, and in the pool that also holds `BS5z5` the first stem of `z`
makes `division_add_stem` emit a bouquet of that design. -/
theorem unsatisfiable_matches :
    record_A9.Valid ∧ (¬ ∃ x, record_A9.ValidAllocation x) ∧
      new_design record_A9.text = some design_A9 ∧
      pool_of [design_A9, design_BS5z5] = some pool_A9B ∧
      ∃ b, b ∈ (add_stems pool_A9B ['z']).2 ∧ b.design = design_A9 ∧
        bouquet_text b =
          [
            'A', 'S', '1', '2', '8', 'a', '2', '5', '1', 'b', '2', '5', '1', 'c', '2', '5',
            '1', 'd', '2', '5', '1', 'e', '2', '5', '1', 'f', '2', '5', '1', 'g', '2', '5',
            '1', 'h', '2', '5', '1', 'i', '2', '5', '1', 'j', '2', '5', '1', 'k', '2', '5',
            '1', 'l', '2', '5', '1', 'm', '2', '5', '1', 'n', '2', '5', '1', 'o', '2', '5',
            '1', 'p', '2', '5', '1', 'q', '2', '5', '1', 'r', '2', '5', '1', 's', '2', '5',
            '1', 't', '2', '5', '1', 'u', '2', '5', '1', 'v', '2', '5', '1', 'w', '2', '5',
            '1', 'x', '2', '5', '1', 'y', '2', '5', '1', 'z', '\n'] := by
  have hl : (add_stems pool_A9B ['z']).2.length = 1 := by decide
  have hidx : (add_stems pool_A9B ['z']).2.map (fun b => b.design_index) = [0] := by decide
  have htxt : (add_stems pool_A9B ['z']).2.map bouquet_text
      =
        [[
          'A', 'S', '1', '2', '8', 'a', '2', '5', '1', 'b', '2', '5', '1', 'c', '2', '5',
          '1', 'd', '2', '5', '1', 'e', '2', '5', '1', 'f', '2', '5', '1', 'g', '2', '5',
          '1', 'h', '2', '5', '1', 'i', '2', '5', '1', 'j', '2', '5', '1', 'k', '2', '5',
          '1', 'l', '2', '5', '1', 'm', '2', '5', '1', 'n', '2', '5', '1', 'o', '2', '5',
          '1', 'p', '2', '5', '1', 'q', '2', '5', '1', 'r', '2', '5', '1', 's', '2', '5',
          '1', 't', '2', '5', '1', 'u', '2', '5', '1', 'v', '2', '5', '1', 'w', '2', '5',
          '1', 'x', '2', '5', '1', 'y', '2', '5', '1', 'z', '\n']] := by decide
  obtain ⟨b, hb⟩ := List.length_eq_one.1 hl
  rw [hb] at hidx htxt
  simp only [List.map_cons, List.map_nil, List.cons.injEq, and_true] at hidx htxt
  have hmem : b ∈ (add_stems pool_A9B ['z']).2 := by
    rw [hb]; exact List.mem_singleton_self b
  obtain ⟨_, j, h1, h2, _⟩ := step_some pool_A9B 'z' b (add_stems_single _ _ _ hmem)
  have hj : j = 0 := by omega
  subst hj
  have hdes : b.design = design_A9 := by
    have : (pool_A9B.designs.take 26)[0]? = some design_A9 := rfl
    rw [this] at h1
    exact (Option.some.inj h1).symm
  exact ⟨record_A9_valid, record_A9_unsat, new_design_valid _ record_A9_valid, rfl, b, hmem,
    hdes, htxt⟩

/-! ## Ceilings -/

theorem raise_range (mps : Nat → Int) (d : Design) (n : Nat) (i : Nat) :
    (List.range n).foldl
      (fun (acc : Nat → Int) species_index =>
        if d.max_stems species_index > acc species_index then
          Function.update acc species_index (d.max_stems species_index)
        else acc)
      mps i
    = if i < n then max (mps i) (d.max_stems i) else mps i := by
  induction n generalizing i with
  | zero => simp
  | succ n ih =>
    rw [List.range_succ, List.foldl_append]
    simp only [List.foldl_cons, List.foldl_nil]
    have hn := ih n
    rw [if_neg (lt_irrefl n)] at hn
    rw [hn]
    have hnn : n < n + 1 := Nat.lt_succ_self n
    by_cases hi : i = n
    · rw [hi, if_pos hnn]
      by_cases hgt : d.max_stems n > mps n
      · rw [if_pos hgt, Function.update_same]
        exact (max_eq_right (le_of_lt hgt)).symm
      · rw [if_neg hgt, hn]
        exact (max_eq_left (not_lt.1 hgt)).symm
    · have hc : (i < n + 1) ↔ (i < n) := by
        clear hn ih
        omega
      have hii := ih i
      by_cases hgt : d.max_stems n > mps n
      · rw [if_pos hgt, Function.update_noteq hi, hii]
        simp only [hc]
      · rw [if_neg hgt, hii]
        simp only [hc]

theorem raise_eq (mps : Nat → Int) (d : Design) (i : Nat) :
    raise_max_per_species mps d i
      = if i < 26 then max (mps i) (d.max_stems i) else mps i :=
  raise_range mps d 26 i

theorem ceiling_facts (ds : List Design) (mps : Nat → Int) (i : Nat) :
    mps i ≤ ds.foldl raise_max_per_species mps i ∧
      (∀ d ∈ ds, i < 26 → d.max_stems i ≤ ds.foldl raise_max_per_species mps i) ∧
      (mps i ≤ 127 → (∀ d ∈ ds, d.max_stems i ≤ 127) →
        ds.foldl raise_max_per_species mps i ≤ 127) ∧
      (26 ≤ i → ds.foldl raise_max_per_species mps i = mps i) := by
  induction ds generalizing mps with
  | nil => simp
  | cons d ds ih =>
    rw [List.foldl_cons]
    obtain ⟨h1, h2, h3, h4⟩ := ih (raise_max_per_species mps d)
    have hr := raise_eq mps d i
    refine ⟨?_, ?_, ?_, ?_⟩
    · by_cases hi : i < 26
      · rw [if_pos hi] at hr; omega
      · rw [if_neg hi] at hr; omega
    · intro d1 hd1 hi
      rw [if_pos hi] at hr
      rcases List.mem_cons.1 hd1 with h | h
      · subst h; omega
      · exact h2 d1 h hi
    · intro hm hall
      apply h3
      · have := hall d (List.mem_cons_self _ _)
        by_cases hi : i < 26
        · rw [if_pos hi] at hr; omega
        · rw [if_neg hi] at hr; omega
      · exact fun d1 hd1 => hall d1 (List.mem_cons_of_mem _ hd1)
    · intro hi
      rw [h4 hi, hr, if_neg (by omega)]

theorem sound_max_le (d : Design) (h : Tight d ∨ Dead d) (i : Nat) : d.max_stems i ≤ 127 := by
  rcases h with ht | hd
  · by_cases hi : i < 26
    · have := lane_le_lane_sum (f := d.max_stems) (n := 26) (fun j _ => ht.max_nonneg j) hi
      have := ht.sum_max_le
      omega
    · rw [(ht.hi i (by omega)).1]; omega
  · have := hd.max_nonpos i
    omega

theorem sound_hi (d : Design) (h : Tight d ∨ Dead d) (i : Nat) (hi : 26 ≤ i) :
    d.max_stems i = 0 ∧ d.min_stems i = 0 := by
  rcases h with ht | hd
  · exact ht.hi i hi
  · exact hd.hi i hi

theorem pool_synced (ds : List Design) (p : Division) (hp : pool_of ds = some p)
    (hs : ∀ d ∈ ds, Tight d ∨ Dead d) :
    Synced p ∧ (∀ i, p.stock i = 0) ∧ p.designs = ds := by
  obtain ⟨hlen, hpe⟩ := pool_of_eq ds p hp
  have htake : ds.take MAX_DESIGNS = ds := List.take_of_length_le hlen
  have hstock : ∀ i, p.stock i = 0 := by
    intro i
    rw [hpe]
    show (if i < 13 then (0 : Int) else 0) = 0
    split <;> rfl
  have hms : ∀ i, p.minimal_stock i = 0 := by
    intro i; rw [hpe]; rfl
  have hceil : ∀ i, p.max_per_species i = ds.foldl raise_max_per_species (fun _ => 0) i := by
    intro i
    rw [hpe]
    show ((ds.take MAX_DESIGNS).foldl raise_max_per_species (fun _ => 0)) i = _
    rw [htake]
  have hdes : p.designs = ds := by rw [hpe]; rfl
  have hc0 : ∀ i, 0 ≤ p.max_per_species i := by
    intro i; rw [hceil]; exact (ceiling_facts ds (fun _ => 0) i).1
  refine ⟨⟨?_, ?_, ?_, ?_, ?_, ?_, ?_, ?_⟩, hstock, hdes⟩
  · intro i; rw [hstock]
  · intro i; rw [hstock]; omega
  · intro i
    have := hc0 i
    rw [hstock, hms]; omega
  · intro i; rw [hstock, hms]; omega
  · intro i
    refine ⟨hc0 i, ?_⟩
    rw [hceil]
    exact (ceiling_facts ds (fun _ => 0) i).2.2.1 (by omega)
      (fun d hd => sound_max_le d (hs d hd) i)
  · intro d hd i
    rw [hdes] at hd
    by_cases hi : i < 26
    · rw [hceil]; exact (ceiling_facts ds (fun _ => 0) i).2.1 d hd hi
    · rw [(sound_hi d (hs d hd) i (by omega)).1]; exact hc0 i
  · rw [hdes]; exact hs
  · rw [hdes]; exact hlen

/-! ## The state of a division along a run -/

theorem step_cases (dv : Division) (c : Char) :
    ((count_in_stock dv (lane c)).stock (lane c) > dv.max_per_species (lane c) ∧
        division_add_stem dv c = (count_in_stock dv (lane c), none)) ∨
      (¬ (count_in_stock dv (lane c)).stock (lane c) > dv.max_per_species (lane c) ∧
        division_add_stem dv c
          = (count_in_minimal_stock (count_in_stock dv (lane c)) (lane c), none) ∧
        ∀ d ∈ dv.designs.take 26,
          passes (count_in_minimal_stock (count_in_stock dv (lane c)) (lane c)).minimal_stock
            d = false) ∨
      (¬ (count_in_stock dv (lane c)).stock (lane c) > dv.max_per_species (lane c) ∧
        ∃ b, (division_add_stem dv c).2 = some b ∧ b.design ∈ dv.designs.take 26 ∧
          passes (count_in_minimal_stock (count_in_stock dv (lane c)) (lane c)).minimal_stock
            b.design = true ∧
          b.amounts = (trim b.design (hand_of
            (count_in_minimal_stock (count_in_stock dv (lane c)) (lane c)).minimal_stock
            b.design.max_stems)).1 ∧
          (division_add_stem dv c).1
            = withdraw b.amounts
                (count_in_minimal_stock (count_in_stock dv (lane c)) (lane c))) := by
  by_cases hs : (count_in_stock dv (lane c)).stock (lane c) > dv.max_per_species (lane c)
  · left
    refine ⟨hs, ?_⟩
    unfold division_add_stem
    simp only [lane_eq]
    exact if_pos hs
  · right
    have hstep : division_add_stem dv c
        = scan (count_in_minimal_stock (count_in_stock dv (lane c)) (lane c))
            (dv.designs.take 26) 0 := by
      unfold division_add_stem
      simp only [lane_eq]
      exact if_neg hs
    cases h2 : (division_add_stem dv c).2 with
    | none =>
      left
      have hscan : scan (count_in_minimal_stock (count_in_stock dv (lane c)) (lane c))
          (dv.designs.take 26) 0 = ((division_add_stem dv c).1, none) := by
        rw [← hstep, ← h2]
      obtain ⟨h3, h4⟩ := scan_none _ _ _ _ hscan
      refine ⟨hs, ?_, h4⟩
      exact Prod.ext h3 h2
    | some b =>
      right
      obtain ⟨_, j, h3, _, h5, _, h7, _, h9⟩ := step_some dv c b h2
      exact ⟨hs, b, rfl, List.getElem?_mem h3, h5, h7, h9⟩

theorem hand_eq_stock (dv : Division) (hs : Synced dv) (d : Design) (hd : d ∈ dv.designs)
    (i : Nat) : hand_of dv.minimal_stock d.max_stems i = min (dv.stock i) (d.max_stems i) := by
  have h1 := hs.active_ge i
  have h2 := hs.active_le i
  have h3 := hs.ceiling_ge d hd i
  unfold hand_of
  omega

theorem amount_eq_of_bounds (h : Nat → Int) (d : Design) (ht : Tight d)
    (hlo : ∀ i < 26, d.min_stems i ≤ h i) (hhi : ∀ i < 26, h i ≤ d.max_stems i) :
    amount_in_hand h = lane_sum h 26 := by
  have h0 := lane_sum_nonneg (f := h) (n := 26) (fun i hi => le_trans (ht.min_nonneg i) (hlo i hi))
  have h1 := lane_sum_le (f := h) (g := d.max_stems) (n := 26) hhi
  have h2 := ht.sum_max_le
  unfold amount_in_hand
  apply wrap8_id <;> omega

theorem passes_iff_completable (dv : Division) (hs : Synced dv) (d : Design)
    (hd : d ∈ dv.designs) : passes dv.minimal_stock d = true ↔ completable dv.stock d := by
  have hfun : hand_of dv.minimal_stock d.max_stems = fun s => min (dv.stock s) (d.max_stems s) :=
    funext (fun i => hand_eq_stock dv hs d hd i)
  rcases hs.sound d hd with ht | hdead
  · rw [passes_iff, hfun]
    unfold completable
    constructor
    · rintro ⟨h1, h2⟩
      have ha := amount_eq_of_bounds _ d ht (fun i hi => h2 i (by omega))
        (fun i _ => by show min _ _ ≤ _; omega)
      rw [ha] at h1
      exact ⟨h1, fun s hs => h2 s (by omega)⟩
    · rintro ⟨h1, h2⟩
      have ha := amount_eq_of_bounds _ d ht h2 (fun i _ => by show min _ _ ≤ _; omega)
      rw [ha]
      refine ⟨h1, ?_⟩
      intro i hi
      by_cases h26 : i < 26
      · exact h2 i h26
      · have := ht.hi i (by omega)
        have := hs.stock_nonneg i
        show d.min_stems i ≤ min _ _
        omega
  · rw [dead_not_passes _ _ hdead]
    simp only [Bool.false_eq_true, false_iff]
    obtain ⟨i, hi, hlt⟩ := hdead.blocked
    intro hc
    have := hc.2 i hi
    omega

theorem completable_mono (st1 st2 : Nat → Int) (d : Design) (h : ∀ i < 26, st1 i ≤ st2 i)
    (hc : completable st1 d) : completable st2 d := by
  unfold completable at hc ⊢
  refine ⟨?_, ?_⟩
  · have := lane_sum_le (f := fun s => min (st1 s) (d.max_stems s))
      (g := fun s => min (st2 s) (d.max_stems s)) (n := 26)
      (fun i hi => by have := h i hi; show min _ _ ≤ min _ _; omega)
    omega
  · intro s hs
    have := hc.2 s hs
    have := h s hs
    omega

theorem completable_congr (st1 st2 : Nat → Int) (d : Design)
    (h : ∀ i < 26, min (st1 i) (d.max_stems i) = min (st2 i) (d.max_stems i))
    (hc : completable st1 d) : completable st2 d := by
  unfold completable at hc ⊢
  refine ⟨?_, ?_⟩
  · rw [← lane_sum_congr (f := fun s => min (st1 s) (d.max_stems s))
      (g := fun s => min (st2 s) (d.max_stems s)) (n := 26) h]
    exact hc.1
  · intro s hs
    rw [← h s hs]
    exact hc.2 s hs

theorem count_stock_apply (dv : Division) (s i : Nat) :
    (count_in_stock dv s).stock i = if i = s then wrap16 (dv.stock s + 1) else dv.stock i := by
  unfold count_in_stock
  simp only [Function.update_apply]

theorem count_minimal_apply (dv : Division) (s i : Nat) :
    (count_in_minimal_stock dv s).minimal_stock i
      = if i = s then wrap8 (dv.minimal_stock s + 1) else dv.minimal_stock i := by
  unfold count_in_minimal_stock
  simp only [Function.update_apply]

theorem synced_count_skip (dv : Division) (hs : Synced dv) (s : Nat)
    (hlow : dv.stock s < 32767)
    (hskip : (count_in_stock dv s).stock s > dv.max_per_species s) :
    Synced (count_in_stock dv s) := by
  have h0 := hs.stock_nonneg s
  have hw : wrap16 (dv.stock s + 1) = dv.stock s + 1 := by apply wrap16_id <;> omega
  rw [count_stock_apply, if_pos rfl, hw] at hskip
  have hst : ∀ i, (count_in_stock dv s).stock i = if i = s then dv.stock s + 1 else dv.stock i := by
    intro i; rw [count_stock_apply, hw]
  refine ⟨?_, ?_, ?_, ?_, hs.ceiling_range, hs.ceiling_ge, hs.sound, hs.len⟩
  · intro i
    have := hs.stock_nonneg i
    rw [hst]; split <;> omega
  · intro i
    have := hs.stock_le i
    rw [hst]; split <;> omega
  · intro i
    have h1 := hs.active_ge i
    rw [hst]
    show min _ (dv.max_per_species i) ≤ dv.minimal_stock i
    split
    · rename_i h; subst h; omega
    · exact h1
  · intro i
    have h1 := hs.active_le i
    rw [hst]
    show dv.minimal_stock i ≤ _
    split
    · rename_i h; subst h; omega
    · exact h1

theorem synced_count (dv : Division) (hs : Synced dv) (s : Nat)
    (hlow : dv.stock s < 32767)
    (hskip : ¬ (count_in_stock dv s).stock s > dv.max_per_species s) :
    Synced (count_in_minimal_stock (count_in_stock dv s) s) ∧
      (∀ i, (count_in_minimal_stock (count_in_stock dv s) s).stock i
        = if i = s then dv.stock s + 1 else dv.stock i) := by
  have h0 := hs.stock_nonneg s
  have hc := hs.ceiling_range s
  have hge := hs.active_ge s
  have hle := hs.active_le s
  have hw : wrap16 (dv.stock s + 1) = dv.stock s + 1 := by apply wrap16_id <;> omega
  rw [count_stock_apply, if_pos rfl, hw] at hskip
  have hst : ∀ i, (count_in_minimal_stock (count_in_stock dv s) s).stock i
      = if i = s then dv.stock s + 1 else dv.stock i := by
    intro i
    show (count_in_stock dv s).stock i = _
    rw [count_stock_apply, hw]
  have hms : ∀ i, (count_in_minimal_stock (count_in_stock dv s) s).minimal_stock i
      = if i = s then dv.stock s + 1 else dv.minimal_stock i := by
    intro i
    rw [count_minimal_apply]
    show (if i = s then wrap8 (dv.minimal_stock s + 1) else dv.minimal_stock i) = _
    have : wrap8 (dv.minimal_stock s + 1) = dv.stock s + 1 := by
      rw [wrap8_id (by omega) (by omega)]; omega
    rw [this]
  refine ⟨⟨?_, ?_, ?_, ?_, hs.ceiling_range, hs.ceiling_ge, hs.sound, hs.len⟩, hst⟩
  · intro i
    have := hs.stock_nonneg i
    rw [hst]; split <;> omega
  · intro i
    have := hs.stock_le i
    rw [hst]; split <;> omega
  · intro i
    have h1 := hs.active_ge i
    rw [hst, hms]
    show min _ (dv.max_per_species i) ≤ _
    split
    · omega
    · exact h1
  · intro i
    have h1 := hs.active_le i
    rw [hst, hms]
    split
    · rename_i h; subst h; omega
    · exact h1

theorem synced_withdraw (dv : Division) (hs : Synced dv) (d : Design) (hd : d ∈ dv.designs)
    (hp : passes dv.minimal_stock d = true) :
    Synced (withdraw (trim d (hand_of dv.minimal_stock d.max_stems)).1 dv) ∧
      (∀ i, (withdraw (trim d (hand_of dv.minimal_stock d.max_stems)).1 dv).stock i
        ≤ dv.stock i) ∧
      (∀ i < 26, (withdraw (trim d (hand_of dv.minimal_stock d.max_stems)).1 dv).stock i
        = dv.stock i - (trim d (hand_of dv.minimal_stock d.max_stems)).1 i) ∧
      (∀ i < 26, d.min_stems i ≤ (trim d (hand_of dv.minimal_stock d.max_stems)).1 i) ∧
      (∀ i < 26, (trim d (hand_of dv.minimal_stock d.max_stems)).1 i ≤ dv.stock i) := by
  have ht : Tight d := by
    rcases hs.sound d hd with ht | hdead
    · exact ht
    · rw [dead_not_passes _ _ hdead] at hp; simp at hp
  obtain ⟨t1, _, _, _⟩ := tight_trim _ _ ht hp
  have hx : ∀ i < 26, 0 ≤ (trim d (hand_of dv.minimal_stock d.max_stems)).1 i ∧
      (trim d (hand_of dv.minimal_stock d.max_stems)).1 i ≤ dv.stock i := by
    intro i hi
    have := t1 i hi
    have := ht.min_nonneg i
    have := hand_le_stock dv.minimal_stock d.max_stems i
    have := hs.active_le i
    omega
  have hst : ∀ i, (withdraw (trim d (hand_of dv.minimal_stock d.max_stems)).1 dv).stock i
      = if i < 26 ∧ (trim d (hand_of dv.minimal_stock d.max_stems)).1 i ≠ 0
          then dv.stock i - (trim d (hand_of dv.minimal_stock d.max_stems)).1 i
          else dv.stock i := by
    intro i
    rw [withdraw_eq]
    show (if i < 26 ∧ (trim d (hand_of dv.minimal_stock d.max_stems)).1 i ≠ 0
      then wrap16 (dv.stock i - (trim d (hand_of dv.minimal_stock d.max_stems)).1 i)
      else dv.stock i) = _
    by_cases h : i < 26 ∧ (trim d (hand_of dv.minimal_stock d.max_stems)).1 i ≠ 0
    · rw [if_pos h, if_pos h]
      have := hx i h.1
      have := hs.stock_le i
      apply wrap16_id <;> omega
    · rw [if_neg h, if_neg h]
  have hms : ∀ i, (withdraw (trim d (hand_of dv.minimal_stock d.max_stems)).1 dv).minimal_stock i
      = if i < 26 ∧ (trim d (hand_of dv.minimal_stock d.max_stems)).1 i ≠ 0
          then min (dv.stock i - (trim d (hand_of dv.minimal_stock d.max_stems)).1 i) 127
          else dv.minimal_stock i := by
    intro i
    rw [withdraw_eq]
    show (if i < 26 ∧ (trim d (hand_of dv.minimal_stock d.max_stems)).1 i ≠ 0
      then wrap8 (min (wrap16 (dv.stock i
          - (trim d (hand_of dv.minimal_stock d.max_stems)).1 i)) INT8_MAX)
      else dv.minimal_stock i) = _
    by_cases h : i < 26 ∧ (trim d (hand_of dv.minimal_stock d.max_stems)).1 i ≠ 0
    · rw [if_pos h, if_pos h]
      have := hx i h.1
      have := hs.stock_le i
      rw [wrap16_id (by omega) (by omega)]
      unfold INT8_MAX
      apply wrap8_id <;> omega
    · rw [if_neg h, if_neg h]
  have hcd : (withdraw (trim d (hand_of dv.minimal_stock d.max_stems)).1 dv).max_per_species
      = dv.max_per_species := by rw [withdraw_eq]
  have hdd : (withdraw (trim d (hand_of dv.minimal_stock d.max_stems)).1 dv).designs
      = dv.designs := by rw [withdraw_eq]
  refine ⟨⟨?_, ?_, ?_, ?_, ?_, ?_, ?_, ?_⟩, ?_, ?_, fun i hi => (t1 i hi).1,
    fun i hi => (hx i hi).2⟩
  · intro i
    have := hs.stock_nonneg i
    rw [hst]
    split
    · rename_i h; have := hx i h.1; omega
    · exact this
  · intro i
    have := hs.stock_le i
    rw [hst]
    split
    · rename_i h; have := hx i h.1; omega
    · exact this
  · intro i
    have h1 := hs.active_ge i
    have h2 := hs.ceiling_range i
    rw [hst, hms, hcd]
    split
    · omega
    · exact h1
  · intro i
    have h1 := hs.active_le i
    rw [hst, hms]
    split
    · omega
    · exact h1
  · rw [hcd]; exact hs.ceiling_range
  · rw [hcd, hdd]; exact hs.ceiling_ge
  · rw [hdd]; exact hs.sound
  · rw [hdd]; exact hs.len
  · intro i
    rw [hst]
    split
    · rename_i h; have := hx i h.1; omega
    · exact le_refl _
  · intro i hi
    rw [hst]
    split
    · rfl
    · rename_i h
      have : (trim d (hand_of dv.minimal_stock d.max_stems)).1 i = 0 := by
        by_contra h0
        exact h ⟨hi, h0⟩
      omega

theorem step_synced (dv : Division) (c : Char) (hs : Synced dv)
    (hlow : dv.stock (lane c) < 32767) : Synced (division_add_stem dv c).1 := by
  rcases step_cases dv c with ⟨h1, h2⟩ | ⟨h1, h2, _⟩ | ⟨h1, b, _, h3, h4, h5, h6⟩
  · rw [h2]; exact synced_count_skip dv hs (lane c) hlow h1
  · rw [h2]; exact (synced_count dv hs (lane c) hlow h1).1
  · have hs2 := (synced_count dv hs (lane c) hlow h1).1
    rw [h6, h5]
    exact (synced_withdraw _ hs2 b.design (List.mem_of_mem_take h3) h4).1

theorem step_not_completable (dv : Division) (c : Char) (hs : Synced dv)
    (hlow : dv.stock (lane c) < 32767) (hnc : ∀ d ∈ dv.designs, ¬ completable dv.stock d) :
    ∀ d ∈ dv.designs, ¬ completable (division_add_stem dv c).1.stock d := by
  have h0 := hs.stock_nonneg (lane c)
  have hw : wrap16 (dv.stock (lane c) + 1) = dv.stock (lane c) + 1 := by
    apply wrap16_id <;> omega
  rcases step_cases dv c with ⟨h1, h2⟩ | ⟨h1, h2, h3⟩ | ⟨h1, b, _, h3, h4, h5, h6⟩
  · intro d hd hcomp
    rw [h2] at hcomp
    rw [count_stock_apply, if_pos rfl, hw] at h1
    apply hnc d hd
    apply completable_congr _ _ d _ hcomp
    intro i _
    rw [count_stock_apply, hw]
    split
    · rename_i h
      subst h
      have := hs.ceiling_ge d hd (lane c)
      omega
    · rfl
  · intro d hd hcomp
    rw [h2] at hcomp
    have hs2 := (synced_count dv hs (lane c) hlow h1).1
    have hp := h3 d (by rw [List.take_of_length_le hs.len]; exact hd)
    have := (passes_iff_completable _ hs2 d hd).2 hcomp
    rw [hp] at this
    simp at this
  · obtain ⟨hs2, hst2⟩ := synced_count dv hs (lane c) hlow h1
    have hbd : b.design ∈ dv.designs := List.mem_of_mem_take h3
    obtain ⟨_, w2, w3, w4, _⟩ := synced_withdraw _ hs2 b.design hbd h4
    have hbt : Tight b.design := by
      rcases hs.sound _ hbd with ht | hdead
      · exact ht
      · rw [dead_not_passes _ _ hdead] at h4; simp at h4
    have hcomp2 := (passes_iff_completable _ hs2 b.design hbd).1 h4
    have hgt : dv.stock (lane c) < b.design.max_stems (lane c) := by
      by_contra hle
      apply hnc _ hbd
      apply completable_congr _ _ _ _ hcomp2
      intro i _
      rw [hst2]
      split
      · rename_i h; subst h; omega
      · rfl
    have hlane : lane c < 26 := by
      by_contra h26
      have := (hbt.hi (lane c) (by omega)).1
      omega
    have hpos := hbt.min_pos (lane c) (by omega)
    have hx := w4 (lane c) hlane
    intro d hd hcomp
    rw [h6, h5] at hcomp
    apply hnc d hd
    apply completable_mono _ _ d _ hcomp
    intro i hi
    by_cases hic : i = lane c
    · rw [hic, w3 (lane c) hlane, hst2, if_pos rfl]
      omega
    · have := w2 i
      rw [hst2, if_neg hic] at this
      exact this

theorem add_stems_cons_fst (dv : Division) (c : Char) (rest : List Char) :
    (add_stems dv (c :: rest)).1 = (add_stems (division_add_stem dv c).1 rest).1 := rfl

theorem stock_below_head (dv : Division) (c : Char) (rest : List Char)
    (h : stock_below dv (c :: rest)) (s : Nat) (hs : s < 26) : dv.stock s < 32767 :=
  h 0 (Nat.zero_le _) s hs

theorem stock_below_tail (dv : Division) (c : Char) (rest : List Char)
    (h : stock_below dv (c :: rest)) : stock_below (division_add_stem dv c).1 rest := by
  intro n hn s hs
  have := h (n + 1) (by simp only [List.length_cons]; omega) s hs
  rw [List.take_succ_cons, add_stems_cons_fst] at this
  exact this

theorem run_synced (stems : List Char) (dv : Division) (hs : Synced dv)
    (hst : ∀ c ∈ stems, IsSpecies c) (hlow : stock_below dv stems) :
    Synced (add_stems dv stems).1 := by
  induction stems generalizing dv with
  | nil => exact hs
  | cons c rest ih =>
    rw [add_stems_cons_fst]
    have hc := lane_lt_of_isSpecies (hst c (List.mem_cons_self _ _))
    exact ih _ (step_synced dv c hs (stock_below_head dv c rest hlow _ hc))
      (fun c1 h1 => hst c1 (List.mem_cons_of_mem _ h1)) (stock_below_tail dv c rest hlow)

theorem run_designs (stems : List Char) (dv : Division) :
    (add_stems dv stems).1.designs = dv.designs ∧
      (add_stems dv stems).1.max_per_species = dv.max_per_species := by
  induction stems generalizing dv with
  | nil => exact ⟨rfl, rfl⟩
  | cons c rest ih =>
    rw [add_stems_cons_fst]
    have h1 := ih (division_add_stem dv c).1
    have h2 := step_designs dv c
    exact ⟨h1.1.trans h2.1, h1.2.trans h2.2⟩

theorem run_not_completable (stems : List Char) (dv : Division) (hs : Synced dv)
    (hst : ∀ c ∈ stems, IsSpecies c) (hlow : stock_below dv stems)
    (hnc : ∀ d ∈ dv.designs, ¬ completable dv.stock d) :
    ∀ d ∈ dv.designs, ¬ completable (add_stems dv stems).1.stock d := by
  induction stems generalizing dv with
  | nil => exact hnc
  | cons c rest ih =>
    rw [add_stems_cons_fst]
    have hc := lane_lt_of_isSpecies (hst c (List.mem_cons_self _ _))
    have hl := stock_below_head dv c rest hlow _ hc
    have hd := (step_designs dv c).1
    have := ih _ (step_synced dv c hs hl)
      (fun c1 h1 => hst c1 (List.mem_cons_of_mem _ h1)) (stock_below_tail dv c rest hlow)
      (by rw [hd]; exact step_not_completable dv c hs hl hnc)
    rw [hd] at this
    exact this

theorem empty_not_completable (d : Design) (hs : Tight d ∨ Dead d) (hT : 1 ≤ d.total)
    (stock : Nat → Int) (h0 : ∀ i, stock i = 0) : ¬ completable stock d := by
  intro hc
  rcases hs with ht | hdead
  · have : lane_sum (fun s => min (stock s) (d.max_stems s)) 26 = lane_sum (fun _ => 0) 26 := by
      apply lane_sum_congr
      intro i _
      have := ht.max_nonneg i
      show min (stock i) (d.max_stems i) = 0
      rw [h0]; omega
    have h1 := hc.1
    rw [this, lane_sum_const_zero] at h1
    omega
  · obtain ⟨i, hi, hlt⟩ := hdead.blocked
    have := hc.2 i hi
    omega

theorem record_AS1a1b2_wf : record_AS1a1b2.WellFormed :=
  ⟨⟨by decide, by decide, by decide, by decide, by decide, by decide⟩,
    by decide, by decide, by decide⟩

theorem pool_A2_wf : ∀ d ∈ [design_AS1a1b2],
    ∃ r : Record, r.WellFormed ∧ new_design r.text = some d := by
  intro d hd
  simp only [List.mem_singleton] at hd
  subst hd
  exact ⟨record_AS1a1b2, record_AS1a1b2_wf, new_design_valid _ record_AS1a1b2_wf.valid⟩

theorem pool_B_wf_pos : ∀ d ∈ [design_BS9a2b9],
    ∃ r : Record, r.WellFormed ∧ 1 ≤ r.T ∧ new_design r.text = some d := by
  intro d hd
  simp only [List.mem_singleton] at hd
  subst hd
  exact ⟨record_BS9a2b9, record_BS9a2b9_wf, by decide,
    new_design_valid _ record_BS9a2b9_wf.valid⟩

/-! ## Claims on the state of a pool along a run -/

/-- C2 (amended): in a pool of designs built by `new_design` from well-formed records
(distinct species, counts at least 1, no more listed species than the total, counts
summing to at most 127) with total at least 1, made production ready with empty stock,
and along any sequence of stems during which every stock count stays below 32767, no
registered design is completable from the stock that is left after
`division_add_stem` returns. -/
theorem eager_emission (ds : List Design) (p : Division) (stems : List Char)
    (hds : ∀ d ∈ ds, ∃ r : Record, r.WellFormed ∧ 1 ≤ r.T ∧ new_design r.text = some d)
    (hp : pool_of ds = some p) (hst : ∀ c ∈ stems, IsSpecies c)
    (hlow : stock_below p stems) :
    ∀ d ∈ ds, ¬ completable (add_stems p stems).1.stock d := by
  have hsound : ∀ d ∈ ds, Tight d ∨ Dead d := by
    intro d hd
    obtain ⟨r, hw, _, hr⟩ := hds d hd
    exact sound_of_wf d ⟨r, hw, hr⟩
  obtain ⟨hs, h0, hdes⟩ := pool_synced ds p hp hsound
  have hnc : ∀ d ∈ p.designs, ¬ completable p.stock d := by
    intro d hd
    rw [hdes] at hd
    obtain ⟨r, hw, hT, hr⟩ := hds d hd
    rw [new_design_valid r hw.valid] at hr
    cases hr
    exact empty_not_completable _ (hsound _ hd) hT p.stock h0
  have := run_not_completable stems p hs hst hlow hnc
  rw [hdes] at this
  exact this

set_option maxRecDepth 1000000 in
/-- C2, witness: the pool of `BS9a2b9` fed seven stems of `a` and two of `b`. -/
theorem eager_emission_witness :
    (∀ d ∈ [design_BS9a2b9],
        ∃ r : Record, r.WellFormed ∧ 1 ≤ r.T ∧ new_design r.text = some d) ∧
      pool_of [design_BS9a2b9] = some pool_B ∧
      (∀ c ∈ ['a', 'a', 'a', 'a', 'a', 'a', 'a', 'b', 'b'], IsSpecies c) ∧
      stock_below pool_B ['a', 'a', 'a', 'a', 'a', 'a', 'a', 'b', 'b'] ∧
      ∀ d ∈ [design_BS9a2b9],
        ¬ completable
          (add_stems pool_B ['a', 'a', 'a', 'a', 'a', 'a', 'a', 'b', 'b']).1.stock d :=
  ⟨pool_B_wf_pos, rfl, by decide, by decide,
    eager_emission [design_BS9a2b9] pool_B _ pool_B_wf_pos rfl (by decide) (by decide)⟩

/-- C9 (amended): in a pool of designs built from well-formed records, made production
ready with empty stock, and along any sequence of stems during which every stock count
stays below 32767, after `division_add_stem` returns every species `s` has
`min (stock[s], ceiling[s]) ≤ active[s] ≤ min (stock[s], 127)`; so `active[s]` is at
most `ceiling[s]` whenever `stock[s]` is, and at most 127 in every case. -/
theorem active_bounds (ds : List Design) (p : Division) (stems : List Char)
    (hds : ∀ d ∈ ds, ∃ r : Record, r.WellFormed ∧ new_design r.text = some d)
    (hp : pool_of ds = some p) (hst : ∀ c ∈ stems, IsSpecies c)
    (hlow : stock_below p stems) :
    ∀ s < 26,
      min ((add_stems p stems).1.stock s) ((add_stems p stems).1.max_per_species s)
          ≤ (add_stems p stems).1.minimal_stock s ∧
        (add_stems p stems).1.minimal_stock s ≤ min ((add_stems p stems).1.stock s) 127 ∧
        ((add_stems p stems).1.stock s ≤ (add_stems p stems).1.max_per_species s →
          (add_stems p stems).1.minimal_stock s
            ≤ (add_stems p stems).1.max_per_species s) := by
  obtain ⟨hs, _, _⟩ := pool_synced ds p hp (fun d hd => sound_of_wf d (hds d hd))
  have hq := run_synced stems p hs hst hlow
  intro s _
  have h1 := hq.active_ge s
  have h2 := hq.active_le s
  exact ⟨h1, h2, fun _ => by omega⟩

set_option maxRecDepth 1000000 in
/-- C9, witness: the pool of `AS1a1b2` fed five stems of `a` and one of `b`. -/
theorem active_bounds_witness :
    (∀ d ∈ [design_AS1a1b2], ∃ r : Record, r.WellFormed ∧ new_design r.text = some d) ∧
      pool_of [design_AS1a1b2] = some pool_A2 ∧
      (∀ c ∈ ['a', 'a', 'a', 'a', 'a', 'b'], IsSpecies c) ∧
      stock_below pool_A2 ['a', 'a', 'a', 'a', 'a', 'b'] ∧
      ∀ s < 26,
        min ((add_stems pool_A2 ['a', 'a', 'a', 'a', 'a', 'b']).1.stock s)
            ((add_stems pool_A2 ['a', 'a', 'a', 'a', 'a', 'b']).1.max_per_species s)
            ≤ (add_stems pool_A2 ['a', 'a', 'a', 'a', 'a', 'b']).1.minimal_stock s ∧
          (add_stems pool_A2 ['a', 'a', 'a', 'a', 'a', 'b']).1.minimal_stock s
            ≤ min ((add_stems pool_A2 ['a', 'a', 'a', 'a', 'a', 'b']).1.stock s) 127 ∧
          ((add_stems pool_A2 ['a', 'a', 'a', 'a', 'a', 'b']).1.stock s
              ≤ (add_stems pool_A2 ['a', 'a', 'a', 'a', 'a', 'b']).1.max_per_species s →
            (add_stems pool_A2 ['a', 'a', 'a', 'a', 'a', 'b']).1.minimal_stock s
              ≤ (add_stems pool_A2 ['a', 'a', 'a', 'a', 'a', 'b']).1.max_per_species s) :=
  ⟨pool_A2_wf, rfl, by decide, by decide,
    active_bounds [design_AS1a1b2] pool_A2 _ pool_A2_wf rfl (by decide) (by decide)⟩

/-- C10: in a pool of designs built from well-formed records, made production ready
with empty stock, and along any sequence of stems during which every stock count stays
below 32767, after `division_add_stem` returns every species `s` has
`active[s] ≤ stock[s]`, and `active[s] = stock[s]` whenever `stock[s] ≤ ceiling[s]`. -/
theorem active_mirrors_stock (ds : List Design) (p : Division) (stems : List Char)
    (hds : ∀ d ∈ ds, ∃ r : Record, r.WellFormed ∧ new_design r.text = some d)
    (hp : pool_of ds = some p) (hst : ∀ c ∈ stems, IsSpecies c)
    (hlow : stock_below p stems) :
    ∀ s < 26,
      (add_stems p stems).1.minimal_stock s ≤ (add_stems p stems).1.stock s ∧
        ((add_stems p stems).1.stock s ≤ (add_stems p stems).1.max_per_species s →
          (add_stems p stems).1.minimal_stock s = (add_stems p stems).1.stock s) := by
  obtain ⟨hs, _, _⟩ := pool_synced ds p hp (fun d hd => sound_of_wf d (hds d hd))
  have hq := run_synced stems p hs hst hlow
  intro s _
  have h1 := hq.active_ge s
  have h2 := hq.active_le s
  exact ⟨by omega, fun _ => by omega⟩

set_option maxRecDepth 1000000 in
/-- C10, witness: the pool of `AS1a1b2` fed five stems of `a` and one of `b`. -/
theorem active_mirrors_stock_witness :
    (∀ d ∈ [design_AS1a1b2], ∃ r : Record, r.WellFormed ∧ new_design r.text = some d) ∧
      pool_of [design_AS1a1b2] = some pool_A2 ∧
      (∀ c ∈ ['a', 'a', 'a', 'a', 'a', 'b'], IsSpecies c) ∧
      stock_below pool_A2 ['a', 'a', 'a', 'a', 'a', 'b'] ∧
      ∀ s < 26,
        (add_stems pool_A2 ['a', 'a', 'a', 'a', 'a', 'b']).1.minimal_stock s
            ≤ (add_stems pool_A2 ['a', 'a', 'a', 'a', 'a', 'b']).1.stock s ∧
          ((add_stems pool_A2 ['a', 'a', 'a', 'a', 'a', 'b']).1.stock s
              ≤ (add_stems pool_A2 ['a', 'a', 'a', 'a', 'a', 'b']).1.max_per_species s →
            (add_stems pool_A2 ['a', 'a', 'a', 'a', 'a', 'b']).1.minimal_stock s
              = (add_stems pool_A2 ['a', 'a', 'a', 'a', 'a', 'b']).1.stock s) :=
  ⟨pool_A2_wf, rfl, by decide, by decide,
    active_mirrors_stock [design_AS1a1b2] pool_A2 _ pool_A2_wf rfl (by decide) (by decide)⟩

/-! ## A run that wraps the stock counter -/

theorem record_AS126a1b127_wf : record_AS126a1b127.WellFormed :=
  ⟨⟨by decide, by decide, by decide, by decide, by decide, by decide⟩,
    by decide, by decide, by decide⟩

theorem lane_sum_two (f : Nat → Int) (n : Nat) (h : ∀ i, 2 ≤ i → i < n + 2 → f i = 0) :
    lane_sum f (n + 2) = f 0 + f 1 := by
  induction n with
  | zero => simp [lane_sum_succ, lane_sum_zero]
  | succ n ih =>
    rw [lane_sum_succ, ih (fun i h1 h2 => h i h1 (by omega)), h (n + 2) (by omega) (by omega)]
    omega

set_option maxRecDepth 100000 in
theorem design_AS126a1b127_lanes :
    design_AS126a1b127.total = 127 ∧
      ∀ i, i < 26 →
        design_AS126a1b127.max_stems i = (if i = 0 then 126 else if i = 1 then 1 else 0) ∧
        design_AS126a1b127.min_stems i = (if i = 0 then 126 else if i = 1 then 1 else 0) := by
  decide

theorem not_passes_AS126a1b127 (ms : Nat → Int) (h0 : -128 ≤ ms 0) (h1 : 0 ≤ ms 1)
    (h2 : ∀ i, 2 ≤ i → i < 26 → ms i = 0) (hlt : ms 0 < 126 ∨ ms 1 < 1) :
    passes ms design_AS126a1b127 = false := by
  by_contra hp
  have hp1 : passes ms design_AS126a1b127 = true := by simpa using hp
  obtain ⟨ht, _⟩ := (passes_iff ms _).1 hp1
  obtain ⟨hT, hl⟩ := design_AS126a1b127_lanes
  have hs := lane_sum_two (hand_of ms design_AS126a1b127.max_stems) 24 (by
    intro i hi1 hi2
    have := (hl i hi2).1
    rw [if_neg (by omega), if_neg (by omega)] at this
    unfold hand_of
    rw [this, h2 i hi1 hi2]
    rfl)
  have e0 : hand_of ms design_AS126a1b127.max_stems 0 = min (ms 0) 126 := by
    have := (hl 0 (by omega)).1
    unfold hand_of
    rw [this]; rfl
  have e1 : hand_of ms design_AS126a1b127.max_stems 1 = min (ms 1) 1 := by
    have := (hl 1 (by omega)).1
    unfold hand_of
    rw [this]; rfl
  unfold amount_in_hand at ht
  rw [hs, e0, e1, hT] at ht
  unfold wrap8 at ht
  omega

theorem lane_a : lane 'a' = 0 := by decide

theorem lane_b : lane 'b' = 1 := by decide

theorem step_a (dv : Division) (h : OnlyA dv) :
    (division_add_stem dv 'a').2 = none ∧ OnlyA (division_add_stem dv 'a').1 ∧
      (division_add_stem dv 'a').1.stock 0 = wrap16 (dv.stock 0 + 1) ∧
      (division_add_stem dv 'a').1.minimal_stock 0
        = (if wrap16 (dv.stock 0 + 1) > 126 then dv.minimal_stock 0
            else wrap8 (dv.minimal_stock 0 + 1)) := by
  obtain ⟨hd, hc0, hc1, hrest⟩ := h
  have hst : ∀ i, (count_in_stock dv 0).stock i
      = if i = 0 then wrap16 (dv.stock 0 + 1) else dv.stock i := count_stock_apply dv 0
  have hms : ∀ i, (count_in_minimal_stock (count_in_stock dv 0) 0).minimal_stock i
      = if i = 0 then wrap8 (dv.minimal_stock 0 + 1) else dv.minimal_stock i :=
    count_minimal_apply (count_in_stock dv 0) 0
  have hnp : passes (count_in_minimal_stock (count_in_stock dv 0) 0).minimal_stock
      design_AS126a1b127 = false := by
    apply not_passes_AS126a1b127
    · rw [hms, if_pos rfl]; unfold wrap8; omega
    · rw [hms, if_neg (by omega), (hrest 1 (by omega) (by omega)).2]
    · intro i h1 h2
      rw [hms, if_neg (by omega), (hrest i (by omega) h2).2]
    · right
      rw [hms, if_neg (by omega), (hrest 1 (by omega) (by omega)).2]
      omega
  have hcases := step_cases dv 'a'
  rw [lane_a] at hcases
  rcases hcases with ⟨h1, h2⟩ | ⟨h1, h2, _⟩ | ⟨_, b, _, h3, h4, _⟩
  · rw [hst, if_pos rfl, hc0] at h1
    rw [h2]
    refine ⟨rfl, ⟨hd, hc0, hc1, ?_⟩, ?_, ?_⟩
    · intro i hi1 hi2
      show (count_in_stock dv 0).stock i = 0 ∧ dv.minimal_stock i = 0
      rw [hst, if_neg (by omega)]
      exact hrest i hi1 hi2
    · show (count_in_stock dv 0).stock 0 = _
      rw [hst, if_pos rfl]
    · show dv.minimal_stock 0 = _
      rw [if_pos h1]
  · rw [hst, if_pos rfl, hc0] at h1
    rw [h2]
    refine ⟨rfl, ⟨hd, hc0, hc1, ?_⟩, ?_, ?_⟩
    · intro i hi1 hi2
      show (count_in_stock dv 0).stock i = 0 ∧ _
      rw [hst, hms, if_neg (by omega), if_neg (by omega)]
      exact hrest i hi1 hi2
    · show (count_in_stock dv 0).stock 0 = _
      rw [hst, if_pos rfl]
    · rw [hms, if_pos rfl, if_neg h1]
  · rw [hd] at h3
    have : b.design = design_AS126a1b127 := by
      have := List.mem_of_mem_take h3
      simpa using this
    rw [this, hnp] at h4
    simp at h4

theorem add_stems_single_fst (dv : Division) (c : Char) :
    (add_stems dv [c]).1 = (division_add_stem dv c).1 := rfl

theorem add_stems_append (dv : Division) (l1 l2 : List Char) :
    (add_stems dv (l1 ++ l2)).1 = (add_stems (add_stems dv l1).1 l2).1 := by
  induction l1 generalizing dv with
  | nil => rfl
  | cons c l1 ih =>
    rw [List.cons_append, add_stems_cons_fst, add_stems_cons_fst]
    exact ih _

set_option maxRecDepth 100000 in
theorem pool_A126_onlyA : OnlyA pool_A126 ∧ pool_A126.stock 0 = 0 ∧
    pool_A126.minimal_stock 0 = 0 := by
  refine ⟨⟨rfl, by decide, by decide, ?_⟩, by decide, by decide⟩
  intro i _ _
  constructor
  · show (if i < 13 then (0 : Int) else 0) = 0
    split <;> rfl
  · rfl

theorem run_a (n : Nat) (hn : n ≤ 65662) :
    OnlyA (add_stems pool_A126 (List.replicate n 'a')).1 ∧
      (add_stems pool_A126 (List.replicate n 'a')).1.stock 0 = wrap16 n ∧
      (add_stems pool_A126 (List.replicate n 'a')).1.minimal_stock 0 = active_after n := by
  induction n with
  | zero =>
    obtain ⟨h1, h2, h3⟩ := pool_A126_onlyA
    exact ⟨h1, h2, h3⟩
  | succ n ih =>
    obtain ⟨i1, i2, i3⟩ := ih (by omega)
    rw [List.replicate_succ', add_stems_append, add_stems_single_fst]
    obtain ⟨_, s2, s3, s4⟩ := step_a _ i1
    refine ⟨s2, ?_, ?_⟩
    · rw [s3, i2]
      unfold wrap16
      push_cast
      omega
    · rw [s4, i2, i3]
      unfold active_after wrap16 wrap8
      push_cast
      split <;> split <;> split <;> omega

theorem pool_A126_wf_pos : ∀ d ∈ [design_AS126a1b127],
    ∃ r : Record, r.WellFormed ∧ 1 ≤ r.T ∧ new_design r.text = some d := by
  intro d hd
  simp only [List.mem_singleton] at hd
  subst hd
  exact ⟨record_AS126a1b127, record_AS126a1b127_wf, by decide,
    new_design_valid _ record_AS126a1b127_wf.valid⟩

theorem step_b_completable (dv : Division) (h : OnlyA dv) (h2 : dv.stock 0 = 126)
    (h3 : dv.minimal_stock 0 = -3) :
    completable (division_add_stem dv 'b').1.stock design_AS126a1b127 := by
  obtain ⟨hd, hc0, hc1, hrest⟩ := h
  have hst : ∀ i, (count_in_stock dv 1).stock i
      = if i = 1 then wrap16 (dv.stock 1 + 1) else dv.stock i := count_stock_apply dv 1
  have hms : ∀ i, (count_in_minimal_stock (count_in_stock dv 1) 1).minimal_stock i
      = if i = 1 then wrap8 (dv.minimal_stock 1 + 1) else dv.minimal_stock i :=
    count_minimal_apply (count_in_stock dv 1) 1
  have hs1 : dv.stock 1 = 0 := (hrest 1 (by omega) (by omega)).1
  have hm1 : dv.minimal_stock 1 = 0 := (hrest 1 (by omega) (by omega)).2
  have hw1 : wrap16 ((0 : Int) + 1) = 1 := by decide
  have hw2 : wrap8 ((0 : Int) + 1) = 1 := by decide
  have hnp : passes (count_in_minimal_stock (count_in_stock dv 1) 1).minimal_stock
      design_AS126a1b127 = false := by
    apply not_passes_AS126a1b127
    · rw [hms, if_neg (by omega), h3]; omega
    · rw [hms, if_pos rfl, hm1, hw2]; omega
    · intro i h1 h2
      rw [hms, if_neg (by omega), (hrest i (by omega) h2).2]
    · left
      rw [hms, if_neg (by omega), h3]; omega
  have hfinal : ∀ i, i < 26 → (division_add_stem dv 'b').1.stock i
      = if i = 0 then 126 else if i = 1 then 1 else 0 := by
    have hcases := step_cases dv 'b'
    rw [lane_b] at hcases
    rcases hcases with ⟨h1, _⟩ | ⟨_, h5, _⟩ | ⟨_, b, _, h5, h6, _⟩
    · rw [hst, if_pos rfl, hs1, hw1, hc1] at h1
      omega
    · intro i hi
      rw [h5]
      show (count_in_stock dv 1).stock i = _
      rw [hst, hs1, hw1]
      by_cases hi0 : i = 0
      · rw [hi0, if_neg (by omega), if_pos rfl, h2]
      · by_cases hi1 : i = 1
        · rw [if_pos hi1, if_neg hi0, if_pos hi1]
        · rw [if_neg hi1, if_neg hi0, if_neg hi1]
          exact (hrest i (by omega) hi).1
    · rw [hd] at h5
      have : b.design = design_AS126a1b127 := by
        have := List.mem_of_mem_take h5
        simpa using this
      rw [this, hnp] at h6
      simp at h6
  obtain ⟨hT, hl⟩ := design_AS126a1b127_lanes
  have hval : ∀ i, i < 26 →
      min ((division_add_stem dv 'b').1.stock i) (design_AS126a1b127.max_stems i)
        = if i = 0 then 126 else if i = 1 then 1 else 0 := by
    intro i hi
    rw [hfinal i hi, (hl i hi).1]
    split
    · rfl
    · split <;> rfl
  refine ⟨?_, ?_⟩
  · rw [lane_sum_two _ 24 (by
      intro i h1 h2
      show min _ _ = 0
      rw [hval i h2, if_neg (by omega), if_neg (by omega)])]
    show min _ _ + min _ _ ≥ _
    rw [hval 0 (by omega), hval 1 (by omega), hT]
    decide
  · intro i hi
    rw [hval i hi, (hl i hi).2]

theorem wrapped_run_completable :
    completable (add_stems pool_A126 (List.replicate 65662 'a' ++ ['b'])).1.stock
      design_AS126a1b127 := by
  obtain ⟨h1, h2, h3⟩ := run_a 65662 (le_refl _)
  have e2 : wrap16 ((65662 : Nat) : Int) = 126 := by decide
  have e3 : active_after 65662 = -3 := by decide
  rw [e2] at h2
  rw [e3] at h3
  rw [add_stems_append, add_stems_single_fst]
  exact step_b_completable _ h1 h2 h3

set_option maxRecDepth 1000000 in
/-- C2 as stated fails, in two ways. First, the well-formed record `AS126a1b127` (total
127, at least 1): after 65662 stems of `a` the 16-bit stock counter of `a` has wrapped
around to 126 while `minimal_stock` holds -3, so the stem of `b` that follows emits
nothing although the design is completable from the stock. Second, the records
`AS1a1b1c1d1e1f1g1h1i3` and `BS5z5` have distinct species, counts at least 1 that sum to
at most 127, and a total of at least 1; in their pool the first stem of `z` emits a
bouquet of the first design that adds to the stock, and `BS5z5` is completable from the
stock that is left. -/
theorem eager_emission_fails :
    ((∀ d ∈ [design_AS126a1b127],
          ∃ r : Record, r.WellFormed ∧ 1 ≤ r.T ∧ new_design r.text = some d) ∧
        pool_of [design_AS126a1b127] = some pool_A126 ∧
        (∀ c ∈ List.replicate 65662 'a' ++ ['b'], IsSpecies c) ∧
        ¬ (∀ d ∈ [design_AS126a1b127],
            ¬ completable
              (add_stems pool_A126 (List.replicate 65662 'a' ++ ['b'])).1.stock d)) ∧
      ((record_A9.Valid ∧ (∀ p ∈ record_A9.pairs, 1 ≤ number p.1) ∧
          record_A9.sum_given ≤ 127 ∧ 1 ≤ record_A9.T ∧
          new_design record_A9.text = some design_A9) ∧
        (record_BS5z5.Valid ∧ (∀ p ∈ record_BS5z5.pairs, 1 ≤ number p.1) ∧
          record_BS5z5.sum_given ≤ 127 ∧ 1 ≤ record_BS5z5.T ∧
          new_design record_BS5z5.text = some design_BS5z5) ∧
        pool_of [design_A9, design_BS5z5] = some pool_A9B ∧
        (∀ c ∈ ['z'], IsSpecies c) ∧
        ¬ (∀ d ∈ [design_A9, design_BS5z5],
            ¬ completable (add_stems pool_A9B ['z']).1.stock d)) := by
  refine ⟨⟨pool_A126_wf_pos, rfl, ?_, ?_⟩,
    ⟨record_A9_valid, by decide, by decide, by decide, new_design_valid _ record_A9_valid⟩,
    ⟨record_BS5z5_wf.valid, by decide, by decide, by decide,
      new_design_valid _ record_BS5z5_wf.valid⟩, rfl, by decide, ?_⟩
  · intro c hc
    rcases List.mem_append.1 hc with h | h
    · rw [(List.mem_replicate.1 h).2]; decide
    · rw [List.mem_singleton.1 h]; decide
  · intro h
    exact h design_AS126a1b127 (by simp) wrapped_run_completable
  · intro h
    exact h design_BS5z5 (by simp) (by decide)

set_option maxRecDepth 1000000 in
/-- C9 as stated fails: in the pool of the well-formed record `AS1a1b2`, after five
stems of `a` and one of `b` the bouquet `AS1a1b` has been emitted and `active[a]` has
been reset to `min (stock[a], 127) = 4`, above `ceiling[a] = 1`. (And once a stock
counter wraps, no bound by the stock holds either: after 32768 stems of `a` the pool of
`AS126a1b127` has `stock[a] = -32768` and `active[a] = 127`, above `ceiling[a] = 126`.) -/
theorem active_below_ceiling_fails :
    ((∀ d ∈ [design_AS1a1b2], ∃ r : Record, r.WellFormed ∧ new_design r.text = some d) ∧
        pool_of [design_AS1a1b2] = some pool_A2 ∧
        (∀ c ∈ ['a', 'a', 'a', 'a', 'a', 'b'], IsSpecies c) ∧
        (add_stems pool_A2 ['a', 'a', 'a', 'a', 'a', 'b']).1.minimal_stock 0 = 4 ∧
        (add_stems pool_A2 ['a', 'a', 'a', 'a', 'a', 'b']).1.max_per_species 0 = 1 ∧
        ¬ (∀ s < 26, (add_stems pool_A2 ['a', 'a', 'a', 'a', 'a', 'b']).1.minimal_stock s
            ≤ (add_stems pool_A2 ['a', 'a', 'a', 'a', 'a', 'b']).1.max_per_species s)) ∧
      ((add_stems pool_A126 (List.replicate 32768 'a')).1.stock 0 = -32768 ∧
        (add_stems pool_A126 (List.replicate 32768 'a')).1.minimal_stock 0 = 127 ∧
        (add_stems pool_A126 (List.replicate 32768 'a')).1.max_per_species 0 = 126) := by
  obtain ⟨⟨_, hc0, _, _⟩, h2, h3⟩ := run_a 32768 (by decide)
  have e2 : wrap16 ((32768 : Nat) : Int) = -32768 := by decide
  have e3 : active_after 32768 = 127 := by decide
  rw [e2] at h2
  rw [e3] at h3
  exact ⟨⟨pool_A2_wf, rfl, by decide, by decide, by decide, by decide⟩, h2, h3, hc0⟩

/-! ## The second scenario -/

set_option maxRecDepth 1000000 in
/-- C14: `new_design` on `BS9a2b9` gives total 9, `max[a] = 8`, `max[b] = 2`,
`min[a] = 7`, `min[b] = 1`; and with this design alone in empty divisions, seven stems
`aS` followed by two stems `bS` print nothing after each of the first eight stems and
print the single line `BS7a2b` after the ninth. -/
theorem scenario2 :
    (new_design ['B', 'S', '9', 'a', '2', 'b', '9']).map
        (fun d => (d.total, d.max_stems 0, d.max_stems 1, d.min_stems 0, d.min_stems 1))
      = some (9, 8, 2, 7, 1) ∧
      (∀ n, n < 9 →
        (main (fun _ => 0) (fun _ => 0) (fun _ => 0) (fun _ => 0)
          [['B', 'S', '9', 'a', '2', 'b', '9']] (scenario2_stems.take n)).1 = []) ∧
      main (fun _ => 0) (fun _ => 0) (fun _ => 0) (fun _ => 0)
          [['B', 'S', '9', 'a', '2', 'b', '9']] scenario2_stems
        = ([['B', 'S', '7', 'a', '2', 'b', '\n']], true) := by
  decide

/-! ## Ceilings of a pool -/

theorem foldl_raise_apply (ds : List Design) (mps : Nat → Int) (s : Nat) (hs : s < 26) :
    ds.foldl raise_max_per_species mps s
      = ds.foldl (fun m d => max m (d.max_stems s)) (mps s) := by
  induction ds generalizing mps with
  | nil => rfl
  | cons d ds ih =>
    rw [List.foldl_cons, List.foldl_cons, ih, raise_eq, if_pos hs]

theorem foldl_max_init (ds : List Design) (s : Nat) (a b : Int) :
    ds.foldl (fun m d => max m (d.max_stems s)) (max a b)
      = max a (ds.foldl (fun m d => max m (d.max_stems s)) b) := by
  induction ds generalizing b with
  | nil => rfl
  | cons d ds ih =>
    rw [List.foldl_cons, List.foldl_cons, max_assoc, ih]

theorem foldl_max_eq_max_over (ds : List Design) (s : Nat) :
    ds.foldl (fun m d => max m (d.max_stems s)) 0 = max 0 (max_over ds s) := by
  cases ds with
  | nil => rfl
  | cons d ds =>
    rw [List.foldl_cons, foldl_max_init]
    rfl

theorem foldl_max_ge (ds : List Design) (s : Nat) (a : Int) :
    a ≤ ds.foldl (fun m d => max m (d.max_stems s)) a ∧
      ∀ d ∈ ds, d.max_stems s ≤ ds.foldl (fun m d => max m (d.max_stems s)) a := by
  induction ds generalizing a with
  | nil => simp
  | cons d ds ih =>
    rw [List.foldl_cons]
    obtain ⟨h1, h2⟩ := ih (max a (d.max_stems s))
    refine ⟨le_trans (le_max_left _ _) h1, ?_⟩
    intro e he
    rcases List.mem_cons.1 he with h | h
    · rw [h]; exact le_trans (le_max_right _ _) h1
    · exact h2 e h

theorem registered_eq (ds : List Design) (um us : Nat → Int) (dv : Division)
    (h : ds.foldlM division_add_design (new_division um us) = some dv) :
    ds.length ≤ 26 ∧ dv = { new_division um us with designs := ds } := by
  rw [foldlM_add_design ds (new_division um us) (by simp [new_division])] at h
  have e : (new_division um us).designs = [] := rfl
  rw [e] at h
  simp only [List.length_nil, zero_add, List.nil_append] at h
  by_cases hl : ds.length ≤ 26
  · rw [if_pos hl] at h
    exact ⟨hl, (Option.some.inj h).symm⟩
  · rw [if_neg hl] at h
    simp at h

/-- C15 (amended): after `make_division_production_ready` on a freshly created division
in which the designs `ds` (at most 26) were registered, for every species `s` the
ceiling `max_per_species[s]` is the larger of 0 and the maximum of `max[s]` over the
registered designs; so it is at least 0 and at least `max[s]` of every registered
design. -/
theorem ceiling_finalization (ds : List Design) (um us : Nat → Int) (dv : Division)
    (h : ds.foldlM division_add_design (new_division um us) = some dv) :
    ∀ s, s < 26 →
      (make_division_production_ready dv).max_per_species s = max 0 (max_over ds s) ∧
        0 ≤ (make_division_production_ready dv).max_per_species s ∧
        ∀ d ∈ ds, d.max_stems s ≤ (make_division_production_ready dv).max_per_species s := by
  obtain ⟨hlen, hdv⟩ := registered_eq ds um us dv h
  have hc : ∀ s, s < 26 → (make_division_production_ready dv).max_per_species s
      = ds.foldl (fun m d => max m (d.max_stems s)) 0 := by
    intro s hs
    rw [hdv]
    show ((ds.take MAX_DESIGNS).foldl raise_max_per_species (fun _ => 0)) s = _
    rw [show List.take MAX_DESIGNS ds = ds from List.take_of_length_le hlen,
      foldl_raise_apply _ _ s hs]
  intro s hs
  rw [hc s hs]
  exact ⟨foldl_max_eq_max_over ds s, (foldl_max_ge ds s 0).1, (foldl_max_ge ds s 0).2⟩

set_option maxRecDepth 100000 in
/-- C15, witness: the designs `XS3a3` and `YS2a2` registered in a fresh division. -/
theorem ceiling_finalization_witness :
    [design_XS3a3, design_YS2a2].foldlM division_add_design
        (new_division (fun _ => 0) (fun _ => 0))
      = some { new_division (fun _ => 0) (fun _ => 0) with
                designs := [design_XS3a3, design_YS2a2] } ∧
      ∀ s, s < 26 →
        (make_division_production_ready
            { new_division (fun _ => 0) (fun _ => 0) with
              designs := [design_XS3a3, design_YS2a2] }).max_per_species s
          = max 0 (max_over [design_XS3a3, design_YS2a2] s) ∧
        0 ≤ (make_division_production_ready
            { new_division (fun _ => 0) (fun _ => 0) with
              designs := [design_XS3a3, design_YS2a2] }).max_per_species s ∧
        ∀ d ∈ [design_XS3a3, design_YS2a2],
          d.max_stems s ≤ (make_division_production_ready
            { new_division (fun _ => 0) (fun _ => 0) with
              designs := [design_XS3a3, design_YS2a2] }).max_per_species s :=
  ⟨rfl, ceiling_finalization [design_XS3a3, design_YS2a2] (fun _ => 0) (fun _ => 0) _ rfl⟩

set_option maxRecDepth 100000 in
/-- C15 as stated fails: the design of the record `AS127` has `max[a] = -128`; in the
division that holds it alone the ceiling of `a` is 0 after
`make_division_production_ready`, not the maximum -128 over the registered designs. -/
theorem ceiling_finalization_fails :
    new_design record_AS127.text = some design_AS127 ∧
      [design_AS127].foldlM division_add_design (new_division (fun _ => 0) (fun _ => 0))
        = some { new_division (fun _ => 0) (fun _ => 0) with designs := [design_AS127] } ∧
      max_over [design_AS127] 0 = -128 ∧
      (make_division_production_ready
        { new_division (fun _ => 0) (fun _ => 0) with
          designs := [design_AS127] }).max_per_species 0 = 0 ∧
      ¬ (∀ s, s < 26 →
          (make_division_production_ready
            { new_division (fun _ => 0) (fun _ => 0) with
              designs := [design_AS127] }).max_per_species s = max_over [design_AS127] s) :=
  ⟨new_design_valid _ ⟨by decide, by decide, by decide, by decide, by decide, by decide⟩,
    rfl, by decide, by decide, by decide⟩

/-! ## Registration of designs -/

/-- C16, the part the source implements: `division_add_design` appends the design at
the end of the design list of a division that holds fewer than 26 designs and changes
nothing else. With 26 designs held the store falls outside the array `designs`; the
source has no capacity test and reports no error there. -/
theorem registration_appends (dv : Division) (d : Design) (h : dv.designs.length < 26) :
    division_add_design dv d = some { dv with designs := dv.designs ++ [d] } := by
  unfold division_add_design
  exact if_pos h

/-- C16, witness: the design `XS3a3` registered in the empty division. -/
theorem registration_appends_witness :
    empty_division.designs.length < 26 ∧
      division_add_design empty_division design_XS3a3
        = some { empty_division with designs := empty_division.designs ++ [design_XS3a3] } :=
  ⟨by decide, registration_appends empty_division design_XS3a3 (by decide)⟩

/-! ## The withdrawal of an emitted bouquet -/

/-- C18 (amended): when `division_add_stem` emits a bouquet with amounts `x`, then
relative to the state right after the arriving stem was counted, `stock[s]` becomes
`stock[s] - x[s]` reduced to 16 bits for every species `s`, `minimal_stock[s]` becomes
`min (stock[s], 127)` of the new stock reduced to 8 bits for every species with
`x[s] != 0` and is unchanged for every species with `x[s] = 0`, and the designs and
ceilings are unchanged. Whenever `stock[s] - x[s]` lies between -32768 and 32767 the new
stock is exactly `stock[s] - x[s]`, and when it is at least -128 as well and `x[s] != 0`
the new `minimal_stock[s]` is exactly `min (stock[s] - x[s], 127)`. -/
theorem withdrawal_update (dv : Division) (c : Char) (b : Bouquet)
    (h : (division_add_stem dv c).2 = some b) :
    (∀ s, s < 26 → b.amounts s ≠ 0 →
        (division_add_stem dv c).1.stock s = wrap16 ((counted dv c).stock s - b.amounts s) ∧
        (division_add_stem dv c).1.minimal_stock s
          = wrap8 (min ((division_add_stem dv c).1.stock s) 127)) ∧
      (∀ s, b.amounts s = 0 →
        (division_add_stem dv c).1.stock s = (counted dv c).stock s - b.amounts s ∧
        (division_add_stem dv c).1.minimal_stock s = (counted dv c).minimal_stock s) ∧
      (division_add_stem dv c).1.designs = dv.designs ∧
      (division_add_stem dv c).1.max_per_species = dv.max_per_species ∧
      (∀ s, s < 26 → -32768 ≤ (counted dv c).stock s - b.amounts s →
        (counted dv c).stock s - b.amounts s ≤ 32767 →
        (division_add_stem dv c).1.stock s = (counted dv c).stock s - b.amounts s ∧
        (b.amounts s ≠ 0 → -128 ≤ (counted dv c).stock s - b.amounts s →
          (division_add_stem dv c).1.minimal_stock s
            = min ((counted dv c).stock s - b.amounts s) 127)) := by
  obtain ⟨_, j, _, _, _, _, _, _, h9⟩ := step_some dv c b h
  have hst : ∀ s, (division_add_stem dv c).1.stock s
      = if s < 26 ∧ b.amounts s ≠ 0 then wrap16 ((counted dv c).stock s - b.amounts s)
        else (counted dv c).stock s := by
    intro s; rw [h9, withdraw_eq]; rfl
  have hms : ∀ s, (division_add_stem dv c).1.minimal_stock s
      = if s < 26 ∧ b.amounts s ≠ 0 then
          wrap8 (min (wrap16 ((counted dv c).stock s - b.amounts s)) INT8_MAX)
        else (counted dv c).minimal_stock s := by
    intro s; rw [h9, withdraw_eq]; rfl
  have h127 : INT8_MAX = 127 := rfl
  refine ⟨?_, ?_, ?_, ?_, ?_⟩
  · intro s hs hx
    rw [hms, hst, if_pos ⟨hs, hx⟩, if_pos ⟨hs, hx⟩, h127]
    exact ⟨rfl, rfl⟩
  · intro s hx
    rw [hms, hst, if_neg (fun hh => hh.2 hx), if_neg (fun hh => hh.2 hx), hx, sub_zero]
    exact ⟨rfl, rfl⟩
  · rw [h9, withdraw_eq]; rfl
  · rw [h9, withdraw_eq]; rfl
  · intro s hs hlo hhi
    by_cases hx : b.amounts s = 0
    · rw [hst, if_neg (fun hh => hh.2 hx)]
      exact ⟨by rw [hx, sub_zero], fun hne => absurd hx hne⟩
    · rw [hms, hst, if_pos ⟨hs, hx⟩, if_pos ⟨hs, hx⟩, wrap16_id hlo hhi, h127]
      refine ⟨rfl, fun _ hl => ?_⟩
      apply wrap8_id
      · exact le_min hl (by decide)
      · exact min_le_right _ _

theorem step_none_minimal (dv : Division) (c : Char)
    (h : (division_add_stem dv c).2 = none) (i : Nat) (hi : i ≠ lane c) :
    (division_add_stem dv c).1.minimal_stock i = dv.minimal_stock i := by
  rcases step_cases dv c with ⟨_, h1⟩ | ⟨_, h1, _⟩ | ⟨_, b, h1, _⟩
  · rw [h1]; rfl
  · rw [h1]
    show (count_in_minimal_stock (count_in_stock dv (lane c)) (lane c)).minimal_stock i = _
    rw [count_minimal_apply, if_neg hi]
    rfl
  · rw [h] at h1
    simp at h1

theorem pool_A126_hi : ∀ i, 26 ≤ i → pool_A126.minimal_stock i = 0 := fun _ _ => rfl

theorem run_a_hi (n : Nat) (hn : n ≤ 65662) :
    ∀ i, 26 ≤ i → (add_stems pool_A126 (List.replicate n 'a')).1.minimal_stock i = 0 := by
  induction n with
  | zero => exact pool_A126_hi
  | succ n ih =>
    intro i hi
    obtain ⟨i1, _, _⟩ := run_a n (by omega)
    rw [List.replicate_succ', add_stems_append, add_stems_single_fst]
    obtain ⟨s1, _⟩ := step_a _ i1
    rw [step_none_minimal _ 'a' s1 i (by rw [lane_a]; omega)]
    exact ih (by omega) i hi

theorem design_AS126a1b127_tight : Tight design_AS126a1b127 :=
  wf_tight record_AS126a1b127_wf (by decide)

/-- A stem of `b` arriving in the pool of `AS126a1b127` while `minimal_stock` of `a`
holds at least 126 emits a bouquet of 126 `a` and one `b`. -/
theorem step_b_emits (dv : Division) (h : OnlyA dv)
    (hh : ∀ i, 26 ≤ i → dv.minimal_stock i = 0)
    (h3 : 126 ≤ dv.minimal_stock 0) (h4 : dv.minimal_stock 0 ≤ 127) :
    ∃ b, (division_add_stem dv 'b').2 = some b ∧ b.amounts 0 = 126 ∧ b.amounts 1 = 1 ∧
      (counted dv 'b').stock 0 = dv.stock 0 ∧
      (division_add_stem dv 'b').1.stock 0 = wrap16 (dv.stock 0 - 126) := by
  obtain ⟨hd, hc0, hc1, hrest⟩ := h
  have hst : ∀ i, (count_in_stock dv 1).stock i
      = if i = 1 then wrap16 (dv.stock 1 + 1) else dv.stock i := count_stock_apply dv 1
  have hms : ∀ i, (count_in_minimal_stock (count_in_stock dv 1) 1).minimal_stock i
      = if i = 1 then wrap8 (dv.minimal_stock 1 + 1) else dv.minimal_stock i :=
    count_minimal_apply (count_in_stock dv 1) 1
  have hs1 : dv.stock 1 = 0 := (hrest 1 (by omega) (by omega)).1
  have hm1 : dv.minimal_stock 1 = 0 := (hrest 1 (by omega) (by omega)).2
  have hw1 : wrap16 ((0 : Int) + 1) = 1 := by decide
  have hw2 : wrap8 ((0 : Int) + 1) = 1 := by decide
  obtain ⟨hT, hl⟩ := design_AS126a1b127_lanes
  have ht := design_AS126a1b127_tight
  have hhand : ∀ i, hand_of (count_in_minimal_stock (count_in_stock dv 1) 1).minimal_stock
      design_AS126a1b127.max_stems i = if i = 0 then 126 else if i = 1 then 1 else 0 := by
    intro i
    unfold hand_of
    rw [hms]
    by_cases hi : i < 26
    · rw [(hl i hi).1]
      by_cases hi0 : i = 0
      · subst hi0
        rw [if_neg (by decide), if_pos rfl]
        omega
      · by_cases hi1 : i = 1
        · subst hi1
          rw [if_pos rfl, if_neg (by decide), if_pos rfl, hm1, hw2]
          rfl
        · rw [if_neg hi1, if_neg hi0, if_neg hi1, (hrest i (by omega) hi).2]
          rfl
    · rw [if_neg (by omega), if_neg (by omega), if_neg (by omega), hh i (by omega),
        (ht.hi i (by omega)).1]
      rfl
  have hp : passes (count_in_minimal_stock (count_in_stock dv 1) 1).minimal_stock
      design_AS126a1b127 = true := by
    rw [passes_iff]
    constructor
    · unfold amount_in_hand
      rw [lane_sum_two _ 24 (by
        intro i h1 h2
        rw [hhand, if_neg (by omega), if_neg (by omega)]), hhand, hhand, hT]
      decide
    · intro i hi
      rw [hhand]
      by_cases hi26 : i < 26
      · rw [(hl i hi26).2]
      · rw [(ht.hi i (by omega)).2, if_neg (by omega), if_neg (by omega)]
  have hcases := step_cases dv 'b'
  rw [lane_b] at hcases
  rcases hcases with ⟨h1, _⟩ | ⟨_, _, h5⟩ | ⟨_, b, hb, h5, h6, h7, h8⟩
  · rw [hst, if_pos rfl, hs1, hw1, hc1] at h1
    omega
  · have := h5 design_AS126a1b127 (by rw [hd]; simp)
    rw [hp] at this
    simp at this
  · have hbd : b.design = design_AS126a1b127 := by
      rw [hd] at h5
      have := List.mem_of_mem_take h5
      simpa using this
    rw [hbd] at h7
    obtain ⟨t1, _, _, _⟩ := tight_trim _ _ ht hp
    have hx0 : b.amounts 0 = 126 := by
      have := t1 0 (by omega)
      rw [← h7, hhand, if_pos rfl, (hl 0 (by omega)).2, if_pos rfl] at this
      omega
    have hx1 : b.amounts 1 = 1 := by
      have := t1 1 (by omega)
      rw [← h7, hhand, if_neg (by omega), if_pos rfl, (hl 1 (by omega)).2,
        if_neg (by omega), if_pos rfl] at this
      omega
    have hc : (counted dv 'b').stock 0 = dv.stock 0 := by
      show (count_in_stock dv (lane 'b')).stock 0 = _
      rw [lane_b, hst, if_neg (by omega)]
    refine ⟨b, hb, hx0, hx1, hc, ?_⟩
    rw [h8, withdraw_eq]
    show (if 0 < 26 ∧ b.amounts 0 ≠ 0 then
        wrap16 ((count_in_stock dv 1).stock 0 - b.amounts 0)
      else (count_in_stock dv 1).stock 0) = _
    rw [if_pos ⟨by omega, by omega⟩, hst, if_neg (by omega), hx0]

set_option maxRecDepth 100000 in
/-- C18, witness: the pool of `XS3a3` and `YS2a2` holding one stem of `a` receives a
second one and emits `YS2a`. -/
theorem withdrawal_update_witness :
    ∃ b, (division_add_stem pool_XY_a 'a').2 = some b ∧
      ((∀ s, s < 26 → b.amounts s ≠ 0 →
          (division_add_stem pool_XY_a 'a').1.stock s
            = wrap16 ((counted pool_XY_a 'a').stock s - b.amounts s) ∧
          (division_add_stem pool_XY_a 'a').1.minimal_stock s
            = wrap8 (min ((division_add_stem pool_XY_a 'a').1.stock s) 127)) ∧
        (∀ s, b.amounts s = 0 →
          (division_add_stem pool_XY_a 'a').1.stock s
            = (counted pool_XY_a 'a').stock s - b.amounts s ∧
          (division_add_stem pool_XY_a 'a').1.minimal_stock s
            = (counted pool_XY_a 'a').minimal_stock s) ∧
        (division_add_stem pool_XY_a 'a').1.designs = pool_XY_a.designs ∧
        (division_add_stem pool_XY_a 'a').1.max_per_species
          = pool_XY_a.max_per_species ∧
        (∀ s, s < 26 → -32768 ≤ (counted pool_XY_a 'a').stock s - b.amounts s →
          (counted pool_XY_a 'a').stock s - b.amounts s ≤ 32767 →
          (division_add_stem pool_XY_a 'a').1.stock s
            = (counted pool_XY_a 'a').stock s - b.amounts s ∧
          (b.amounts s ≠ 0 → -128 ≤ (counted pool_XY_a 'a').stock s - b.amounts s →
            (division_add_stem pool_XY_a 'a').1.minimal_stock s
              = min ((counted pool_XY_a 'a').stock s - b.amounts s) 127))) := by
  have hs : ((division_add_stem pool_XY_a 'a').2).isSome = true := by
    decide
  obtain ⟨b, hb⟩ := Option.isSome_iff_exists.1 hs
  exact ⟨b, hb, withdrawal_update _ 'a' b hb⟩

/-- C18 as stated fails: in the pool of `AS126a1b127`, after 32768 stems of `a` the
16-bit stock of `a` holds -32768 and `minimal_stock` of `a` holds 127; the stem of `b`
that follows emits a bouquet with 126 stems of `a`, and the stock of `a` is then 32642,
not the stock -32768 of the counted state reduced by 126. -/
theorem withdrawal_update_fails :
    ∃ b, (division_add_stem (add_stems pool_A126 (List.replicate 32768 'a')).1 'b').2
          = some b ∧
      b.amounts 0 = 126 ∧
      (counted (add_stems pool_A126 (List.replicate 32768 'a')).1 'b').stock 0 = -32768 ∧
      (division_add_stem (add_stems pool_A126 (List.replicate 32768 'a')).1 'b').1.stock 0
        = 32642 ∧
      ¬ (∀ s, s < 26 →
          (division_add_stem (add_stems pool_A126 (List.replicate 32768 'a')).1 'b').1.stock s
            = (counted (add_stems pool_A126 (List.replicate 32768 'a')).1 'b').stock s
              - b.amounts s) := by
  obtain ⟨h1, h2, h3⟩ := run_a 32768 (by decide)
  have hh := run_a_hi 32768 (by decide)
  have e2 : wrap16 ((32768 : Nat) : Int) = -32768 := by decide
  have e3 : active_after 32768 = 127 := by decide
  rw [e2] at h2
  rw [e3] at h3
  obtain ⟨b, hb, hx0, _, hc, hs⟩ := step_b_emits _ h1 hh (by rw [h3]; decide) (by rw [h3])
  rw [h2] at hc hs
  have e4 : wrap16 (-32768 - 126) = 32642 := by decide
  rw [e4] at hs
  refine ⟨b, hb, hx0, hc, hs, ?_⟩
  intro hall
  have := hall 0 (by decide)
  rw [hs, hc, hx0] at this
  exact absurd this (by decide)

/-! ## Saturated stems -/

theorem step_skip (dv : Division) (c : Char)
    (h1 : dv.max_per_species (lane c) ≤ dv.stock (lane c))
    (h2 : -32768 ≤ dv.stock (lane c)) (h3 : dv.stock (lane c) < 32767) :
    division_add_stem dv c
      = ({ dv with stock := Function.update dv.stock (lane c) (dv.stock (lane c) + 1) },
          none) := by
  have hw : wrap16 (dv.stock (lane c) + 1) = dv.stock (lane c) + 1 :=
    wrap16_id (by omega) (by omega)
  have hst := count_stock_apply dv (lane c) (lane c)
  rw [if_pos rfl, hw] at hst
  have hcs : count_in_stock dv (lane c)
      = { dv with stock := Function.update dv.stock (lane c) (dv.stock (lane c) + 1) } := by
    unfold count_in_stock
    rw [hw]
  rcases step_cases dv c with ⟨_, h⟩ | ⟨hn, _⟩ | ⟨hn, _⟩
  · rw [h, hcs]
  · rw [hst] at hn; omega
  · rw [hst] at hn; omega

theorem foldl_max_nonpos (ds : List Design) (s : Nat) (h : ∀ d ∈ ds, d.max_stems s ≤ 0) :
    ds.foldl (fun m d => max m (d.max_stems s)) 0 = 0 := by
  induction ds with
  | nil => rfl
  | cons d ds ih =>
    rw [List.foldl_cons, max_eq_left (h d (List.mem_cons_self _ _))]
    exact ih (fun e he => h e (List.mem_cons_of_mem _ he))

theorem pool_ceiling (ds : List Design) (p : Division) (hp : pool_of ds = some p) (s : Nat)
    (hs : s < 26) :
    p.max_per_species s = ds.foldl (fun m d => max m (d.max_stems s)) 0 := by
  obtain ⟨hlen, hpe⟩ := pool_of_eq ds p hp
  rw [hpe]
  show ((ds.take MAX_DESIGNS).foldl raise_max_per_species (fun _ => 0)) s = _
  rw [show List.take MAX_DESIGNS ds = ds from List.take_of_length_le hlen,
    foldl_raise_apply _ _ s hs]

theorem wf_max_unlisted_nonpos {r : Record} (hw : r.WellFormed) (i : Nat) (h : ¬ r.listed i) :
    (tighten r.name r.size_of r.parsed).max_stems i ≤ 0 := by
  by_cases hk : 1 + r.T - r.k ≤ 127
  · rw [wf_max_not_listed hw hk i h]
  · have h1 := hw.valid.T_bounds
    have h2 := Record.Valid.k_nonneg r
    exact (wf_dead (by omega) (by omega)).max_nonpos i

theorem stock_below_initial (p : Division) (l1 l2 : List Char) (h : stock_below p (l1 ++ l2)) :
    stock_below p l1 ∧ ∀ s, s < 26 → (add_stems p l1).1.stock s < 32767 := by
  constructor
  · intro n hn s hs
    have := h n (by rw [List.length_append]; omega) s hs
    rw [List.take_append_of_le_length hn] at this
    exact this
  · intro s hs
    have := h l1.length (by rw [List.length_append]; omega) s hs
    rw [List.take_left] at this
    exact this

/-- C11 (amended): a stem of a species whose stock is at least its ceiling, and below
32767, emits no bouquet and changes nothing except the stock of that species, which
grows by exactly 1: `minimal_stock`, ceilings, designs and the stock of every other
species are unchanged. In a pool of designs built from well-formed records none of which
lists the species, made production ready with empty stock, the ceiling of that species
is 0 and a stem of it is handled this way after any sequence of stems during which every
stock count stays below 32767. -/
theorem saturated_inert :
    (∀ (dv : Division) (c : Char), dv.max_per_species (lane c) ≤ dv.stock (lane c) →
        -32768 ≤ dv.stock (lane c) → dv.stock (lane c) < 32767 →
        division_add_stem dv c
          = ({ dv with
                stock := Function.update dv.stock (lane c) (dv.stock (lane c) + 1) },
              none)) ∧
      (∀ (ds : List Design) (p : Division) (stems : List Char) (c : Char),
        (∀ d ∈ ds, ∃ r : Record,
          r.WellFormed ∧ new_design r.text = some d ∧ ¬ r.listed (lane c)) →
        pool_of ds = some p → (∀ c1 ∈ stems, IsSpecies c1) → IsSpecies c →
        stock_below p (stems ++ [c]) →
        p.max_per_species (lane c) = 0 ∧
          division_add_stem (add_stems p stems).1 c
            = ({ (add_stems p stems).1 with
                  stock := Function.update (add_stems p stems).1.stock (lane c)
                    ((add_stems p stems).1.stock (lane c) + 1) },
                none)) := by
  refine ⟨step_skip, ?_⟩
  intro ds p stems c hds hp hst hc hlow
  have hlane := lane_lt_of_isSpecies hc
  have hsound : ∀ d ∈ ds, Tight d ∨ Dead d := by
    intro d hd
    obtain ⟨r, hw, hr, _⟩ := hds d hd
    exact sound_of_wf d ⟨r, hw, hr⟩
  obtain ⟨hs, _, _⟩ := pool_synced ds p hp hsound
  obtain ⟨hlow1, hlow2⟩ := stock_below_initial p stems [c] hlow
  have hq := run_synced stems p hs hst hlow1
  have hceil : p.max_per_species (lane c) = 0 := by
    rw [pool_ceiling ds p hp _ hlane]
    apply foldl_max_nonpos
    intro d hd
    obtain ⟨r, hw, hr, hnl⟩ := hds d hd
    rw [new_design_valid r hw.valid] at hr
    rw [← Option.some.inj hr]
    exact wf_max_unlisted_nonpos hw _ hnl
  refine ⟨hceil, ?_⟩
  apply step_skip
  · rw [(run_designs stems p).2, hceil]
    exact hq.stock_nonneg _
  · have := hq.stock_nonneg (lane c)
    omega
  · exact hlow2 _ hlane

set_option maxRecDepth 1000000 in
/-- C11, witness: the pool of `BS9a2b9`; a stem of `a` arriving when nine are in stock,
and a stem of `z`, which the design does not list, arriving after two stems of `a`. -/
theorem saturated_inert_witness :
    ((add_stems pool_B ['a', 'a', 'a', 'a', 'a', 'a', 'a', 'a', 'a']).1.max_per_species
          (lane 'a')
        ≤ (add_stems pool_B ['a', 'a', 'a', 'a', 'a', 'a', 'a', 'a', 'a']).1.stock (lane 'a') ∧
      division_add_stem (add_stems pool_B ['a', 'a', 'a', 'a', 'a', 'a', 'a', 'a', 'a']).1 'a'
        = ({ (add_stems pool_B ['a', 'a', 'a', 'a', 'a', 'a', 'a', 'a', 'a']).1 with
              stock := Function.update
                (add_stems pool_B ['a', 'a', 'a', 'a', 'a', 'a', 'a', 'a', 'a']).1.stock
                (lane 'a')
                ((add_stems pool_B ['a', 'a', 'a', 'a', 'a', 'a', 'a', 'a', 'a']).1.stock
                  (lane 'a') + 1) },
            none)) ∧
      ((∀ d ∈ [design_BS9a2b9], ∃ r : Record,
          r.WellFormed ∧ new_design r.text = some d ∧ ¬ r.listed (lane 'z')) ∧
        pool_of [design_BS9a2b9] = some pool_B ∧
        stock_below pool_B (['a', 'a'] ++ ['z']) ∧
        pool_B.max_per_species (lane 'z') = 0 ∧
        division_add_stem (add_stems pool_B ['a', 'a']).1 'z'
          = ({ (add_stems pool_B ['a', 'a']).1 with
                stock := Function.update (add_stems pool_B ['a', 'a']).1.stock (lane 'z')
                  ((add_stems pool_B ['a', 'a']).1.stock (lane 'z') + 1) },
              none)) := by
  have hds : ∀ d ∈ [design_BS9a2b9], ∃ r : Record,
      r.WellFormed ∧ new_design r.text = some d ∧ ¬ r.listed (lane 'z') := by
    intro d hd
    simp only [List.mem_singleton] at hd
    subst hd
    exact ⟨record_BS9a2b9, record_BS9a2b9_wf, new_design_valid _ record_BS9a2b9_wf.valid,
      by decide⟩
  exact ⟨⟨by decide, saturated_inert.1 _ 'a' (by decide) (by decide) (by decide)⟩,
    hds, rfl, by decide,
    saturated_inert.2 [design_BS9a2b9] pool_B ['a', 'a'] 'z' hds rfl (by decide) (by decide)
      (by decide)⟩

/-- C11 as stated fails: in the pool of `AS126a1b127`, after 32767 stems of `a` the stock
of `a` is 32767, above the ceiling 126; the next stem of `a` takes the 16-bit stock to
-32768 instead of 32768, is counted in `minimal_stock` (126 becomes 127) and scanned. -/
theorem saturated_inert_fails :
    (add_stems pool_A126 (List.replicate 32767 'a')).1.max_per_species (lane 'a') = 126 ∧
      (add_stems pool_A126 (List.replicate 32767 'a')).1.stock (lane 'a') = 32767 ∧
      (add_stems pool_A126 (List.replicate 32767 'a')).1.minimal_stock (lane 'a') = 126 ∧
      (division_add_stem (add_stems pool_A126 (List.replicate 32767 'a')).1 'a').1.stock
          (lane 'a') = -32768 ∧
      (division_add_stem (add_stems pool_A126 (List.replicate 32767 'a')).1
          'a').1.minimal_stock (lane 'a') = 127 := by
  obtain ⟨h1, h2, h3⟩ := run_a 32767 (by decide)
  have e2 : wrap16 ((32767 : Nat) : Int) = 32767 := by decide
  have e3 : active_after 32767 = 126 := by decide
  rw [e2] at h2
  rw [e3] at h3
  obtain ⟨_, _, s3, s4⟩ := step_a _ h1
  rw [h2] at s3 s4
  rw [h3] at s4
  have e4 : wrap16 ((32767 : Int) + 1) = -32768 := by decide
  have e5 : wrap8 ((126 : Int) + 1) = 127 := by decide
  rw [e4] at s3 s4
  rw [if_neg (by decide), e5] at s4
  rw [lane_a]
  exact ⟨h1.2.1, h2, h3, s3, s4⟩

/-! ## No overdraw -/

/-- C19 (amended): in a pool of designs built from well-formed records, made production
ready with empty stock, and along any sequence of stems during which every stock count
stays below 32767, every amount of a bouquet emitted by `division_add_stem` is
non-negative and at most the stock of its species in the state right after the arriving
stem was counted, and after the call the stock of every species is non-negative. -/
theorem no_overdraw (ds : List Design) (p : Division) (stems : List Char) (c : Char)
    (hds : ∀ d ∈ ds, ∃ r : Record, r.WellFormed ∧ new_design r.text = some d)
    (hp : pool_of ds = some p) (hst : ∀ c1 ∈ stems, IsSpecies c1) (hc : IsSpecies c)
    (hlow : stock_below p (stems ++ [c])) :
    (∀ b, (division_add_stem (add_stems p stems).1 c).2 = some b →
        ∀ s, s < 26 →
          0 ≤ b.amounts s ∧ b.amounts s ≤ (counted (add_stems p stems).1 c).stock s) ∧
      ∀ s, 0 ≤ (division_add_stem (add_stems p stems).1 c).1.stock s := by
  have hlane := lane_lt_of_isSpecies hc
  obtain ⟨hs, _, _⟩ := pool_synced ds p hp (fun d hd => sound_of_wf d (hds d hd))
  obtain ⟨hlow1, hlow2⟩ := stock_below_initial p stems [c] hlow
  have hq := run_synced stems p hs hst hlow1
  refine ⟨?_, (step_synced _ c hq (hlow2 _ hlane)).stock_nonneg⟩
  intro b hb s hs26
  rcases step_cases (add_stems p stems).1 c with
    ⟨_, h1⟩ | ⟨_, h1, _⟩ | ⟨hn, b1, hb1, h5, h6, h7, _⟩
  · rw [h1] at hb; simp at hb
  · rw [h1] at hb; simp at hb
  · rw [hb] at hb1
    have hbb : b = b1 := Option.some.inj hb1
    obtain ⟨hsc, _⟩ := synced_count _ hq (lane c) (hlow2 _ hlane) hn
    have hmem : b1.design ∈
        (count_in_minimal_stock (count_in_stock (add_stems p stems).1 (lane c))
          (lane c)).designs := List.mem_of_mem_take h5
    obtain ⟨_, _, _, w4, w5⟩ := synced_withdraw _ hsc b1.design hmem h6
    have ht : Tight b1.design := by
      rcases hsc.sound _ hmem with h | h
      · exact h
      · rw [dead_not_passes _ _ h] at h6
        simp at h6
    rw [hbb, h7]
    have := ht.min_nonneg s
    have := w4 s hs26
    exact ⟨by omega, w5 s hs26⟩

set_option maxRecDepth 1000000 in
/-- C19, witness: the pool of `BS9a2b9` holding seven stems of `a` and one of `b`
receives a second stem of `b`. -/
theorem no_overdraw_witness :
    (∀ d ∈ [design_BS9a2b9], ∃ r : Record, r.WellFormed ∧ new_design r.text = some d) ∧
      pool_of [design_BS9a2b9] = some pool_B ∧
      stock_below pool_B (['a', 'a', 'a', 'a', 'a', 'a', 'a', 'b'] ++ ['b']) ∧
      (division_add_stem
        (add_stems pool_B ['a', 'a', 'a', 'a', 'a', 'a', 'a', 'b']).1 'b').2.isSome = true ∧
      (∀ b, (division_add_stem
            (add_stems pool_B ['a', 'a', 'a', 'a', 'a', 'a', 'a', 'b']).1 'b').2 = some b →
          ∀ s, s < 26 →
            0 ≤ b.amounts s ∧
            b.amounts s ≤ (counted
              (add_stems pool_B ['a', 'a', 'a', 'a', 'a', 'a', 'a', 'b']).1 'b').stock s) ∧
      ∀ s, 0 ≤ (division_add_stem
          (add_stems pool_B ['a', 'a', 'a', 'a', 'a', 'a', 'a', 'b']).1 'b').1.stock s :=
  ⟨pool_B_wf, rfl, by decide, by decide,
    no_overdraw [design_BS9a2b9] pool_B ['a', 'a', 'a', 'a', 'a', 'a', 'a', 'b'] 'b'
      pool_B_wf rfl (by decide) (by decide) (by decide)⟩

/-- C19 as stated fails: in the pool of the well-formed record `AS126a1b127`, the call
of `division_add_stem` for the 32768th stem of `a` leaves the 16-bit stock of `a` at
-32768. -/
theorem no_overdraw_fails :
    (∀ d ∈ [design_AS126a1b127],
        ∃ r : Record, r.WellFormed ∧ new_design r.text = some d) ∧
      pool_of [design_AS126a1b127] = some pool_A126 ∧
      (∀ c ∈ List.replicate 32767 'a', IsSpecies c) ∧ IsSpecies 'a' ∧
      (division_add_stem (add_stems pool_A126 (List.replicate 32767 'a')).1 'a').1.stock 0
        = -32768 ∧
      ¬ (∀ s, 0 ≤
          (division_add_stem (add_stems pool_A126 (List.replicate 32767 'a')).1 'a').1.stock
            s) := by
  obtain ⟨h1, h2, _⟩ := run_a 32767 (by decide)
  have e2 : wrap16 ((32767 : Nat) : Int) = 32767 := by decide
  rw [e2] at h2
  obtain ⟨_, _, s3, _⟩ := step_a _ h1
  rw [h2] at s3
  have e4 : wrap16 ((32767 : Int) + 1) = -32768 := by decide
  rw [e4] at s3
  refine ⟨?_, rfl, ?_, by decide, s3, ?_⟩
  · intro d hd
    obtain ⟨r, hw, _, hr⟩ := pool_A126_wf_pos d hd
    exact ⟨r, hw, hr⟩
  · intro c hc
    rw [(List.mem_replicate.1 hc).2]
    decide
  · intro hall
    have := hall 0
    rw [s3] at this
    exact absurd this (by decide)

/-! ## The trimming loop takes from the lowest lanes first -/

theorem trim_loop_pivot (es lo : Nat → Int) (is : List Nat) (h : Nat → Int) (e : Int)
    (hsorted : is.Pairwise (fun a b => a < b)) (his : ∀ i ∈ is, i < 26)
    (hes : ∀ i ∈ is, es i = h i - lo i)
    (hlo : ∀ i < 26, lo i ≤ h i) (hr : ∀ i < 26, -128 ≤ lo i ∧ h i ≤ 127)
    (he : 0 ≤ e) (he2 : e ≤ 127) :
    ∀ j ∈ is, lo j < (trim_loop es is h e).1 j →
      ∀ i ∈ is, j < i → (trim_loop es is h e).1 i = h i := by
  induction is generalizing h e with
  | nil => intro j hj; simp at hj
  | cons a is ih =>
    have hnd : (a :: is).Nodup := hsorted.imp (fun hab => Nat.ne_of_lt hab)
    obtain ⟨_, s2, _, _, _⟩ := trim_loop_spec es lo (a :: is) h e hnd his hes hlo hr he he2
    rw [List.pairwise_cons] at hsorted
    simp only [List.nodup_cons] at hnd
    have ha := his a (List.mem_cons_self _ _)
    have hesa := hes a (List.mem_cons_self _ _)
    have hloa := hlo a ha
    have hra := hr a ha
    have hgt : ∀ j ∈ a :: is, ∀ i ∈ a :: is, j < i → i ∈ is := by
      intro j hj i hi hji
      rcases List.mem_cons.1 hi with h1 | h1
      · rcases List.mem_cons.1 hj with h2 | h2
        · omega
        · have := hsorted.1 j h2
          omega
      · exact h1
    revert s2
    unfold trim_loop
    by_cases h0 : es a = 0
    · simp only [h0, if_true]
      intro s2
      obtain ⟨_, i2, _, _, _⟩ := trim_loop_spec es lo is h e hnd.2
        (fun i hi => his i (List.mem_cons_of_mem _ hi))
        (fun i hi => hes i (List.mem_cons_of_mem _ hi)) hlo hr he he2
      have ih1 := ih h e hsorted.2 (fun i hi => his i (List.mem_cons_of_mem _ hi))
        (fun i hi => hes i (List.mem_cons_of_mem _ hi)) hlo hr he he2
      intro j hj hlt i hi hji
      rcases List.mem_cons.1 hj with h2 | h2
      · rw [h2, i2 a hnd.1] at hlt
        omega
      · exact ih1 j h2 hlt i (hgt j hj i hi hji) hji
    · simp only [h0, if_false]
      have hw1 : wrap8 (h a - min e (es a)) = h a - min e (es a) := by
        apply wrap8_id <;> omega
      have hw2 : wrap8 (e - min e (es a)) = e - min e (es a) := by
        apply wrap8_id <;> omega
      rw [hw1, hw2]
      have hup : ∀ i < 26, lo i ≤ Function.update h a (h a - min e (es a)) i
          ∧ Function.update h a (h a - min e (es a)) i ≤ h i := by
        intro i hi
        by_cases hia : i = a
        · subst hia
          rw [Function.update_same]
          omega
        · rw [Function.update_noteq hia]
          exact ⟨hlo i hi, le_refl _⟩
      by_cases h1 : e - min e (es a) = 0
      · simp only [h1, if_true]
        intro _ j hj _ i hi hji
        have hmem := hgt j hj i hi hji
        rw [Function.update_noteq (fun (hia : i = a) => hnd.1 (by rw [← hia]; exact hmem))]
      · simp only [h1, if_false]
        intro _
        have hes1 : ∀ i ∈ is, es i = Function.update h a (h a - min e (es a)) i - lo i := by
          intro i hi
          have hia : i ≠ a := fun hia => hnd.1 (hia ▸ hi)
          rw [Function.update_noteq hia]
          exact hes i (List.mem_cons_of_mem _ hi)
        obtain ⟨_, i2, _, _, _⟩ := trim_loop_spec es lo is
          (Function.update h a (h a - min e (es a))) (e - min e (es a)) hnd.2
          (fun i hi => his i (List.mem_cons_of_mem _ hi)) hes1
          (fun i hi => (hup i hi).1)
          (fun i hi => ⟨(hr i hi).1, le_trans (hup i hi).2 (hr i hi).2⟩)
          (by omega) (by omega)
        have ih1 := ih (Function.update h a (h a - min e (es a))) (e - min e (es a))
          hsorted.2 (fun i hi => his i (List.mem_cons_of_mem _ hi)) hes1
          (fun i hi => (hup i hi).1)
          (fun i hi => ⟨(hr i hi).1, le_trans (hup i hi).2 (hr i hi).2⟩)
          (by omega) (by omega)
        intro j hj hlt i hi hji
        rcases List.mem_cons.1 hj with h2 | h2
        · rw [h2, i2 a hnd.1, Function.update_same] at hlt
          omega
        · have hmem := hgt j hj i hi hji
          rw [ih1 j h2 hlt i hmem hji,
            Function.update_noteq (fun (hia : i = a) => hnd.1 (by rw [← hia]; exact hmem))]

theorem range_sorted (n : Nat) : (List.range n).Pairwise (fun a b => a < b) := by
  rw [List.range_eq_range']
  exact List.pairwise_lt_range' 0 n

theorem trim_eq (d : Design) (hand : Nat → Int)
    (hsum : lane_sum hand 26 ≤ 127) (hT : d.total ≤ lane_sum hand 26) (hT0 : 0 ≤ d.total) :
    trim d hand
      = if lane_sum hand 26 - d.total ≠ 0 then
          trim_loop (fun i => wrap8 (hand i - d.min_stems i)) (List.range 26) hand
            (lane_sum hand 26 - d.total)
        else (hand, lane_sum hand 26 - d.total) := by
  have ha : amount_in_hand hand = lane_sum hand 26 := by
    unfold amount_in_hand
    apply wrap8_id <;> omega
  have he : wrap8 (amount_in_hand hand - d.total) = lane_sum hand 26 - d.total := by
    rw [ha]; apply wrap8_id <;> omega
  unfold trim
  simp only [he]

theorem trim_pivot (d : Design) (hand : Nat → Int)
    (hlo : ∀ i < 26, d.min_stems i ≤ hand i) (hmin : ∀ i < 26, 0 ≤ d.min_stems i)
    (hsum : lane_sum hand 26 ≤ 127) (hT : d.total ≤ lane_sum hand 26) (hT0 : 0 ≤ d.total) :
    ∀ j, j < 26 → d.min_stems j < (trim d hand).1 j →
      ∀ i, j < i → i < 26 → (trim d hand).1 i = hand i := by
  have hh0 : ∀ i < 26, 0 ≤ hand i := fun i hi => le_trans (hmin i hi) (hlo i hi)
  have hh127 : ∀ i < 26, hand i ≤ 127 := fun i hi =>
    le_trans (lane_le_lane_sum hh0 hi) hsum
  rw [trim_eq d hand hsum hT hT0]
  by_cases h0 : lane_sum hand 26 - d.total = 0
  · rw [if_neg (by simpa using h0)]
    intro j _ _ i _ _
    rfl
  · rw [if_pos h0]
    intro j hj hlt i hji hi
    exact trim_loop_pivot (fun i => wrap8 (hand i - d.min_stems i)) d.min_stems
      (List.range 26) hand (lane_sum hand 26 - d.total) (range_sorted 26)
      (fun i hi => List.mem_range.1 hi)
      (by
        intro i hi
        have hi := List.mem_range.1 hi
        have := hlo i hi
        have := hmin i hi
        have := hh127 i hi
        apply wrap8_id <;> omega)
      hlo (fun i hi => ⟨by have := hmin i hi; omega, hh127 i hi⟩) (by omega) (by omega)
      j (List.mem_range.2 hj) hlt i (List.mem_range.2 hi) hji

/-- C20 (amended): for every design `d` whose minima are non-negative and sum to at
most `d.total`, and every hand with `d.min[s] <= hand[s]` for all species, whose sum is
at least `d.total` and at most 127, the amounts `x` left by the trimming block lie
between `d.min` and the hand and sum to `d.total`; a lane above its minimum leaves
every later lane untouched (so the excess is taken from the lowest lanes first, each
down to its minimum before the next is touched); and `x` is lexicographically the
smallest vector `y` with `d.min[s] <= y[s] <= hand[s]` for all species and sum
`d.total`. -/
theorem trim_lex_minimal (d : Design) (hand : Nat → Int)
    (hmin : ∀ s < 26, 0 ≤ d.min_stems s) (hlo : ∀ s < 26, d.min_stems s ≤ hand s)
    (hminsum : lane_sum d.min_stems 26 ≤ d.total) (hT : d.total ≤ lane_sum hand 26)
    (hsum : lane_sum hand 26 ≤ 127) :
    (∀ s < 26, d.min_stems s ≤ (trim d hand).1 s ∧ (trim d hand).1 s ≤ hand s) ∧
      lane_sum (trim d hand).1 26 = d.total ∧
      (∀ j, j < 26 → d.min_stems j < (trim d hand).1 j →
        ∀ i, j < i → i < 26 → (trim d hand).1 i = hand i) ∧
      ∀ y : Nat → Int, (∀ s < 26, d.min_stems s ≤ y s ∧ y s ≤ hand s) →
        lane_sum y 26 = d.total → lex_le (trim d hand).1 y 26 := by
  have hT0 : 0 ≤ d.total := le_trans (lane_sum_nonneg hmin) hminsum
  obtain ⟨t1, _, t3, _⟩ := trim_spec d hand hlo hmin hsum hT hT0 hminsum
  have hpiv := trim_pivot d hand hlo hmin hsum hT hT0
  refine ⟨t1, t3, hpiv, ?_⟩
  intro y hy hysum
  by_cases hall : ∀ i, i < 26 → (trim d hand).1 i = y i
  · exact Or.inl hall
  · right
    have hex : ∃ i, i < 26 ∧ (trim d hand).1 i ≠ y i := by
      by_contra hne
      apply hall
      intro i hi
      by_contra hd
      exact hne ⟨i, hi, hd⟩
    obtain ⟨m, hm, hfirst⟩ : ∃ m, (m < 26 ∧ (trim d hand).1 m ≠ y m) ∧
        ∀ i, i < m → ¬ (i < 26 ∧ (trim d hand).1 i ≠ y i) := by
      classical
      exact ⟨Nat.find hex, Nat.find_spec hex, fun i hi => Nat.find_min hex hi⟩
    have heq : ∀ i, i < m → (trim d hand).1 i = y i := by
      intro i him
      by_contra hne
      exact hfirst i him ⟨by omega, hne⟩
    refine ⟨m, hm.1, heq, ?_⟩
    by_contra hnlt
    have hne := hm.2
    have hgt : y m < (trim d hand).1 m := by omega
    have hym := (hy m hm.1).1
    have hp := hpiv m hm.1 (by omega)
    have hle : ∀ i < 26, y i ≤ (trim d hand).1 i := by
      intro i hi
      rcases Nat.lt_trichotomy i m with h | h | h
      · rw [heq i h]
      · rw [h]; omega
      · rw [hp i h hi]; exact (hy i hi).2
    have := lane_sum_add_le hle hm.1
    omega

set_option maxRecDepth 100000 in
/-- C20, witness: the design `BS9a2b9` with a hand of eight stems of `a` and two of
`b`. -/
theorem trim_lex_minimal_witness :
    ((∀ s < 26, 0 ≤ design_BS9a2b9.min_stems s) ∧
      (∀ s < 26, design_BS9a2b9.min_stems s ≤ design_BS9a2b9.max_stems s) ∧
      lane_sum design_BS9a2b9.min_stems 26 ≤ design_BS9a2b9.total ∧
      design_BS9a2b9.total ≤ lane_sum design_BS9a2b9.max_stems 26 ∧
      lane_sum design_BS9a2b9.max_stems 26 ≤ 127) ∧
      (∀ s < 26, design_BS9a2b9.min_stems s ≤ (trim design_BS9a2b9 design_BS9a2b9.max_stems).1 s
          ∧ (trim design_BS9a2b9 design_BS9a2b9.max_stems).1 s ≤ design_BS9a2b9.max_stems s) ∧
      lane_sum (trim design_BS9a2b9 design_BS9a2b9.max_stems).1 26 = design_BS9a2b9.total ∧
      (∀ j, j < 26 →
        design_BS9a2b9.min_stems j < (trim design_BS9a2b9 design_BS9a2b9.max_stems).1 j →
        ∀ i, j < i → i < 26 →
          (trim design_BS9a2b9 design_BS9a2b9.max_stems).1 i = design_BS9a2b9.max_stems i) ∧
      ∀ y : Nat → Int,
        (∀ s < 26, design_BS9a2b9.min_stems s ≤ y s ∧ y s ≤ design_BS9a2b9.max_stems s) →
        lane_sum y 26 = design_BS9a2b9.total →
        lex_le (trim design_BS9a2b9 design_BS9a2b9.max_stems).1 y 26 :=
  ⟨⟨by decide, by decide, by decide, by decide, by decide⟩,
    trim_lex_minimal design_BS9a2b9 design_BS9a2b9.max_stems (by decide) (by decide)
      (by decide) (by decide) (by decide)⟩

set_option maxRecDepth 100000 in
/-- C20 as stated fails: for a design with total 10 and minimum 0 in every lane, and
the hand 100, 100, 66, the 8-bit `amount_in_hand` is 10 (266 reduced to 8 bits), so
`excess_amount` is 0 and nothing is trimmed: the amounts stay 100, 100, 66 and sum to
266, although 0, 0, 10 lies within the bounds and sums to the total. -/
theorem trim_lex_minimal_fails :
    lane_sum design_T10.min_stems 26 ≤ design_T10.total ∧
      (∀ s < 26, design_T10.min_stems s ≤ hand_266 s) ∧
      design_T10.total ≤ lane_sum hand_266 26 ∧
      (∀ s < 26,
        design_T10.min_stems s ≤ amounts_0_0_10 s ∧ amounts_0_0_10 s ≤ hand_266 s) ∧
      lane_sum amounts_0_0_10 26 = design_T10.total ∧
      (trim design_T10 hand_266).1 0 = 100 ∧
      lane_sum (trim design_T10 hand_266).1 26 = 266 ∧
      ¬ lex_le (trim design_T10 hand_266).1 amounts_0_0_10 26 := by
  decide

/-! ## Designs of one species -/

theorem add_stems_append_snd (dv : Division) (l1 l2 : List Char) :
    (add_stems dv (l1 ++ l2)).2
      = (add_stems dv l1).2 ++ (add_stems (add_stems dv l1).1 l2).2 := by
  induction l1 generalizing dv with
  | nil => rfl
  | cons c l1 ih =>
    show (division_add_stem dv c).2.toList ++ (add_stems (division_add_stem dv c).1 (l1 ++ l2)).2
      = ((division_add_stem dv c).2.toList ++ (add_stems (division_add_stem dv c).1 l1).2)
          ++ (add_stems (add_stems (division_add_stem dv c).1 l1).1 l2).2
    rw [ih, List.append_assoc]

theorem add_stems_single_snd (dv : Division) (c : Char) :
    (add_stems dv [c]).2 = (division_add_stem dv c).2.toList := by
  show (division_add_stem dv c).2.toList ++ [] = _
  rw [List.append_nil]

theorem lane_sum_single (l n : Nat) (v : Int) (hl : l < n) :
    lane_sum (Function.update (fun _ => (0 : Int)) l v) n = v := by
  rw [lane_sum_update, lane_sum_const_zero, if_pos hl]
  simp

theorem solo_sum_le (d : Design) (l : Nat) (total : Int) (hd : Solo d l total)
    (stock : Nat → Int) (v : Int) (hv : stock l ≤ v) :
    lane_sum (fun s => min (stock s) (d.max_stems s)) 26 ≤ v := by
  rw [← lane_sum_single l 26 v hd.lane_lt]
  apply lane_sum_le
  intro i _
  by_cases hi : i = l
  · rw [hi, Function.update_same]
    exact le_trans (min_le_left _ _) hv
  · rw [Function.update_noteq hi, (hd.others i hi).1]
    exact min_le_right _ _

/-- A stem of the species that does not complete the design is counted and nothing is
emitted. -/
theorem solo_quiet (d : Design) (c : Char) (total n : Int) (dv : Division)
    (hd : Solo d (lane c) total) (hs : SoloState d (lane c) total n dv) (h0 : 0 ≤ n)
    (hn : n + 1 < total) :
    (division_add_stem dv c).2 = none ∧
      SoloState d (lane c) total (n + 1) (division_add_stem dv c).1 := by
  have hT : total ≤ 127 := by
    have h1 := hd.tight.sum_max_le
    have h2 := lane_le_lane_sum (fun j _ => hd.tight.max_nonneg j) hd.lane_lt
    rw [hd.max_eq] at h2
    omega
  have hlow : dv.stock (lane c) < 32767 := by rw [hs.stock_eq]; omega
  have hst := count_stock_apply dv (lane c) (lane c)
  rw [if_pos rfl, hs.stock_eq, wrap16_id (by omega) (by omega)] at hst
  rcases step_cases dv c with ⟨h1, _⟩ | ⟨hns, h1, _⟩ | ⟨hns, b, _, h5, h6, _⟩
  · rw [hst, hs.ceiling_eq] at h1
    omega
  · obtain ⟨hsc, hstock⟩ := synced_count dv hs.synced (lane c) hlow hns
    rw [h1]
    refine ⟨rfl, hsc, hs.designs_eq, hs.ceiling_eq, ?_, ?_⟩
    · show (count_in_minimal_stock (count_in_stock dv (lane c)) (lane c)).stock (lane c) = _
      rw [hstock, if_pos rfl, hs.stock_eq]
    · intro i hi
      show (count_in_minimal_stock (count_in_stock dv (lane c)) (lane c)).stock i = _
      rw [hstock, if_neg hi]
      exact hs.others i hi
  · exfalso
    obtain ⟨hsc, hstock⟩ := synced_count dv hs.synced (lane c) hlow hns
    have hbd : b.design = d := by
      have := List.mem_of_mem_take h5
      rw [hs.designs_eq] at this
      simpa using this
    rw [hbd] at h6
    have hmem : d ∈ (count_in_minimal_stock (count_in_stock dv (lane c)) (lane c)).designs := by
      show d ∈ dv.designs
      rw [hs.designs_eq]
      exact List.mem_singleton_self d
    have hcomp := (passes_iff_completable _ hsc d hmem).1 h6
    have hle := solo_sum_le d (lane c) total hd
      (count_in_minimal_stock (count_in_stock dv (lane c)) (lane c)).stock (n + 1)
      (by rw [hstock, if_pos rfl, hs.stock_eq])
    have := hcomp.1
    rw [hd.total_eq] at this
    omega

/-- The stem of the species that completes the design emits it and empties the stock. -/
theorem solo_emit (d : Design) (c : Char) (total : Int) (dv : Division)
    (hd : Solo d (lane c) total) (hs : SoloState d (lane c) total (total - 1) dv) :
    ∃ b, (division_add_stem dv c).2 = some b ∧ b.design = d ∧
      (∀ s, s < 26 → b.amounts s = if s = lane c then total else 0) ∧
      ∀ s, (division_add_stem dv c).1.stock s = 0 := by
  have hT : total ≤ 127 := by
    have h1 := hd.tight.sum_max_le
    have h2 := lane_le_lane_sum (fun j _ => hd.tight.max_nonneg j) hd.lane_lt
    rw [hd.max_eq] at h2
    omega
  have hpos := hd.total_pos
  have hlow : dv.stock (lane c) < 32767 := by rw [hs.stock_eq]; omega
  have hst := count_stock_apply dv (lane c) (lane c)
  rw [if_pos rfl, hs.stock_eq, wrap16_id (by omega) (by omega)] at hst
  have hmem : d ∈ (count_in_minimal_stock (count_in_stock dv (lane c)) (lane c)).designs := by
    show d ∈ dv.designs
    rw [hs.designs_eq]
    exact List.mem_singleton_self d
  rcases step_cases dv c with ⟨h1, _⟩ | ⟨hns, _, h2⟩ | ⟨hns, b, hb, h5, h6, h7, h8⟩
  · rw [hst, hs.ceiling_eq] at h1
    omega
  · exfalso
    obtain ⟨hsc, hstock⟩ := synced_count dv hs.synced (lane c) hlow hns
    have hnp := h2 d (by rw [hs.designs_eq]; simp)
    have hp : passes (count_in_minimal_stock (count_in_stock dv (lane c)) (lane c)).minimal_stock
        d = true := by
      rw [passes_iff_completable _ hsc d hmem]
      constructor
      · have hL := lane_le_lane_sum (f := fun s => min
            ((count_in_minimal_stock (count_in_stock dv (lane c)) (lane c)).stock s)
            (d.max_stems s)) (n := 26)
          (fun j _ => le_min (hsc.stock_nonneg j) (hd.tight.max_nonneg j)) hd.lane_lt
        have e : min ((count_in_minimal_stock (count_in_stock dv (lane c)) (lane c)).stock
            (lane c)) (d.max_stems (lane c)) = total := by
          rw [hstock, if_pos rfl, hs.stock_eq, hd.max_eq]
          omega
        rw [hd.total_eq]
        exact le_of_eq_of_le e.symm hL
      · intro s _
        by_cases hsl : s = lane c
        · rw [hsl, hstock, if_pos rfl, hs.stock_eq, hd.max_eq, hd.min_eq]
          omega
        · rw [(hd.others s hsl).1, (hd.others s hsl).2, hstock, if_neg hsl, hs.others s hsl]
          decide
    rw [hp] at hnp
    simp at hnp
  · obtain ⟨hsc, hstock⟩ := synced_count dv hs.synced (lane c) hlow hns
    have hbd : b.design = d := by
      have := List.mem_of_mem_take h5
      rw [hs.designs_eq] at this
      simpa using this
    rw [hbd] at h6 h7
    obtain ⟨_, _, w3, w4, w5⟩ := synced_withdraw _ hsc d hmem h6
    rw [← h7] at w3 w4 w5
    have hx : ∀ s, s < 26 → b.amounts s = if s = lane c then total else 0 := by
      intro s hs26
      have a1 := w4 s hs26
      have a2 := w5 s hs26
      rw [hstock] at a2
      by_cases hsl : s = lane c
      · subst hsl
        rw [if_pos rfl]
        rw [if_pos rfl, hs.stock_eq] at a2
        rw [hd.min_eq] at a1
        omega
      · rw [if_neg hsl]
        rw [if_neg hsl, hs.others s hsl] at a2
        rw [(hd.others s hsl).2] at a1
        omega
    refine ⟨b, hb, hbd, hx, ?_⟩
    intro s
    by_cases hs26 : s < 26
    · rw [h8, w3 s hs26, hx s hs26, hstock]
      by_cases hsl : s = lane c
      · rw [if_pos hsl, if_pos hsl, hs.stock_eq]
        omega
      · rw [if_neg hsl, if_neg hsl, hs.others s hsl]
        rfl
    · rw [h8, withdraw_eq]
      show (if s < 26 ∧ b.amounts s ≠ 0 then _ else
        (count_in_minimal_stock (count_in_stock dv (lane c)) (lane c)).stock s) = 0
      have hsl : s ≠ lane c := fun h => hs26 (by rw [h]; exact hd.lane_lt)
      rw [if_neg (fun h => hs26 h.1), hstock, if_neg hsl]
      exact hs.others s hsl

theorem solo_run (d : Design) (c : Char) (total : Int) (dv : Division)
    (hd : Solo d (lane c) total) (hs : SoloState d (lane c) total 0 dv) (n : Nat)
    (hn : (n : Int) < total) :
    (add_stems dv (List.replicate n c)).2 = [] ∧
      SoloState d (lane c) total n (add_stems dv (List.replicate n c)).1 := by
  induction n with
  | zero => exact ⟨rfl, hs⟩
  | succ n ih =>
    obtain ⟨i1, i2⟩ := ih (by push_cast at hn; omega)
    obtain ⟨q1, q2⟩ := solo_quiet d c total n _ hd i2 (by omega) (by push_cast at hn; omega)
    rw [List.replicate_succ', add_stems_append_snd, add_stems_append, add_stems_single_fst,
      add_stems_single_snd, i1, q1]
    refine ⟨rfl, ?_⟩
    have e : ((n + 1 : Nat) : Int) = (n : Int) + 1 := by push_cast; rfl
    rw [e]
    exact q2

theorem flatMap_range_single (f : Nat → List Char) (l n : Nat) (hl : l < n)
    (h : ∀ i, i < n → i ≠ l → f i = []) : (List.range n).flatMap f = f l := by
  induction n with
  | zero => omega
  | succ n ih =>
    rw [List.range_succ, List.flatMap_append]
    by_cases hln : l = n
    · subst hln
      have : (List.range l).flatMap f = [] := by
        rw [List.flatMap_eq_nil_iff]
        intro i hi
        have := List.mem_range.1 hi
        exact h i (by omega) (by omega)
      rw [this]
      simp
    · rw [ih (by omega) (fun i hi hne => h i (by omega) hne)]
      simp [h n (by omega) (fun hh => hln hh.symm)]

theorem single_wf (r : Record) (g : List Char) (c : Char) (hp : r.pairs = [(g, c)])
    (hv : r.Valid) (h1 : 1 ≤ number r.total) (h2 : number r.total ≤ number g) :
    r.WellFormed ∧ r.k = 1 ∧ IsSpecies c ∧ number g ≤ 127 ∧
      ∀ i, r.given i = if lane c = i then (number g : Int) else 0 := by
  have hmem : (g, c) ∈ r.pairs := by rw [hp]; exact List.mem_singleton_self _
  have hg := (hv.counts_ok _ hmem).2.2
  have hk : r.k = 1 := by unfold Record.k; rw [hp]; rfl
  refine ⟨⟨hv, ?_, ?_, ?_⟩, hk, hv.species_ok _ hmem, hg, ?_⟩
  · intro p hpm
    rw [hp, List.mem_singleton] at hpm
    rw [hpm]
    show 1 ≤ number g
    omega
  · rw [hk]
    unfold Record.T
    exact_mod_cast h1
  · unfold Record.sum_given
    rw [hp]
    simp only [List.map_cons, List.map_nil, List.sum_cons, List.sum_nil, add_zero]
    exact_mod_cast hg
  · intro i
    unfold Record.given
    rw [hp]
    rfl

theorem single_solo (r : Record) (g : List Char) (c : Char) (hp : r.pairs = [(g, c)])
    (hv : r.Valid) (h1 : 1 ≤ number r.total) (h2 : number r.total ≤ number g) :
    Solo (tighten r.name r.size_of r.parsed) (lane c) (number r.total) := by
  obtain ⟨hw, hk1, hc, hg, hgiven⟩ := single_wf r g c hp hv h1 h2
  have hT := hv.T_bounds
  have hTn : r.T = (number r.total : Int) := rfl
  have hk : 1 + r.T - r.k ≤ 127 := by omega
  have hlane := lane_lt_of_isSpecies hc
  have hmax : ∀ i, (tighten r.name r.size_of r.parsed).max_stems i
      = if lane c = i then (number r.total : Int) else 0 := by
    intro i
    rw [wf_design_max hw hk, hgiven, hk1, hTn]
    split <;> omega
  have hsum : lane_sum (tighten r.name r.size_of r.parsed).max_stems 26
      = (number r.total : Int) := by
    rw [← lane_sum_single (lane c) 26 (number r.total : Int) hlane]
    apply lane_sum_congr
    intro i _
    rw [hmax, Function.update_apply]
    by_cases hi : lane c = i
    · rw [if_pos hi, if_pos hi.symm]
    · rw [if_neg hi, if_neg (fun hh => hi hh.symm)]
  have hmin : ∀ i, (tighten r.name r.size_of r.parsed).min_stems i
      = if lane c = i then (number r.total : Int) else 0 := by
    intro i
    rw [wf_design_min hw hk, hsum, hmax, hTn]
    by_cases hi : lane c = i
    · rw [if_pos hi, if_pos (by omega)]
      omega
    · rw [if_neg hi, if_neg (by simp)]
  refine ⟨wf_tight hw hk, hlane, rfl, by exact_mod_cast h1, ?_, ?_, ?_⟩
  · rw [hmax, if_pos rfl]
  · rw [hmin, if_pos rfl]
  · intro i hi
    rw [hmax, hmin, if_neg (fun hh => hi hh.symm)]
    exact ⟨rfl, rfl⟩

theorem solo_pool (d : Design) (l : Nat) (total : Int) (hd : Solo d l total) :
    pool_of [d]
        = some (make_division_production_ready { empty_division with designs := [d] }) ∧
      SoloState d l total 0
        (make_division_production_ready { empty_division with designs := [d] }) := by
  have hp : pool_of [d]
      = some (make_division_production_ready { empty_division with designs := [d] }) := rfl
  obtain ⟨hs, hst, hds⟩ := pool_synced [d] _ hp (by
    intro e he
    rw [List.mem_singleton] at he
    rw [he]
    exact Or.inl hd.tight)
  refine ⟨hp, hs, hds, ?_, hst l, fun i _ => hst i⟩
  rw [pool_ceiling [d] _ hp l hd.lane_lt]
  show max 0 (d.max_stems l) = total
  rw [hd.max_eq]
  have := hd.total_pos
  omega

theorem size_of_toChar {r : Record} (hv : r.Valid) : r.size_of.toChar = r.size := by
  unfold Record.size_of
  rcases hv.size_ok with h | h
  · rw [if_pos h, h]; rfl
  · rw [if_neg (by rw [h]; decide), h]; rfl

theorem ofNat_lane {c : Char} (hc : IsSpecies c) : Char.ofNat (lane c + 97) = c := by
  unfold IsSpecies at hc
  unfold lane
  rw [Nat.sub_add_cancel hc.1]
  exact Char.ofNat_toNat c

/-- C13: for every valid record that names exactly one species `c`, with given count
`m` and total `T` where `1 <= T <= m <= 127`, `new_design` yields a design with
`min[c] = max[c] = T`; in the pool that holds this design only, made production ready
with empty stock, the first `T - 1` stems of `c` emit nothing, and `T` stems of `c` emit
exactly one bouquet, after stem `T`: it is of this design, consists of `T` stems of `c`
and nothing else, prints as name, size, `T` and `c`, and leaves every stock at 0. -/
theorem single_species (r : Record) (g : List Char) (c : Char) (hp : r.pairs = [(g, c)])
    (hv : r.Valid) (h1 : 1 ≤ number r.total) (h2 : number r.total ≤ number g) :
    ∃ d p, new_design r.text = some d ∧
      d.min_stems (lane c) = number r.total ∧ d.max_stems (lane c) = number r.total ∧
      pool_of [d] = some p ∧
      (∀ n, n < number r.total → (add_stems p (List.replicate n c)).2 = []) ∧
      ∃ b, (add_stems p (List.replicate (number r.total) c)).2 = [b] ∧ b.design = d ∧
        (∀ s, s < 26 → b.amounts s = if s = lane c then (number r.total : Int) else 0) ∧
        bouquet_text b = [r.name, r.size] ++ Nat.toDigits 10 (number r.total) ++ [c, '\n'] ∧
        ∀ s, (add_stems p (List.replicate (number r.total) c)).1.stock s = 0 := by
  have hd := single_solo r g c hp hv h1 h2
  obtain ⟨_, _, hc, _, _⟩ := single_wf r g c hp hv h1 h2
  obtain ⟨hpool, hs0⟩ := solo_pool _ _ _ hd
  have hT127 : number r.total ≤ 127 := hv.total_ok.2.2
  refine ⟨tighten r.name r.size_of r.parsed, _, new_design_valid r hv, hd.min_eq, hd.max_eq,
    hpool, ?_, ?_⟩
  · intro n hn
    exact (solo_run _ c _ _ hd hs0 n (by exact_mod_cast hn)).1
  · obtain ⟨k, hk⟩ : ∃ k, number r.total = k + 1 := ⟨number r.total - 1, by omega⟩
    obtain ⟨q1, q2⟩ := solo_run _ c _ _ hd hs0 k (by rw [hk]; push_cast; omega)
    have e : ((k : Nat) : Int) = (number r.total : Int) - 1 := by rw [hk]; push_cast; ring
    rw [e] at q2
    obtain ⟨b, hb, hbd, hx, hz⟩ := solo_emit _ c _ _ hd q2
    have hrun : List.replicate (number r.total) c = List.replicate k c ++ [c] := by
      rw [hk, List.replicate_succ']
    rw [hrun, add_stems_append_snd, add_stems_append, add_stems_single_fst,
      add_stems_single_snd, q1, hb]
    refine ⟨b, rfl, hbd, hx, ?_, hz⟩
    unfold bouquet_text
    have hlane := hd.lane_lt
    have hf := flatMap_range_single
      (fun species_index =>
        if b.amounts species_index = 0 then []
        else Nat.toDigits 10 (b.amounts species_index % 256).toNat
          ++ [Char.ofNat (species_index + 97)]) (lane c) 26 hlane (by
        intro i hi hne
        show (if b.amounts i = 0 then [] else _) = []
        rw [hx i hi, if_neg hne, if_pos rfl])
    have hval : ((number r.total : Int) % 256).toNat = number r.total := by omega
    have hne : ¬ ((number r.total : Int) = 0) := by omega
    simp only [] at hf ⊢
    rw [hf, hx _ hlane, if_pos rfl, if_neg hne, hval, ofNat_lane hc, hbd]
    show [r.name, r.size_of.toChar] ++ _ ++ _ = _
    rw [size_of_toChar hv]
    simp

set_option maxRecDepth 100000 in
/-- C13, witness: the record `AS6a4` of the first scenario. -/
theorem single_species_witness :
    record_AS6a4.pairs = [(['6'], 'a')] ∧ record_AS6a4.Valid ∧
      1 ≤ number record_AS6a4.total ∧ number record_AS6a4.total ≤ number ['6'] ∧
      ∃ d p, new_design record_AS6a4.text = some d ∧
        d.min_stems (lane 'a') = number record_AS6a4.total ∧
        d.max_stems (lane 'a') = number record_AS6a4.total ∧
        pool_of [d] = some p ∧
        (∀ n, n < number record_AS6a4.total → (add_stems p (List.replicate n 'a')).2 = []) ∧
        ∃ b, (add_stems p (List.replicate (number record_AS6a4.total) 'a')).2 = [b] ∧
          b.design = d ∧
          (∀ s, s < 26 →
            b.amounts s = if s = lane 'a' then (number record_AS6a4.total : Int) else 0) ∧
          bouquet_text b
            = [record_AS6a4.name, record_AS6a4.size]
                ++ Nat.toDigits 10 (number record_AS6a4.total) ++ ['a', '\n'] ∧
          ∀ s, (add_stems p (List.replicate (number record_AS6a4.total) 'a')).1.stock s = 0 :=
  ⟨rfl, ⟨by decide, by decide, by decide, by decide, by decide, by decide⟩, by decide,
    by decide,
    single_species record_AS6a4 ['6'] 'a' rfl
      ⟨by decide, by decide, by decide, by decide, by decide, by decide⟩ (by decide)
      (by decide)⟩

/-! ## Records that `new_design` rejects, and records it accepts -/

theorem strtoul_digits_rest (ds rest : List Char) (hd : IsDigits ds)
    (hr : isdigit (peek rest) = false) : ∃ v, strtoul (ds ++ rest) = (v, rest) := by
  obtain ⟨hne, hd⟩ := hd
  cases ds with
  | nil => exact absurd rfl hne
  | cons d ds =>
    have h1 : isdigit d = true := hd d (List.mem_cons_self _ _)
    have h2 := (isdigit_iff d).1 h1
    have hsp : isspace d = false := by
      simp [isspace]; omega
    have hm : ¬ (d = '-' ∨ d = '+') := by
      rintro (h | h) <;> · subst h; revert h2; decide
    have hdig := strtoul_digits_append (d :: ds) rest 0 hd hr
    unfold strtoul
    simp only [List.cons_append, List.dropWhile_cons, hsp, peek_cons, hm, if_false, h1,
      if_true, Bool.false_eq_true]
    rw [← List.cons_append, hdig]
    exact ⟨_, rfl⟩

theorem species_not_digit {c : Char} (h : IsSpecies c) (rest : List Char) :
    isdigit (peek (c :: rest)) = false := by
  rw [peek_cons]
  unfold IsSpecies at h
  simp [isdigit]; omega

theorem parse_loop_skip (ps : List (List Char × Char)) (s : List Char)
    (hc : ∀ p ∈ ps, IsDigits p.1) (hs : ∀ p ∈ ps, IsSpecies p.2)
    (fuel : Nat) (mn mx : Nat → Int) (cnt : Int) :
    ∃ mn1 mx1 cnt1,
      parse_loop (fuel + ps.length) (ps.flatMap (fun p => p.1 ++ [p.2]) ++ s) mn mx cnt
        = parse_loop fuel s mn1 mx1 cnt1 := by
  induction ps generalizing mn mx cnt with
  | nil => exact ⟨mn, mx, cnt, rfl⟩
  | cons p ps ih =>
    have hsp : IsSpecies p.2 := hs p (List.mem_cons_self _ _)
    obtain ⟨v, h⟩ := strtoul_digits_rest p.1
      (p.2 :: (ps.flatMap (fun p => p.1 ++ [p.2]) ++ s)) (hc p (List.mem_cons_self _ _))
      (species_not_digit hsp _)
    have hin : (p :: ps).flatMap (fun p => p.1 ++ [p.2]) ++ s
        = p.1 ++ (p.2 :: (ps.flatMap (fun p => p.1 ++ [p.2]) ++ s)) := by
      simp [List.flatMap_cons]
    have h0 : ¬ (p.2 = Char.ofNat 0 ∨ p.2 = '\n') := by
      unfold IsSpecies at hsp
      rintro (h | h) <;> · rw [h] at hsp; revert hsp; decide
    have hps : parse_species p.2 = some p.2 := by
      unfold IsSpecies at hsp
      simp [parse_species, hsp]
    obtain ⟨mn1, mx1, cnt1, hrec⟩ := ih (fun q hq => hc q (List.mem_cons_of_mem _ hq))
      (fun q hq => hs q (List.mem_cons_of_mem _ hq))
      (Function.update mn (p.2.toNat - 97) 1) (Function.update mx (p.2.toNat - 97) (wrap8 v))
      (wrap8 (cnt + 1))
    refine ⟨mn1, mx1, cnt1, ?_⟩
    rw [← hrec, hin, List.length_cons, ← Nat.add_assoc, parse_loop]
    simp only [h, peek_cons, h0, if_false, hps, List.tail_cons]

theorem flat_length (ps : List (List Char × Char)) :
    ps.length ≤ (ps.flatMap (fun p => p.1 ++ [p.2])).length := by
  induction ps with
  | nil => simp
  | cons p ps ih =>
    simp only [List.flatMap_cons, List.length_append, List.length_cons, List.length_nil]
    omega

theorem parse_loop_stop (fuel : Nat) (s : List Char) (mn mx : Nat → Int) (cnt : Int)
    (h1 : ¬ IsSpecies (peek (strtoul s).2)) (h2 : peek (strtoul s).2 ≠ Char.ofNat 0)
    (h3 : peek (strtoul s).2 ≠ '\n') : parse_loop fuel s mn mx cnt = none := by
  cases fuel with
  | zero => rfl
  | succ fuel =>
    have hps : parse_species (peek (strtoul s).2) = none := by
      unfold IsSpecies at h1
      simp [parse_species, h1]
    rw [parse_loop]
    simp only [h2, h3, or_self, if_false, hps]

theorem new_design_text (name size : Char) (ps : List (List Char × Char)) (s : List Char)
    (hc : ∀ p ∈ ps, IsDigits p.1) (hs : ∀ p ∈ ps, IsSpecies p.2) :
    ∃ fuel mn mx cnt,
      new_design (name :: size :: (ps.flatMap (fun p => p.1 ++ [p.2]) ++ s))
        = match parse_design_name name with
          | none => none
          | some name1 =>
            match parse_size size with
            | none => none
            | some size1 =>
              match parse_loop (fuel + 1) s mn mx cnt with
              | none => none
              | some p => some (tighten name1 size1 p) := by
  have hlen := flat_length ps
  obtain ⟨mn, mx, cnt, h⟩ := parse_loop_skip ps s hc hs
    ((ps.flatMap (fun p => p.1 ++ [p.2]) ++ s).length - ps.length + 1)
    (fun _ => 0) (fun _ => 0) 0
  have hfuel : (ps.flatMap (fun p => p.1 ++ [p.2]) ++ s).length - ps.length + 1 + ps.length
      = (ps.flatMap (fun p => p.1 ++ [p.2]) ++ s).length + 1 := by
    rw [List.length_append]; omega
  rw [hfuel] at h
  refine ⟨(ps.flatMap (fun p => p.1 ++ [p.2]) ++ s).length - ps.length, mn, mx, cnt, ?_⟩
  unfold new_design
  simp only [peek_cons, List.tail_cons]
  rw [h]

/-- C17 (amended): `new_design` produces no design when the first character is not in
`A .. Z`; when the second character is not `S` or `L`; and when, after any number of
count and species pairs, the character at which `strtoul` stops is neither a lowercase
letter nor the end of the string nor a newline, in particular when the digits of a count
or of the total are followed by such a character. It produces a design on every record
of the form `<NAME><SIZE>(<count><species>)*<total>`, whatever the values of the counts
and whether or not the species are distinct. -/
theorem design_rejection :
    (∀ input : List Char, ¬ (65 ≤ (peek input).toNat ∧ (peek input).toNat ≤ 90) →
        new_design input = none) ∧
      (∀ input : List Char, peek input.tail ≠ 'S' → peek input.tail ≠ 'L' →
        new_design input = none) ∧
      (∀ (name size : Char) (ps : List (List Char × Char)) (s : List Char),
        (∀ p ∈ ps, IsDigits p.1 ∧ IsSpecies p.2) →
        ¬ IsSpecies (peek (strtoul s).2) → peek (strtoul s).2 ≠ Char.ofNat 0 →
        peek (strtoul s).2 ≠ '\n' →
        new_design (name :: size :: (ps.flatMap (fun p => p.1 ++ [p.2]) ++ s)) = none) ∧
      (∀ (name size : Char) (ps : List (List Char × Char)) (ds : List Char) (x : Char)
          (rest : List Char),
        (∀ p ∈ ps, IsDigits p.1 ∧ IsSpecies p.2) → IsDigits ds → isdigit x = false →
        ¬ IsSpecies x → x ≠ Char.ofNat 0 → x ≠ '\n' →
        new_design (name :: size :: (ps.flatMap (fun p => p.1 ++ [p.2]) ++ (ds ++ x :: rest)))
          = none) ∧
      (∀ r : Record, r.Shaped → (new_design r.text).isSome = true) := by
  have part3 : ∀ (name size : Char) (ps : List (List Char × Char)) (s : List Char),
      (∀ p ∈ ps, IsDigits p.1 ∧ IsSpecies p.2) →
      ¬ IsSpecies (peek (strtoul s).2) → peek (strtoul s).2 ≠ Char.ofNat 0 →
      peek (strtoul s).2 ≠ '\n' →
      new_design (name :: size :: (ps.flatMap (fun p => p.1 ++ [p.2]) ++ s)) = none := by
    intro name size ps s hps h1 h2 h3
    obtain ⟨fuel, mn, mx, cnt, h⟩ := new_design_text name size ps s
      (fun p hp => (hps p hp).1) (fun p hp => (hps p hp).2)
    rw [h, parse_loop_stop _ s mn mx cnt h1 h2 h3]
    cases parse_design_name name with
    | none => rfl
    | some n => cases parse_size size <;> rfl
  refine ⟨?_, ?_, part3, ?_, ?_⟩
  · intro input h
    have : parse_design_name (peek input) = none := by
      simp [parse_design_name, h]
    unfold new_design
    rw [this]
  · intro input h1 h2
    have : parse_size (peek input.tail) = none := by
      simp [parse_size, h1, h2]
    unfold new_design
    rw [this]
    cases parse_design_name (peek input) <;> rfl
  · intro name size ps ds x rest hps hds hx h1 h2 h3
    obtain ⟨v, hv⟩ := strtoul_digits_rest ds (x :: rest) hds (by rw [peek_cons]; exact hx)
    apply part3 name size ps _ hps
    · rw [hv, peek_cons]; exact h1
    · rw [hv, peek_cons]; exact h2
    · rw [hv, peek_cons]; exact h3
  · intro r hr
    obtain ⟨fuel, mn, mx, cnt, h⟩ := new_design_text r.name r.size r.pairs r.total
      hr.counts_ok hr.species_ok
    have hname : parse_design_name r.name = some r.name := by
      simp [parse_design_name, hr.name_ok]
    have hsize : ∃ sz, parse_size r.size = some sz := by
      rcases hr.size_ok with h | h
      · exact ⟨Size.Small, by rw [h]; rfl⟩
      · exact ⟨Size.Large, by rw [h]; rfl⟩
    obtain ⟨sz, hsz⟩ := hsize
    obtain ⟨v, hv⟩ := strtoul_digits_rest r.total [] hr.total_ok (by decide)
    rw [List.append_nil] at hv
    have hloop : ∃ p, parse_loop (fuel + 1) r.total mn mx cnt = some p := by
      rw [parse_loop]
      simp only [hv]
      exact ⟨_, if_pos (Or.inl rfl)⟩
    obtain ⟨p, hp⟩ := hloop
    show (new_design (r.name :: r.size ::
      (r.pairs.flatMap (fun p => p.1 ++ [p.2]) ++ r.total))).isSome = true
    rw [h, hname, hsz, hp]
    rfl

set_option maxRecDepth 100000 in
/-- C17, witness: the texts `aS3a3`, `AX3a3`, `AS3a#3`, `AS3a3 ` and `AS300a300a4`. -/
theorem design_rejection_witness :
    new_design ['a', 'S', '3', 'a', '3'] = none ∧
      new_design ['A', 'X', '3', 'a', '3'] = none ∧
      new_design ('A' :: 'S' :: ([(['3'], 'a')].flatMap (fun p => p.1 ++ [p.2]) ++ ['#', '3']))
        = none ∧
      new_design
          ('A' :: 'S' :: ([(['3'], 'a')].flatMap (fun p => p.1 ++ [p.2]) ++ (['3'] ++ ' ' :: [])))
        = none ∧
      (record_AS300a300a4.Shaped ∧ (new_design record_AS300a300a4.text).isSome = true) :=
  ⟨design_rejection.1 _ (by decide),
    design_rejection.2.1 _ (by decide) (by decide),
    design_rejection.2.2.1 'A' 'S' [(['3'], 'a')] ['#', '3'] (by decide) (by decide)
      (by decide) (by decide),
    design_rejection.2.2.2.1 'A' 'S' [(['3'], 'a')] ['3'] ' ' [] (by decide) (by decide)
      (by decide) (by decide) (by decide) (by decide),
    ⟨by decide, by decide, by decide, by decide, by decide⟩,
    design_rejection.2.2.2.2 record_AS300a300a4
      ⟨by decide, by decide, by decide, by decide, by decide⟩⟩

set_option maxRecDepth 100000 in
/-- C17 as stated fails: further characters after the total do not always make
`new_design` fail. In `AS3a3x` the `x` that follows the total 3 of the record `AS3a3` is
read as a second species with count 3, and the design is produced with total 0; in
`AS3a3` followed by a newline and `x`, the parsing stops at the newline and the design
is produced with total 3. -/
theorem design_rejection_fails :
    (new_design ['A', 'S', '3', 'a', '3']).map (fun d => d.total) = some 3 ∧
      (new_design ['A', 'S', '3', 'a', '3', 'x']).map (fun d => d.total) = some 0 ∧
      (new_design ['A', 'S', '3', 'a', '3', '\n', 'x']).map (fun d => d.total) = some 3 ∧
      ¬ (new_design ['A', 'S', '3', 'a', '3', 'x'] = none) ∧
      ¬ (new_design ['A', 'S', '3', 'a', '3', '\n', 'x'] = none) := by
  refine ⟨by decide, by decide, by decide, ?_, ?_⟩
  · intro h
    have : (new_design ['A', 'S', '3', 'a', '3', 'x']).map (fun d => d.total) = some 0 := by
      decide
    rw [h] at this
    exact absurd this (by decide)
  · intro h
    have : (new_design ['A', 'S', '3', 'a', '3', '\n', 'x']).map (fun d => d.total)
        = some 3 := by
      decide
    rw [h] at this
    exact absurd this (by decide)

/-! ## The engine refines the naive engine -/

theorem naive_scan_eq (dv : Division) (ds : List Design) (idx : Nat)
    (h : ∀ d ∈ ds, hand_of dv.minimal_stock d.max_stems
      = fun s => min (dv.stock s) (d.max_stems s)) :
    naive_scan dv.stock ds idx = (scan dv ds idx).2 := by
  induction ds generalizing idx with
  | nil => rfl
  | cons d ds ih =>
    have hd := h d (List.mem_cons_self _ _)
    have hp : passes dv.minimal_stock d
        = (!decide (amount_in_hand (fun s => min (dv.stock s) (d.max_stems s)) < d.total)
            && is_ge (fun s => min (dv.stock s) (d.max_stems s)) d.min_stems) := by
      unfold passes
      rw [hd]
    unfold naive_scan scan
    simp only []
    rw [hp, hd]
    split
    · rfl
    · exact ih (idx + 1) (fun e he => h e (List.mem_cons_of_mem _ he))

theorem synced_hand (dv : Division) (hs : Synced dv) :
    ∀ d ∈ dv.designs, hand_of dv.minimal_stock d.max_stems
      = fun s => min (dv.stock s) (d.max_stems s) :=
  fun d hd => funext (fun i => hand_eq_stock dv hs d hd i)

/-- One stem: the naive engine, run on the stock of a division in which `minimal_stock`
and `stock` go together and no design is completable, emits what `division_add_stem`
emits and ends with the same stock. -/
theorem naive_step (dv : Division) (c : Char) (hs : Synced dv)
    (hlow : dv.stock (lane c) < 32767)
    (hnc : ∀ d ∈ dv.designs, ¬ completable dv.stock d) :
    naive_add_stem dv.designs dv.stock c
      = ((division_add_stem dv c).1.stock, (division_add_stem dv c).2) := by
  have hnn := hs.stock_nonneg (lane c)
  have hw : wrap16 (dv.stock (lane c) + 1) = dv.stock (lane c) + 1 :=
    wrap16_id (by omega) (by omega)
  have hstock1 : Function.update dv.stock (lane c) (dv.stock (lane c) + 1)
      = (count_in_stock dv (lane c)).stock := by
    unfold count_in_stock
    rw [hw]
  have hnc1 := step_not_completable dv c hs hlow hnc
  by_cases hskip : (count_in_stock dv (lane c)).stock (lane c) > dv.max_per_species (lane c)
  · have hstep : division_add_stem dv c = (count_in_stock dv (lane c), none) := by
      unfold division_add_stem
      simp only [lane_eq]
      exact if_pos hskip
    have hsc := synced_count_skip dv hs (lane c) hlow hskip
    have hscan : naive_scan (count_in_stock dv (lane c)).stock dv.designs 0 = none := by
      have h1 := naive_scan_eq (count_in_stock dv (lane c)) dv.designs 0 (synced_hand _ hsc)
      rw [h1]
      cases hsn : scan (count_in_stock dv (lane c)) dv.designs 0 with
      | mk dv1 ob =>
        cases ob with
        | none => rfl
        | some b =>
          exfalso
          obtain ⟨j, h2, _, h4, _⟩ := scan_some _ _ _ _ _ hsn
          have hmem : b.design ∈ dv.designs := List.getElem?_mem h2
          have hcomp := (passes_iff_completable _ hsc b.design hmem).1 h4
          have := hnc1 b.design hmem
          rw [hstep] at this
          exact this hcomp
    unfold naive_add_stem
    simp only []
    rw [hstock1, hscan, hstep]
  · have hstep : division_add_stem dv c
        = scan (count_in_minimal_stock (count_in_stock dv (lane c)) (lane c))
            (dv.designs.take 26) 0 := by
      unfold division_add_stem
      simp only [lane_eq]
      exact if_neg hskip
    obtain ⟨hsc, _⟩ := synced_count dv hs (lane c) hlow hskip
    have htake : dv.designs.take 26 = dv.designs := List.take_of_length_le hs.len
    rw [htake] at hstep
    have h1 := naive_scan_eq (count_in_minimal_stock (count_in_stock dv (lane c)) (lane c))
      dv.designs 0 (synced_hand _ hsc)
    have hst2 : (count_in_minimal_stock (count_in_stock dv (lane c)) (lane c)).stock
        = (count_in_stock dv (lane c)).stock := rfl
    rw [hst2, ← hstep] at h1
    unfold naive_add_stem
    simp only []
    rw [hstock1, h1]
    cases hsn : division_add_stem dv c with
    | mk dv1 ob =>
      cases ob with
      | none =>
        rw [hsn] at hstep
        obtain ⟨h2, _⟩ := scan_none _ _ _ _ hstep.symm
        rw [h2]
        rfl
      | some b =>
        rw [hsn] at hstep
        obtain ⟨j, h2, _, h4, _, h6, _, h8⟩ := scan_some _ _ _ _ _ hstep.symm
        have hmem : b.design ∈ dv.designs := List.getElem?_mem h2
        obtain ⟨_, _, w3, _, _⟩ := synced_withdraw _ hsc b.design hmem h4
        rw [← h6] at w3
        show ((fun s => if s < 26 then (count_in_stock dv (lane c)).stock s - b.amounts s
          else (count_in_stock dv (lane c)).stock s), some b) = (dv1.stock, some b)
        have : dv1.stock = fun s =>
            if s < 26 then (count_in_stock dv (lane c)).stock s - b.amounts s
            else (count_in_stock dv (lane c)).stock s := by
          funext s
          rw [h8]
          by_cases hs26 : s < 26
          · rw [if_pos hs26, w3 s hs26]
            rfl
          · rw [if_neg hs26, withdraw_eq]
            show (if s < 26 ∧ b.amounts s ≠ 0 then _ else
              (count_in_stock dv (lane c)).stock s) = _
            rw [if_neg (fun h => hs26 h.1)]
        rw [this]

theorem naive_run (stems : List Char) (dv : Division) (hs : Synced dv)
    (hst : ∀ c ∈ stems, IsSpecies c) (hlow : stock_below dv stems)
    (hnc : ∀ d ∈ dv.designs, ¬ completable dv.stock d) :
    naive_add_stems dv.designs dv.stock stems
      = ((add_stems dv stems).1.stock, (add_stems dv stems).2) := by
  induction stems generalizing dv with
  | nil => rfl
  | cons c rest ih =>
    have hc := lane_lt_of_isSpecies (hst c (List.mem_cons_self _ _))
    have hl := stock_below_head dv c rest hlow _ hc
    have h1 := naive_step dv c hs hl hnc
    have h2 := ih (division_add_stem dv c).1 (step_synced dv c hs hl)
      (fun c1 hc1 => hst c1 (List.mem_cons_of_mem _ hc1)) (stock_below_tail dv c rest hlow)
      (by
        rw [(step_designs dv c).1]
        exact step_not_completable dv c hs hl hnc)
    rw [(step_designs dv c).1] at h2
    show ((naive_add_stems dv.designs (naive_add_stem dv.designs dv.stock c).1 rest).1,
      (naive_add_stem dv.designs dv.stock c).2.toList
        ++ (naive_add_stems dv.designs (naive_add_stem dv.designs dv.stock c).1 rest).2) = _
    rw [h1]
    show ((naive_add_stems dv.designs (division_add_stem dv c).1.stock rest).1,
      (division_add_stem dv c).2.toList
        ++ (naive_add_stems dv.designs (division_add_stem dv c).1.stock rest).2) = _
    rw [h2]
    rfl

/-- C12 (amended): in a pool of designs built by `new_design` from well-formed records
with total at least 1, made production ready with empty stock, and along any sequence of
stems during which every stock count stays below 32767, after every stem the bouquets
emitted so far by `division_add_stem` and the stock it leaves are those of the naive
engine, which keeps only the raw stock, never skips the scan, computes
`hand[s] = min (stock[s], design.max[s])` for each design in registration order, applies
the same amount test, minimum test and trimming, and emits the first design that
passes. -/
theorem refines_naive (ds : List Design) (p : Division) (stems : List Char)
    (hds : ∀ d ∈ ds, ∃ r : Record, r.WellFormed ∧ 1 ≤ r.T ∧ new_design r.text = some d)
    (hp : pool_of ds = some p) (hst : ∀ c ∈ stems, IsSpecies c)
    (hlow : stock_below p stems) :
    ∀ n, n ≤ stems.length →
      (add_stems p (stems.take n)).2 = (naive_add_stems ds (fun _ => 0) (stems.take n)).2 ∧
        ∀ s, (add_stems p (stems.take n)).1.stock s
          = (naive_add_stems ds (fun _ => 0) (stems.take n)).1 s := by
  have hsound : ∀ d ∈ ds, Tight d ∨ Dead d := by
    intro d hd
    obtain ⟨r, hw, _, hr⟩ := hds d hd
    exact sound_of_wf d ⟨r, hw, hr⟩
  obtain ⟨hs, h0, hdes⟩ := pool_synced ds p hp hsound
  have hnc : ∀ d ∈ p.designs, ¬ completable p.stock d := by
    intro d hd
    rw [hdes] at hd
    obtain ⟨r, hw, hT, hr⟩ := hds d hd
    rw [new_design_valid r hw.valid] at hr
    cases hr
    exact empty_not_completable _ (hsound _ hd) hT p.stock h0
  have hstock : p.stock = fun _ => 0 := funext h0
  intro n _
  have hlow1 : stock_below p (stems.take n) := by
    have := hlow
    rw [← List.take_append_drop n stems] at this
    exact (stock_below_initial p _ _ this).1
  have := naive_run (stems.take n) p hs (fun c hc => hst c (List.mem_of_mem_take hc)) hlow1 hnc
  rw [hdes, hstock] at this
  rw [this]
  exact ⟨rfl, fun _ => rfl⟩

set_option maxRecDepth 1000000 in
/-- C12, witness: the pool of `BS9a2b9` fed seven stems of `a` and two of `b`. -/
theorem refines_naive_witness :
    (∀ d ∈ [design_BS9a2b9],
        ∃ r : Record, r.WellFormed ∧ 1 ≤ r.T ∧ new_design r.text = some d) ∧
      pool_of [design_BS9a2b9] = some pool_B ∧
      stock_below pool_B ['a', 'a', 'a', 'a', 'a', 'a', 'a', 'b', 'b'] ∧
      (add_stems pool_B ['a', 'a', 'a', 'a', 'a', 'a', 'a', 'b', 'b']).2.length = 1 ∧
      ∀ n, n ≤ ['a', 'a', 'a', 'a', 'a', 'a', 'a', 'b', 'b'].length →
        (add_stems pool_B (['a', 'a', 'a', 'a', 'a', 'a', 'a', 'b', 'b'].take n)).2
          = (naive_add_stems [design_BS9a2b9] (fun _ => 0)
              (['a', 'a', 'a', 'a', 'a', 'a', 'a', 'b', 'b'].take n)).2 ∧
        ∀ s, (add_stems pool_B (['a', 'a', 'a', 'a', 'a', 'a', 'a', 'b', 'b'].take n)).1.stock s
          = (naive_add_stems [design_BS9a2b9] (fun _ => 0)
              (['a', 'a', 'a', 'a', 'a', 'a', 'a', 'b', 'b'].take n)).1 s :=
  ⟨pool_B_wf_pos, rfl, by decide, by decide,
    refines_naive [design_BS9a2b9] pool_B _ pool_B_wf_pos rfl (by decide) (by decide)⟩

theorem naive_scan_none (stock : Nat → Int) (ds : List Design) (idx : Nat)
    (h : ∀ d ∈ ds, passes stock d = false) : naive_scan stock ds idx = none := by
  induction ds generalizing idx with
  | nil => rfl
  | cons d ds ih =>
    have hp := h d (List.mem_cons_self _ _)
    have e : naive_scan stock (d :: ds) idx
        = if passes stock d = true then
            some ⟨idx, d, (trim d (hand_of stock d.max_stems)).1,
              (trim d (hand_of stock d.max_stems)).2⟩
          else naive_scan stock ds (idx + 1) := rfl
    rw [e, hp, if_neg (by decide)]
    exact ih (idx + 1) (fun e he => h e (List.mem_cons_of_mem _ he))

/-- The naive engine on stems of `a` only, for the design `AS126a1b127`: nothing is
emitted and the count of `a` grows without bound. -/
theorem naive_run_a (n m : Nat) :
    naive_add_stems [design_AS126a1b127] (fun i => if i = 0 then (m : Int) else 0)
        (List.replicate n 'a')
      = (fun i => if i = 0 then ((m + n : Nat) : Int) else 0, []) := by
  induction n generalizing m with
  | zero => rfl
  | succ n ih =>
    have hup : Function.update (fun i => if i = 0 then (m : Int) else 0) (lane 'a')
        ((fun i => if i = 0 then (m : Int) else 0) (lane 'a') + 1)
        = fun i => if i = 0 then ((m + 1 : Nat) : Int) else 0 := by
      funext i
      rw [lane_a, Function.update_apply]
      by_cases hi : i = 0
      · rw [if_pos hi, if_pos hi]
        simp
      · simp [hi]
    have hscan : naive_scan (fun i => if i = 0 then ((m + 1 : Nat) : Int) else 0)
        [design_AS126a1b127] 0 = none := by
      apply naive_scan_none
      intro d hd
      rw [List.mem_singleton] at hd
      rw [hd]
      apply not_passes_AS126a1b127
      · simp only [if_true]; omega
      · simp
      · intro i h1 _
        rw [if_neg (by omega)]
      · right
        simp
    have hstep : naive_add_stem [design_AS126a1b127] (fun i => if i = 0 then (m : Int) else 0)
        'a' = (fun i => if i = 0 then ((m + 1 : Nat) : Int) else 0, none) := by
      unfold naive_add_stem
      simp only []
      rw [hup, hscan]
    show ((naive_add_stems [design_AS126a1b127]
        (naive_add_stem [design_AS126a1b127] (fun i => if i = 0 then (m : Int) else 0) 'a').1
        (List.replicate n 'a')).1,
      (naive_add_stem [design_AS126a1b127] (fun i => if i = 0 then (m : Int) else 0)
        'a').2.toList
        ++ (naive_add_stems [design_AS126a1b127]
          (naive_add_stem [design_AS126a1b127] (fun i => if i = 0 then (m : Int) else 0) 'a').1
          (List.replicate n 'a')).2) = _
    rw [hstep]
    show ((naive_add_stems [design_AS126a1b127]
        (fun i => if i = 0 then ((m + 1 : Nat) : Int) else 0) (List.replicate n 'a')).1,
      [] ++ (naive_add_stems [design_AS126a1b127]
        (fun i => if i = 0 then ((m + 1 : Nat) : Int) else 0) (List.replicate n 'a')).2) = _
    rw [ih (m + 1)]
    have e : m + 1 + n = m + (n + 1) := by omega
    rw [e]
    rfl

/-- C12 as stated fails: in the pool of the well-formed record `AS126a1b127` (total
127), after 32768 stems of `a` the 16-bit stock of `a` holds -32768, while the naive
engine, which counts without bound, holds 32768. -/
theorem refines_naive_fails :
    (∀ d ∈ [design_AS126a1b127],
        ∃ r : Record, r.WellFormed ∧ 1 ≤ r.T ∧ new_design r.text = some d) ∧
      pool_of [design_AS126a1b127] = some pool_A126 ∧
      (∀ c ∈ List.replicate 32768 'a', IsSpecies c) ∧
      (add_stems pool_A126 (List.replicate 32768 'a')).1.stock 0 = -32768 ∧
      (naive_add_stems [design_AS126a1b127] (fun _ => 0) (List.replicate 32768 'a')).1 0
        = 32768 ∧
      ¬ (∀ s, (add_stems pool_A126 (List.replicate 32768 'a')).1.stock s
          = (naive_add_stems [design_AS126a1b127] (fun _ => 0)
              (List.replicate 32768 'a')).1 s) := by
  obtain ⟨_, h2, _⟩ := run_a 32768 (by decide)
  have e2 : wrap16 ((32768 : Nat) : Int) = -32768 := by decide
  rw [e2] at h2
  have hz : (fun _ : Nat => (0 : Int)) = fun i => if i = 0 then ((0 : Nat) : Int) else 0 := by
    funext i
    split <;> rfl
  have hn := naive_run_a 32768 0
  rw [← hz] at hn
  have hn0 : (naive_add_stems [design_AS126a1b127] (fun _ => 0)
      (List.replicate 32768 'a')).1 0 = 32768 := by
    rw [hn]
    rfl
  refine ⟨pool_A126_wf_pos, rfl, ?_, h2, hn0, ?_⟩
  · intro c hc
    rw [(List.mem_replicate.1 hc).2]
    decide
  · intro hall
    have := hall 0
    rw [h2, hn0] at this
    exact absurd this (by decide)

end Cstem
